import Mathlib

/-! A verification development for `https`, a fluent HTTP client in Go.

The file embeds `src/https.go` in Lean.  A Go `string` is a sequence of bytes,
a Go `map[string]string` is a nil-able association list, and the functions of
the Go standard library that the client calls (`net/url`, `encoding/json`,
`unicode/utf8`) are embedded from their Go 1.22 sources at the byte level.
-/

namespace Https

/-! ## Go strings -/

/-- One byte of a Go string. -/
abbrev Byte := Fin 256

/-- A Go `string`: an immutable sequence of bytes (not necessarily valid UTF-8). -/
abbrev GoString := List Byte

/-- The byte of an ASCII character literal. -/
def ch (c : Char) : Byte := Fin.ofNat c.toNat

/-- The Go string of an ASCII string literal. -/
def str (s : String) : GoString := s.toList.map ch

/-- Go `strings.HasPrefix`. -/
def hasPrefix : GoString → GoString → Bool
  | _, [] => true
  | [], _ :: _ => false
  | c :: s, p :: ps => c == p && hasPrefix s ps

/-- Go `strings.Cut` for a one-byte separator: the text before the first
separator, the text after it, and whether the separator was found. -/
def cut (sep : Byte) : GoString → GoString × GoString × Bool
  | [] => ([], [], false)
  | c :: s =>
    if c = sep then ([], s, true)
    else
      let r := cut sep s
      (c :: r.1, r.2.1, r.2.2)

/-- Go `strings.Count` for a one-byte separator. -/
def count (sep : Byte) (s : GoString) : Nat := (s.filter (fun c => c == sep)).length

/-- Go `strings.LastIndex` for a one-byte separator, as a split: the text before
the last separator and the text after it, or `none` when there is none. -/
def cutLast (sep : Byte) : GoString → Option (GoString × GoString)
  | [] => none
  | c :: s =>
    match cutLast sep s with
    | some (a, b) => some (c :: a, b)
    | none => if c = sep then some ([], s) else none

/-- Go `strings.Index` for a general pattern, as a split: the text before the
first occurrence and the text from the occurrence on. -/
def cutAt (pat : GoString) : GoString → Option (GoString × GoString)
  | [] => if pat = [] then some ([], []) else none
  | c :: s =>
    if hasPrefix (c :: s) pat then some ([], c :: s)
    else
      match cutAt pat s with
      | some (a, b) => some (c :: a, b)
      | none => none

/-- Go `strings.ToLower` on ASCII text (the only text it is applied to). -/
def toLower (s : GoString) : GoString :=
  s.map (fun c => if ch 'A' ≤ c ∧ c ≤ ch 'Z' then c + 32 else c)

deriving instance DecidableEq for Except

/-! ## Go maps -/

/-- The entries of a non-nil Go `map[string]string`.  The value of a key is the
one of its first entry; the write `m[k] = v` keeps one entry per key. -/
abbrev Entries := List (GoString × GoString)

/-- The map read `m[k]` with the comma-ok flag. -/
def Entries.get? : Entries → GoString → Option GoString
  | [], _ => none
  | (k, v) :: m, key => if k = key then some v else Entries.get? m key

/-- The map write `m[k] = v`. -/
def Entries.set : Entries → GoString → GoString → Entries
  | [], key, val => [(key, val)]
  | (k, v) :: m, key, val =>
    if k = key then (k, val) :: m else (k, v) :: Entries.set m key val

/-- The keys of a map, each once. -/
def Entries.keys (m : Entries) : List GoString := (m.map Prod.fst).dedup

/-- A Go `map[string]string` value: `none` is the nil map. -/
abbrev GoMap := Option Entries

/-- Go `len(m)`; the nil map has length 0. -/
def GoMap.len : GoMap → Nat
  | none => 0
  | some m => (Entries.keys m).length

/-- The entries a `range` loop visits; none for the nil map. -/
def GoMap.range : GoMap → Entries
  | none => []
  | some m => (Entries.keys m).filterMap (fun k => (Entries.get? m k).map (fun v => (k, v)))

/-- The map read `m[k]`; the nil map has no keys. -/
def GoMap.get? : GoMap → GoString → Option GoString
  | none, _ => none
  | some m, k => Entries.get? m k

/-- The map write `m[k] = v`; `none` is the run-time panic of a write into a
nil map. -/
def GoMap.set : GoMap → GoString → GoString → Option GoMap
  | none, _, _ => none
  | some m, k, v => some (some (Entries.set m k v))

/-! ## `net/url`: escaping -/

namespace Url

/-- The `encoding` modes of `net/url`. -/
inductive Encoding
  | encodePath
  | encodePathSegment
  | encodeHost
  | encodeZone
  | encodeUserPassword
  | encodeQueryComponent
  | encodeFragment
  deriving DecidableEq, Repr

/-- The errors that parsing in `net/url` reports. -/
inductive ParseError
  /-- `EscapeError(s)`: invalid URL escape. -/
  | escape (s : GoString)
  /-- `InvalidHostError(s)`: invalid character in host name. -/
  | invalidHost (s : GoString)
  /-- "net/url: invalid control character in URL". -/
  | controlCharacter
  /-- "missing protocol scheme". -/
  | missingScheme
  /-- "first path segment in URL cannot contain colon". -/
  | firstSegmentColon
  /-- "net/url: invalid userinfo". -/
  | invalidUserinfo
  /-- "missing ']' in host". -/
  | missingBracket
  /-- "invalid port %q after host". -/
  | invalidPort (port : GoString)
  /-- "invalid semicolon separator in query". -/
  | semicolon
  /-- "empty url". -/
  | emptyURL
  /-- "invalid URI for request". -/
  | invalidRequestURI
  deriving DecidableEq, Repr

/-- Go `ishex`. -/
def ishex (c : Byte) : Bool :=
  (ch '0' ≤ c && c ≤ ch '9') || (ch 'a' ≤ c && c ≤ ch 'f') || (ch 'A' ≤ c && c ≤ ch 'F')

/-- Go `unhex`. -/
def unhex (c : Byte) : Byte :=
  if ch '0' ≤ c ∧ c ≤ ch '9' then c - ch '0'
  else if ch 'a' ≤ c ∧ c ≤ ch 'f' then c - ch 'a' + 10
  else if ch 'A' ≤ c ∧ c ≤ ch 'F' then c - ch 'A' + 10
  else 0

/-- The digit `"0123456789ABCDEF"[n]` of Go `upperhex`, for `n < 16`. -/
def upperhex (n : Nat) : Byte :=
  if n < 10 then Fin.ofNat (48 + n) else Fin.ofNat (55 + n)

/-- The byte `unhex(a)<<4 | unhex(b)`; the two nibbles do not overlap, so the
bitwise or is a sum. -/
def hexByte (a b : Byte) : Byte := Fin.ofNat ((unhex a).val * 16 + (unhex b).val)

/-- Go `shouldEscape`: whether byte `c` has to be escaped in mode `mode`. -/
def shouldEscape (c : Byte) (mode : Encoding) : Bool :=
  if (ch 'a' ≤ c ∧ c ≤ ch 'z') ∨ (ch 'A' ≤ c ∧ c ≤ ch 'Z') ∨ (ch '0' ≤ c ∧ c ≤ ch '9') then false
  else if (mode = .encodeHost ∨ mode = .encodeZone) ∧
      c ∈ [ch '!', ch '$', ch '&', 39, ch '(', ch ')', ch '*', ch '+', ch ',', ch ';',
           ch '=', ch ':', ch '[', ch ']', ch '<', ch '>', 34] then false
  else if c ∈ [ch '-', ch '_', ch '.', ch '~'] then false
  else if c ∈ [ch '$', ch '&', ch '+', ch ',', ch '/', ch ':', ch ';', ch '=', ch '?', ch '@'] ∧
      mode ∈ [.encodePath, .encodePathSegment, .encodeUserPassword, .encodeQueryComponent,
              .encodeFragment] then
    match mode with
    | .encodePath => c == ch '?'
    | .encodePathSegment => c == ch '/' || c == ch ';' || c == ch ',' || c == ch '?'
    | .encodeUserPassword => c == ch '@' || c == ch '/' || c == ch '?' || c == ch ':'
    | .encodeQueryComponent => true
    | _ => false
  else if mode = .encodeFragment ∧ c ∈ [ch '!', ch '(', ch ')', ch '*'] then false
  else true

/-- The first loop of Go `unescape`: it checks that every `%` starts a
well-formed escape and returns the number of escapes and `hasPlus`. -/
def unescapeScan (mode : Encoding) : GoString → Nat → Bool → Except ParseError (Nat × Bool)
  | [], n, hasPlus => .ok (n, hasPlus)
  | c :: s, n, hasPlus =>
    if c = ch '%' then
      match s with
      | a :: b :: rest =>
        if !ishex a || !ishex b then .error (.escape [c, a, b])
        else if mode = .encodeHost ∧ (unhex a).val < 8 ∧ [c, a, b] ≠ str "%25" then
          .error (.escape [c, a, b])
        else if mode = .encodeZone ∧ [c, a, b] ≠ str "%25" ∧ hexByte a b ≠ ch ' ' ∧
            shouldEscape (hexByte a b) .encodeHost then
          .error (.escape [c, a, b])
        else unescapeScan mode rest (n + 1) hasPlus
      | _ => .error (.escape (c :: s))
    else if c = ch '+' then
      unescapeScan mode s n (decide (mode = .encodeQueryComponent))
    else if (mode = .encodeHost ∨ mode = .encodeZone) ∧ c.val < 128 ∧ shouldEscape c .encodeHost then
      .error (.invalidHost [c])
    else unescapeScan mode s n hasPlus

/-- The second loop of Go `unescape`: it writes the decoded bytes. -/
def unescapeWrite (mode : Encoding) : GoString → GoString
  | [] => []
  | c :: s =>
    if c = ch '%' then
      match s with
      | a :: b :: rest => hexByte a b :: unescapeWrite mode rest
      | _ => []
    else if c = ch '+' then
      (if mode = .encodeQueryComponent then ch ' ' else ch '+') :: unescapeWrite mode s
    else c :: unescapeWrite mode s

/-- Go `unescape`. -/
def unescape (s : GoString) (mode : Encoding) : Except ParseError GoString :=
  match unescapeScan mode s 0 false with
  | .error e => .error e
  | .ok (n, hasPlus) => if n = 0 ∧ !hasPlus then .ok s else .ok (unescapeWrite mode s)

/-- The second loop of Go `escape`: it writes the escaped bytes. -/
def escapeWrite (mode : Encoding) : GoString → GoString
  | [] => []
  | c :: s =>
    if c = ch ' ' ∧ mode = .encodeQueryComponent then ch '+' :: escapeWrite mode s
    else if shouldEscape c mode then
      ch '%' :: upperhex (c.val / 16) :: upperhex (c.val % 16) :: escapeWrite mode s
    else c :: escapeWrite mode s

/-- Go `escape`: the first loop counts the bytes to escape; the text is
returned as it is when there are none, and only its spaces are replaced when
no byte needs a hexadecimal escape. -/
def escape (s : GoString) (mode : Encoding) : GoString :=
  let spaceCount := (s.filter (fun c => shouldEscape c mode &&
    decide (c = ch ' ' ∧ mode = .encodeQueryComponent))).length
  let hexCount := (s.filter (fun c => shouldEscape c mode &&
    !decide (c = ch ' ' ∧ mode = .encodeQueryComponent))).length
  if spaceCount = 0 ∧ hexCount = 0 then s
  else if hexCount = 0 then s.map (fun c => if c = ch ' ' then ch '+' else c)
  else escapeWrite mode s

/-- Go `url.QueryEscape`. -/
def QueryEscape (s : GoString) : GoString := escape s .encodeQueryComponent

/-- Go `url.QueryUnescape`. -/
def QueryUnescape (s : GoString) : Except ParseError GoString := unescape s .encodeQueryComponent

/-! ## `net/url`: query values -/

/-- Go `url.Values`, a `map[string][]string`; one entry per key. -/
abbrev Values := List (GoString × List GoString)

/-- The map read `v[key]`: the values of the key, none when it is absent. -/
def Values.lookup : Values → GoString → List GoString
  | [], _ => []
  | (k, vs) :: m, key => if k = key then vs else Values.lookup m key

/-- Go `Values.Add`: `v[key] = append(v[key], value)`. -/
def Values.Add : Values → GoString → GoString → Values
  | [], key, value => [(key, [value])]
  | (k, vs) :: m, key, value =>
    if k = key then (k, vs ++ [value]) :: m else (k, vs) :: Values.Add m key value

/-- The keys of the map. -/
def Values.keys (v : Values) : List GoString := v.map Prod.fst

/-- Go `Values.Encode`: the "URL encoded" form `bar=baz&foo=quux`, sorted by
key.  `slices.Sort` orders Go strings bytewise, as `≤` on byte lists does. -/
def Values.Encode (v : Values) : GoString :=
  if v.keys.length = 0 then []
  else
    let keys := List.insertionSort (· ≤ ·) v.keys
    keys.foldl (fun buf k =>
      let keyEscaped := QueryEscape k
      (v.lookup k).foldl (fun buf val =>
        (if buf.length > 0 then buf ++ [ch '&'] else buf)
          ++ keyEscaped ++ [ch '='] ++ QueryEscape val) buf) []

/-- The texts that `strings.Cut(query, "&")` yields in turn in the loop
`for query != ""` of Go `parseQuery`. -/
def pieces : GoString → List GoString
  | [] => []
  | c :: s =>
    if c = ch '&' then [] :: pieces s
    else
      match pieces s with
      | [] => [[c]]
      | p :: ps => (c :: p) :: ps

/-- One round of the loop of Go `parseQuery`, on the text `key` cut off the
query. -/
def parseQueryStep (acc : Values × Option ParseError) (key : GoString) :
    Values × Option ParseError :=
  if ch ';' ∈ key then (acc.1, some .semicolon)
  else if key = [] then acc
  else
    let kv := cut (ch '=') key
    match QueryUnescape kv.1 with
    | .error err1 => (acc.1, if acc.2 = none then some err1 else acc.2)
    | .ok key1 =>
      match QueryUnescape kv.2.1 with
      | .error err1 => (acc.1, if acc.2 = none then some err1 else acc.2)
      | .ok value => (Values.Add acc.1 key1 value, acc.2)

/-- Go `url.ParseQuery`: the values of a URL-encoded query string and the first
decoding error, if any. -/
def ParseQuery (query : GoString) : Values × Option ParseError :=
  (pieces query).foldl parseQueryStep ([], none)

/-! ## `net/url`: URLs -/

/-- Go `url.Userinfo`. -/
structure Userinfo where
  username : GoString
  password : GoString
  passwordSet : Bool
  deriving DecidableEq, Repr

/-- Go `url.URL`. -/
structure URL where
  Scheme : GoString := []
  Opaque : GoString := []
  User : Option Userinfo := none
  Host : GoString := []
  Path : GoString := []
  RawPath : GoString := []
  OmitHost : Bool := false
  ForceQuery : Bool := false
  RawQuery : GoString := []
  Fragment : GoString := []
  RawFragment : GoString := []
  deriving DecidableEq, Repr

/-- Go `url.Error`: the operation, the URL and the cause. -/
structure Error where
  Op : String
  URL : GoString
  Err : ParseError
  deriving DecidableEq, Repr

/-- Go `stringContainsCTLByte`. -/
def stringContainsCTLByte (s : GoString) : Bool := s.any (fun b => b < ch ' ' || b == 127)

/-- The loop of Go `getScheme`; `i` is the index of the byte in turn. -/
def getSchemeLoop (rawURL : GoString) : GoString → Nat → Except ParseError (GoString × GoString)
  | [], _ => .ok ([], rawURL)
  | c :: s, i =>
    if (ch 'a' ≤ c ∧ c ≤ ch 'z') ∨ (ch 'A' ≤ c ∧ c ≤ ch 'Z') then getSchemeLoop rawURL s (i + 1)
    else if (ch '0' ≤ c ∧ c ≤ ch '9') ∨ c = ch '+' ∨ c = ch '-' ∨ c = ch '.' then
      if i = 0 then .ok ([], rawURL) else getSchemeLoop rawURL s (i + 1)
    else if c = ch ':' then
      if i = 0 then .error .missingScheme else .ok (rawURL.take i, s)
    else .ok ([], rawURL)

/-- Go `getScheme`: the scheme and the rest of the URL. -/
def getScheme (rawURL : GoString) : Except ParseError (GoString × GoString) :=
  getSchemeLoop rawURL rawURL 0

/-- Go `validOptionalPort`. -/
def validOptionalPort : GoString → Bool
  | [] => true
  | c :: port => c == ch ':' && port.all (fun b => ch '0' ≤ b && b ≤ ch '9')

/-- Go `validUserinfo`.  The Go loop ranges over runes; a byte outside ASCII
starts a rune outside ASCII, which is refused like the byte is here. -/
def validUserinfo (s : GoString) : Bool :=
  s.all (fun r =>
    (ch 'A' ≤ r && r ≤ ch 'Z') || (ch 'a' ≤ r && r ≤ ch 'z') || (ch '0' ≤ r && r ≤ ch '9') ||
    decide (r ∈ [ch '-', ch '.', ch '_', ch ':', ch '~', ch '!', ch '$', ch '&', 39, ch '(',
      ch ')', ch '*', ch '+', ch ',', ch ';', ch '=', ch '%', ch '@']))

/-- Go `parseHost`. -/
def parseHost (host : GoString) : Except ParseError GoString :=
  if hasPrefix host (str "[") then
    match cutLast (ch ']') host with
    | none => .error .missingBracket
    | some (before, colonPort) =>
      if !validOptionalPort colonPort then .error (.invalidPort colonPort)
      else
        match cutAt (str "%25") before with
        | some (part1, part2) =>
          match unescape part1 .encodeHost with
          | .error e => .error e
          | .ok host1 =>
            match unescape part2 .encodeZone with
            | .error e => .error e
            | .ok host2 =>
              match unescape (ch ']' :: colonPort) .encodeHost with
              | .error e => .error e
              | .ok host3 => .ok (host1 ++ host2 ++ host3)
        | none => unescape host .encodeHost
  else
    match cutLast (ch ':') host with
    | some (_, port) =>
      if !validOptionalPort (ch ':' :: port) then .error (.invalidPort (ch ':' :: port))
      else unescape host .encodeHost
    | none => unescape host .encodeHost

/-- Go `parseAuthority`. -/
def parseAuthority (authority : GoString) : Except ParseError (Option Userinfo × GoString) :=
  match cutLast (ch '@') authority with
  | none =>
    match parseHost authority with
    | .error e => .error e
    | .ok host => .ok (none, host)
  | some (userinfo, hostport) =>
    match parseHost hostport with
    | .error e => .error e
    | .ok host =>
      if !validUserinfo userinfo then .error .invalidUserinfo
      else if ch ':' ∉ userinfo then
        match unescape userinfo .encodeUserPassword with
        | .error e => .error e
        | .ok username => .ok (some ⟨username, [], false⟩, host)
      else
        let up := cut (ch ':') userinfo
        match unescape up.1 .encodeUserPassword with
        | .error e => .error e
        | .ok username =>
          match unescape up.2.1 .encodeUserPassword with
          | .error e => .error e
          | .ok password => .ok (some ⟨username, password, true⟩, host)

/-- Go `URL.setPath`. -/
def URL.setPath (u : URL) (p : GoString) : Except ParseError URL :=
  match unescape p .encodePath with
  | .error e => .error e
  | .ok path =>
    if p = escape path .encodePath then .ok { u with Path := path, RawPath := [] }
    else .ok { u with Path := path, RawPath := p }

/-- Go `URL.setFragment`. -/
def URL.setFragment (u : URL) (f : GoString) : Except ParseError URL :=
  match unescape f .encodeFragment with
  | .error e => .error e
  | .ok frag =>
    if f = escape frag .encodeFragment then .ok { u with Fragment := frag, RawFragment := [] }
    else .ok { u with Fragment := frag, RawFragment := f }

/-- Go `parse`: the URL without its fragment. -/
def parse (rawURL : GoString) (viaRequest : Bool) : Except ParseError URL :=
  if stringContainsCTLByte rawURL then .error .controlCharacter
  else if rawURL = [] ∧ viaRequest then .error .emptyURL
  else if rawURL = str "*" then .ok { Path := str "*" }
  else
    match getScheme rawURL with
    | .error e => .error e
    | .ok (scheme, rest0) =>
      let url0 : URL := { Scheme := toLower scheme }
      let forced : Bool := rest0.getLast? = some (ch '?') ∧ count (ch '?') rest0 = 1
      let rest := if forced then rest0.dropLast else (cut (ch '?') rest0).1
      let url1 : URL :=
        if forced then { url0 with ForceQuery := true }
        else { url0 with RawQuery := (cut (ch '?') rest0).2.1 }
      if !hasPrefix rest (str "/") ∧ url1.Scheme ≠ [] then .ok { url1 with Opaque := rest }
      else if !hasPrefix rest (str "/") ∧ viaRequest then .error .invalidRequestURI
      else if !hasPrefix rest (str "/") ∧ ch ':' ∈ (cut (ch '/') rest).1 then
        .error .firstSegmentColon
      else if (url1.Scheme ≠ [] ∨ (!viaRequest ∧ !hasPrefix rest (str "///"))) ∧
          hasPrefix rest (str "//") then
        let a := cut (ch '/') (rest.drop 2)
        let rest2 := if a.2.2 then ch '/' :: a.2.1 else []
        match parseAuthority a.1 with
        | .error e => .error e
        | .ok (user, host) => URL.setPath { url1 with User := user, Host := host } rest2
      else if url1.Scheme ≠ [] ∧ hasPrefix rest (str "/") then
        URL.setPath { url1 with OmitHost := true } rest
      else URL.setPath url1 rest

/-- Go `url.Parse`. -/
def Parse (rawURL : GoString) : Except Error URL :=
  let uf := cut (ch '#') rawURL
  match parse uf.1 false with
  | .error e => .error ⟨"parse", uf.1, e⟩
  | .ok url =>
    if uf.2.1 = [] then .ok url
    else
      match URL.setFragment url uf.2.1 with
      | .error e => .error ⟨"parse", rawURL, e⟩
      | .ok url => .ok url

/-- Go `validEncoded`. -/
def validEncoded (s : GoString) (mode : Encoding) : Bool :=
  s.all (fun c =>
    decide (c ∈ [ch '!', ch '$', ch '&', 39, ch '(', ch ')', ch '*', ch '+', ch ',', ch ';',
      ch '=', ch ':', ch '@', ch '[', ch ']', ch '%']) || !shouldEscape c mode)

/-- Go `URL.EscapedPath`. -/
def URL.EscapedPath (u : URL) : GoString :=
  if u.RawPath ≠ [] ∧ validEncoded u.RawPath .encodePath ∧
      unescape u.RawPath .encodePath = .ok u.Path then u.RawPath
  else if u.Path = str "*" then str "*"
  else escape u.Path .encodePath

/-- Go `URL.EscapedFragment`. -/
def URL.EscapedFragment (u : URL) : GoString :=
  if u.RawFragment ≠ [] ∧ validEncoded u.RawFragment .encodeFragment ∧
      unescape u.RawFragment .encodeFragment = .ok u.Fragment then u.RawFragment
  else escape u.Fragment .encodeFragment

/-- Go `Userinfo.String`. -/
def Userinfo.String (u : Userinfo) : GoString :=
  escape u.username .encodeUserPassword ++
    (if u.passwordSet then ch ':' :: escape u.password .encodeUserPassword else [])

/-- Go `URL.String`: the text written into the buffer up to the query. -/
def URL.stringHead (u : URL) : GoString :=
  let buf0 := if u.Scheme ≠ [] then u.Scheme ++ [ch ':'] else []
  if u.Opaque ≠ [] then buf0 ++ u.Opaque
  else
    let buf1 :=
      if u.Scheme ≠ [] ∨ u.Host ≠ [] ∨ u.User.isSome then
        if u.OmitHost ∧ u.Host = [] ∧ u.User.isNone then buf0
        else
          let b1 := if u.Host ≠ [] ∨ u.Path ≠ [] ∨ u.User.isSome then buf0 ++ str "//" else buf0
          let b2 :=
            match u.User with
            | some ui => b1 ++ ui.String ++ [ch '@']
            | none => b1
          if u.Host ≠ [] then b2 ++ escape u.Host .encodeHost else b2
      else buf0
    let path := u.EscapedPath
    let buf2 :=
      if path ≠ [] ∧ path.head? ≠ some (ch '/') ∧ u.Host ≠ [] then buf1 ++ [ch '/'] else buf1
    let buf3 :=
      if buf2.length = 0 ∧ ch ':' ∈ (cut (ch '/') path).1 then buf2 ++ str "./" else buf2
    buf3 ++ path

/-- Go `URL.String`. -/
def URL.String (u : URL) : GoString :=
  let buf := u.stringHead
  let buf := if u.ForceQuery ∨ u.RawQuery ≠ [] then buf ++ [ch '?'] ++ u.RawQuery else buf
  if u.Fragment ≠ [] then buf ++ [ch '#'] ++ u.EscapedFragment else buf

end Url

/-! ## `unicode/utf8` -/

namespace Utf8

/-- Go `utf8.RuneError`, U+FFFD. -/
def RuneError : Nat := 0xFFFD

/-- The table `first` of Go `unicode/utf8`: information about the first byte of
a UTF-8 sequence.  `0xF0` is ASCII (`as`), `0xF1` an invalid starter (`xx`);
otherwise the low three bits are the size and the high four bits the index
into `acceptRanges`. -/
def first (b : Byte) : Nat :=
  if b.val < 0x80 then 0xF0
  else if b.val < 0xC2 then 0xF1
  else if b.val < 0xE0 then 0x02
  else if b.val = 0xE0 then 0x13
  else if b.val < 0xED then 0x03
  else if b.val = 0xED then 0x23
  else if b.val < 0xF0 then 0x03
  else if b.val = 0xF0 then 0x34
  else if b.val < 0xF4 then 0x04
  else if b.val = 0xF4 then 0x44
  else 0xF1

/-- The table `acceptRanges` of Go `unicode/utf8`: the range of valid values for
the second byte of a sequence. -/
def acceptRanges : Nat → Nat × Nat
  | 0 => (0x80, 0xBF)
  | 1 => (0xA0, 0xBF)
  | 2 => (0x80, 0x9F)
  | 3 => (0x90, 0xBF)
  | 4 => (0x80, 0x8F)
  | _ => (0, 0)

/-- Go `utf8.DecodeRuneInString`: the first rune of the text and its width in
bytes; `(RuneError, 1)` when the encoding is invalid.  The masks and shifts
of the source (`s0&mask2<<6 | s1&maskx`, ...) are written as remainders and
products, the bit fields being disjoint. -/
def DecodeRuneInString : GoString → Nat × Nat
  | [] => (RuneError, 0)
  | s0 :: t =>
    let x := first s0
    if x ≥ 0xF0 then (if x = 0xF0 then s0.val else RuneError, 1)
    else
      let sz := x % 8
      let accept := acceptRanges (x / 16)
      if (s0 :: t).length < sz then (RuneError, 1)
      else
        match t with
        | [] => (RuneError, 1)
        | s1 :: t1 =>
          if s1.val < accept.1 ∨ accept.2 < s1.val then (RuneError, 1)
          else if sz ≤ 2 then ((s0.val % 32) * 64 + s1.val % 64, 2)
          else
            match t1 with
            | [] => (RuneError, 1)
            | s2 :: t2 =>
              if s2.val < 0x80 ∨ 0xBF < s2.val then (RuneError, 1)
              else if sz ≤ 3 then
                ((s0.val % 16) * 4096 + (s1.val % 64) * 64 + s2.val % 64, 3)
              else
                match t2 with
                | [] => (RuneError, 1)
                | s3 :: _ =>
                  if s3.val < 0x80 ∨ 0xBF < s3.val then (RuneError, 1)
                  else
                    ((s0.val % 8) * 262144 + (s1.val % 64) * 4096 + (s2.val % 64) * 64
                      + s3.val % 64, 4)

/-- Go `utf8.EncodeRune`: the UTF-8 encoding of a rune; a rune out of range or
a surrogate half is encoded as `RuneError`. -/
def EncodeRune (r : Nat) : GoString :=
  if r ≤ 0x7F then [Fin.ofNat r]
  else if r ≤ 0x7FF then [Fin.ofNat (0xC0 + r / 64), Fin.ofNat (0x80 + r % 64)]
  else if r > 0x10FFFF ∨ (0xD800 ≤ r ∧ r ≤ 0xDFFF) then [0xEF, 0xBF, 0xBD]
  else if r ≤ 0xFFFF then
    [Fin.ofNat (0xE0 + r / 4096), Fin.ofNat (0x80 + r / 64 % 64), Fin.ofNat (0x80 + r % 64)]
  else
    [Fin.ofNat (0xF0 + r / 262144), Fin.ofNat (0x80 + r / 4096 % 64),
      Fin.ofNat (0x80 + r / 64 % 64), Fin.ofNat (0x80 + r % 64)]

/-- The loop of Go `utf8.ValidString`: no rune of the text decodes to
`(RuneError, 1)`.  `skip` counts the bytes of the rune in turn that are still
to be passed over. -/
def validFrom : Nat → GoString → Bool
  | _, [] => true
  | skip + 1, _ :: s => validFrom skip s
  | 0, b :: s =>
    if b.val < 0x80 then validFrom 0 s
    else
      let cs := DecodeRuneInString (b :: s)
      if cs.1 = RuneError ∧ cs.2 = 1 then false else validFrom (cs.2 - 1) s

/-- Go `utf8.ValidString`: the text consists entirely of valid UTF-8-encoded
runes. -/
def ValidString (s : GoString) : Bool := validFrom 0 s

end Utf8

/-! ## `encoding/json`: strings and string maps -/

namespace Json

/-- The table `htmlSafeSet` of Go `encoding/json`: the ASCII bytes written as
they are, all from the space on but the quote, `&`, `<`, `>` and the
backslash. -/
def htmlSafeSet (b : Byte) : Bool :=
  0x20 ≤ b.val && b.val < 0x80 && !(b == 34 || b == ch '&' || b == ch '<' || b == ch '>' || b == 92)

/-- The digit `"0123456789abcdef"[n]` of Go `hex`, for `n < 16`. -/
def hex (n : Nat) : Byte :=
  if n < 10 then Fin.ofNat (48 + n) else Fin.ofNat (87 + n)

/-- The escape Go `appendString` writes for an ASCII byte outside
`htmlSafeSet`. -/
def escapeByte (b : Byte) : GoString :=
  if b = 92 ∨ b = 34 then [92, b]
  else if b = 8 then [92, ch 'b']
  else if b = 12 then [92, ch 'f']
  else if b = 10 then [92, ch 'n']
  else if b = 13 then [92, ch 'r']
  else if b = 9 then [92, ch 't']
  else [92, ch 'u', ch '0', ch '0', hex (b.val / 16), hex (b.val % 16)]

/-- The loop of Go `appendString` with `escapeHTML` set: the text written
between the quotes.  A rune of `size` bytes advances the index by `size`:
`skip` counts the bytes of the rune in turn that are still to be passed
over. -/
def appendStringFrom : Nat → GoString → GoString
  | _, [] => []
  | skip + 1, _ :: s => appendStringFrom skip s
  | 0, b :: s =>
    if b.val < 0x80 then
      if htmlSafeSet b then b :: appendStringFrom 0 s
      else escapeByte b ++ appendStringFrom 0 s
    else
      let cs := Utf8.DecodeRuneInString ((b :: s).take 4)
      if cs.1 = Utf8.RuneError ∧ cs.2 = 1 then
        [92, ch 'u', ch 'f', ch 'f', ch 'f', ch 'd'] ++ appendStringFrom 0 s
      else if cs.1 = 0x2028 ∨ cs.1 = 0x2029 then
        [92, ch 'u', ch '2', ch '0', ch '2', hex (cs.1 % 16)] ++ appendStringFrom (cs.2 - 1) s
      else (b :: s).take cs.2 ++ appendStringFrom (cs.2 - 1) s

/-- The text Go `appendString` writes between the quotes. -/
def appendStringLoop (src : GoString) : GoString := appendStringFrom 0 src

/-- Go `appendString`: the JSON string literal of a Go string. -/
def appendString (src : GoString) : GoString := 34 :: appendStringLoop src ++ [34]

/-- The loop of Go `mapEncoder.encode` over the sorted keys: `i` is the index
of the entry in turn. -/
def encodeMembers : List (GoString × GoString) → Nat → GoString
  | [], _ => []
  | (k, v) :: kvs, i =>
    (if i > 0 then [ch ','] else []) ++ appendString k ++ [ch ':'] ++ appendString v
      ++ encodeMembers kvs (i + 1)

/-- Go `json.Marshal` on a `map[string]string`: `null` for the nil map, else
the object of the entries sorted by key.  Strings cannot fail to encode, so
the error is always nil. -/
def Marshal : GoMap → GoString × Option String
  | none => (str "null", none)
  | some m =>
    let keys := List.insertionSort (· ≤ ·) (Entries.keys m)
    let sv := keys.filterMap (fun k => (Entries.get? m k).map (fun v => (k, v)))
    (ch '{' :: encodeMembers sv 0 ++ [ch '}'], none)

end Json

/-! ## The client of `src/https.go` -/

/-- A Go `error` value, as the client meets it. -/
inductive GoError
  /-- `errors.New(text)`. -/
  | errorString (text : String)
  /-- The `*url.Error` of `url.Parse`. -/
  | url (e : Url.Error)
  /-- An error of `json.Marshal`. -/
  | json (text : String)
  /-- "net/http: invalid method %q" of `http.NewRequest`. -/
  | invalidMethod (method : GoString)
  /-- An error of the transport or of the response normalizer. -/
  | transport (text : String)
  deriving DecidableEq, Repr

/-- `MethodType`, a string type. -/
abbrev MethodType := GoString

/-- `ContentType`, a string type. -/
abbrev ContentType := GoString

/-- The constant `Get`. -/
def Get : MethodType := str "GET"
/-- The constant `Post`. -/
def Post : MethodType := str "POST"
/-- The constant `Put`. -/
def Put : MethodType := str "PUT"
/-- The constant `Patch`. -/
def Patch : MethodType := str "PATCH"
/-- The constant `Delete`. -/
def Delete : MethodType := str "DELETE"

/-- The constant `JsonType`. -/
def JsonType : ContentType := str "application/json"
/-- The constant `FormType`. -/
def FormType : ContentType := str "application/x-www-form-urlencoded"

/-- The constant `timeout`, `30 * time.Second` in nanoseconds. -/
def timeout : Int := 30 * 1000000000

/-- The fields of `http.Cookie` that name a cookie. -/
structure Cookie where
  Name : GoString
  Value : GoString
  deriving DecidableEq, Repr

/-- The struct `Client`. -/
structure Client where
  url : GoString
  headers : GoMap
  cookies : List Cookie
  timeout : Int
  params : GoMap
  contentType : ContentType
  method : MethodType
  body : GoString
  deriving DecidableEq, Repr

/-- `NewClient`. -/
def NewClient (url : GoString) : Client :=
  { url := url
    headers := some []
    cookies := []
    timeout := timeout
    params := some []
    contentType := JsonType
    method := []
    body := [] }

namespace Client

/-- `SetHeaders`. -/
def SetHeaders (c : Client) (headers : GoMap) : Client := { c with headers := headers }

/-- `AddHeader`; `none` is the panic of a write into a nil map. -/
def AddHeader (c : Client) (key value : GoString) : Option Client :=
  match GoMap.set c.headers key value with
  | none => none
  | some h => some { c with headers := h }

/-- `SetContentType`; `none` is the panic of a write into a nil map. -/
def SetContentType (c : Client) (contentType : ContentType) : Option Client :=
  if contentType = JsonType then
    match GoMap.set c.headers (str "Content-Type") (str "application/json") with
    | none => none
    | some h => some { c with headers := h, contentType := contentType }
  else if contentType = FormType then
    match GoMap.set c.headers (str "Content-Type") (str "application/x-www-form-urlencoded") with
    | none => none
    | some h => some { c with headers := h, contentType := contentType }
  else some { c with contentType := contentType }

/-- `AddParam`; `none` is the panic of a write into a nil map. -/
def AddParam (c : Client) (key value : GoString) : Option Client :=
  match GoMap.set c.params key value with
  | none => none
  | some p => some { c with params := p }

/-- `SetCookies`. -/
def SetCookies (c : Client) (cookies : List Cookie) : Client := { c with cookies := cookies }

/-- `SetTimeout`. -/
def SetTimeout (c : Client) (timeout : Int) : Client := { c with timeout := timeout }

/-- `SetBody`. -/
def SetBody (c : Client) (body : GoString) : Client := { c with body := body }

/-- `setMethodType`. -/
def setMethodType (c : Client) (method : MethodType) : Client := { c with method := method }

/-- `parseQuery`: the URL with the params as its query, and the error. -/
def parseQuery (c : Client) : GoString × Option GoError :=
  let reqUrl := c.url
  let paramsQuery : Url.Values :=
    (GoMap.range c.params).foldl (fun q kv => Url.Values.Add q kv.1 kv.2) []
  match Url.Parse reqUrl with
  | .error err => (reqUrl, some (.url err))
  | .ok reqUrlObj =>
    let reqUrlObj := { reqUrlObj with RawQuery := Url.Values.Encode paramsQuery }
    (reqUrlObj.String, none)

/-- `parseData`: the URL, the content of the body reader (`none` is the nil
reader) and the error. -/
def parseData (c : Client) : GoString × Option GoString × Option GoError :=
  if GoMap.len c.params ≤ 0 then (c.url, none, none)
  else if c.contentType = JsonType then
    match Json.Marshal c.params with
    | (_, some err) => (c.url, none, some (.json err))
    | (b, none) => (c.url, some b, none)
  else if c.contentType = FormType then
    let postData : Url.Values :=
      (GoMap.range c.params).foldl (fun q kv => Url.Values.Add q kv.1 kv.2) []
    (c.url, some (Url.Values.Encode postData), none)
  else (c.url, none, some (.errorString "unsupported Content-Type"))

/-- `parse`: the URL, the content of the body reader (`none` is the nil reader)
and the error. -/
def parse (c : Client) : GoString × Option GoString × Option GoError :=
  if c.method = Get ∨ c.method = Delete then
    let r := c.parseQuery
    (r.1, none, r.2)
  else if c.method = Post ∨ c.method = Put ∨ c.method = Patch then c.parseData
  else (c.url, none, some (.errorString "unsupported method"))

end Client

/-! ## The request that `do` builds -/

/-- The `http.Request` that `do` builds: the method, the parsed URL and the body
of `http.NewRequest`, the `Header.Add(k, v)` calls and the `AddCookie` calls of
`do`, in the order of the loops. -/
structure Request where
  Method : GoString
  URL : Url.URL
  Body : Option GoString
  Header : List (GoString × GoString)
  Cookies : List Cookie
  deriving DecidableEq, Repr

/-- The token characters of `net/http` (`httpguts.IsTokenRune`). -/
def isToken (c : Byte) : Bool :=
  (ch 'a' ≤ c && c ≤ ch 'z') || (ch 'A' ≤ c && c ≤ ch 'Z') || (ch '0' ≤ c && c ≤ ch '9') ||
  decide (c ∈ [ch '!', ch '#', ch '$', ch '%', ch '&', 39, ch '*', ch '+', ch '-', ch '.',
    ch '^', ch '_', 96, ch '|', ch '~'])

/-- Go `validMethod` of `net/http`. -/
def validMethod (method : GoString) : Bool := method.length > 0 && method.all isToken

/-- Go `strings.LastIndex` for a one-byte separator; `-1` when there is none. -/
def lastIndex (sep : Byte) (s : GoString) : Int :=
  match cutLast sep s with
  | some (before, _) => before.length
  | none => -1

/-- Go `removeEmptyPort` of `net/http`. -/
def removeEmptyPort (host : GoString) : GoString :=
  if lastIndex (ch ':') host > lastIndex (ch ']') host then
    (if host.getLast? = some (ch ':') then host.dropLast else host)
  else host

/-- Go `http.NewRequest`: the request with an empty header. -/
def NewRequest (method url : GoString) (body : Option GoString) : Except GoError Request :=
  let method := if method = [] then str "GET" else method
  if !validMethod method then .error (.invalidMethod method)
  else
    match Url.Parse url with
    | .error err => .error (.url err)
    | .ok u =>
      .ok { Method := method, URL := { u with Host := removeEmptyPort u.Host }, Body := body,
            Header := [], Cookies := [] }

/-- What a call of `do` did: the errors it logged, the request it handed to the
transport (if it got that far), and the response and error it returned. -/
structure DoResult (ρ : Type) where
  logged : List GoError
  sent : Option Request
  response : Option ρ
  err : Option GoError

namespace Client

/-- `do`.  The transport call `httpClient.Do` with the client's timeout and the
response normalizer `buildResponse`, which are not part of `src/https.go`, are
the parameters `roundTrip` and `buildResponse`. -/
def «do» {τ ρ : Type} (roundTrip : Request → Int → τ)
    (buildResponse : τ → Option ρ × Option GoError) (c : Client) : DoResult ρ :=
  match c.parse with
  | (_, _, some err) => { logged := [err], sent := none, response := none, err := some err }
  | (reqUrl, reader, none) =>
    match NewRequest c.method reqUrl reader with
    | .error err => { logged := [], sent := none, response := none, err := some err }
    | .ok request =>
      let request := (GoMap.range c.headers).foldl
        (fun r kv => { r with Header := r.Header ++ [(kv.1, kv.2)] }) request
      let request := c.cookies.foldl
        (fun r cookie => { r with Cookies := r.Cookies ++ [cookie] }) request
      let res := buildResponse (roundTrip request c.timeout)
      { logged := [], sent := some request, response := res.1, err := res.2 }

/-- `Get`. -/
def Get {τ ρ : Type} (roundTrip : Request → Int → τ)
    (buildResponse : τ → Option ρ × Option GoError) (c : Client) : DoResult ρ :=
  (c.setMethodType Https.Get).do roundTrip buildResponse

/-- `Post`. -/
def Post {τ ρ : Type} (roundTrip : Request → Int → τ)
    (buildResponse : τ → Option ρ × Option GoError) (c : Client) : DoResult ρ :=
  (c.setMethodType Https.Post).do roundTrip buildResponse

/-- `Put`. -/
def Put {τ ρ : Type} (roundTrip : Request → Int → τ)
    (buildResponse : τ → Option ρ × Option GoError) (c : Client) : DoResult ρ :=
  (c.setMethodType Https.Put).do roundTrip buildResponse

/-- `Patch`. -/
def Patch {τ ρ : Type} (roundTrip : Request → Int → τ)
    (buildResponse : τ → Option ρ × Option GoError) (c : Client) : DoResult ρ :=
  (c.setMethodType Https.Patch).do roundTrip buildResponse

/-- `Delete`. -/
def Delete {τ ρ : Type} (roundTrip : Request → Int → τ)
    (buildResponse : τ → Option ρ × Option GoError) (c : Client) : DoResult ρ :=
  (c.setMethodType Https.Delete).do roundTrip buildResponse

end Client

/-! ## Reading back what the client wrote

The definitions of this section are not taken from `src/https.go`: they say
what it means to parse a body back as JSON and to take the query component of
a URL, for the round-trip properties. -/

namespace Readback

/-- The query component of a URL text (RFC 3986, section 3.4): what stands
after the first `?` of the text before the first `#`. -/
def queryComponent (u : GoString) : GoString := (cut (ch '?') (cut (ch '#') u).1).2.1

/-- JSON white space. -/
def isSpace (c : Byte) : Bool := c == 32 || c == 9 || c == 13 || c == 10

/-- The text without its leading white space. -/
def skipSpace : GoString → GoString
  | [] => []
  | c :: s => if isSpace c then skipSpace s else c :: s

/-- The text after the next token `c`, white space skipped. -/
def expect (c : Byte) (s : GoString) : Option GoString :=
  match skipSpace s with
  | [] => none
  | x :: r => if x = c then some r else none

/-- The value of a hexadecimal digit. -/
def hexVal (c : Byte) : Option Nat :=
  if ch '0' ≤ c ∧ c ≤ ch '9' then some (c.val - 48)
  else if ch 'a' ≤ c ∧ c ≤ ch 'f' then some (c.val - 87)
  else if ch 'A' ≤ c ∧ c ≤ ch 'F' then some (c.val - 55)
  else none

/-- The value of four hexadecimal digits. -/
def getu4 (a b c d : Byte) : Option Nat :=
  match hexVal a, hexVal b, hexVal c, hexVal d with
  | some w, some x, some y, some z => some (w * 4096 + x * 256 + y * 16 + z)
  | _, _, _, _ => none

/-- The byte a one-letter escape stands for. -/
def simpleEscape (e : Byte) : Option Byte :=
  if e = 34 ∨ e = 92 ∨ e = ch '/' then some e
  else if e = ch 'b' then some 8
  else if e = ch 'f' then some 12
  else if e = ch 'n' then some 10
  else if e = ch 'r' then some 13
  else if e = ch 't' then some 9
  else none

/-- The low surrogate that completes the high surrogate `r`, when the text
starts with the escape of one. -/
def lowSurrogate (r : Nat) : GoString → Option Nat
  | b :: u :: e :: f :: g :: h :: _ =>
    if b = 92 ∧ u = ch 'u' ∧ 0xD800 ≤ r ∧ r < 0xDC00 then
      match getu4 e f g h with
      | some r1 => if 0xDC00 ≤ r1 ∧ r1 < 0xE000 then some r1 else none
      | none => none
    else none
  | _ => none

/-- The bytes an escape sequence stands for, read from behind its backslash,
and the number of bytes of the text the sequence takes: a one-letter escape
stands for its byte, `uXXXX` for the UTF-8 encoding of the code point (a lone
surrogate for U+FFFD), and a surrogate pair `uXXXX\uXXXX` for its code
point. -/
def readEscape : GoString → Option (GoString × Nat)
  | [] => none
  | e :: s1 =>
    if e = ch 'u' then
      match s1 with
      | h1 :: h2 :: h3 :: h4 :: s2 =>
        match getu4 h1 h2 h3 h4 with
        | none => none
        | some r =>
          match lowSurrogate r s2 with
          | some r1 =>
            some (Utf8.EncodeRune ((r - 0xD800) * 1024 + (r1 - 0xDC00) + 0x10000), 11)
          | none => some (Utf8.EncodeRune r, 5)
      | _ => none
    else
      match simpleEscape e with
      | none => none
      | some x => some ([x], 1)

/-- The content of a JSON string literal and the text after its closing quote,
read from behind the opening quote after `skip` more bytes of an escape
sequence are passed over.  Escapes are decoded; control characters are
refused; every other byte stands for itself. -/
def readStringFrom : Nat → GoString → Option (GoString × GoString)
  | _, [] => none
  | skip + 1, _ :: s => readStringFrom skip s
  | 0, c :: s =>
    if c = 34 then some ([], s)
    else if c = 92 then
      match readEscape s with
      | none => none
      | some (x, n) => (readStringFrom n s).map (fun p => (x ++ p.1, p.2))
    else if c.val < 0x20 then none
    else (readStringFrom 0 s).map (fun p => (c :: p.1, p.2))

/-- The content of a JSON string literal, read from behind its opening quote,
and the text after its closing quote. -/
def readString (s : GoString) : Option (GoString × GoString) := readStringFrom 0 s

/-- The members `"key": "value"` of a JSON object up to its closing brace,
written into the map in turn (a later duplicate of a key overwrites), and the
text after the brace.  Every member consumes text, so `fuel` as large as the
text suffices. -/
def readMembers : Nat → GoString → Entries → Option (Entries × GoString)
  | 0, _, _ => none
  | fuel + 1, s, acc =>
    match expect 34 s with
    | none => none
    | some s1 =>
      match readString s1 with
      | none => none
      | some (k, s2) =>
        match expect (ch ':') s2 with
        | none => none
        | some s3 =>
          match expect 34 s3 with
          | none => none
          | some s4 =>
            match readString s4 with
            | none => none
            | some (v, s5) =>
              match expect (ch ',') s5, expect (ch '}') s5 with
              | some s6, _ => readMembers fuel s6 (Entries.set acc k v)
              | none, some s6 => some (Entries.set acc k v, s6)
              | none, none => none

/-- The mapping a JSON text denotes when it is an object whose member values
are strings; `none` when it is not such a text. -/
def parseObject (s : GoString) : Option Entries :=
  match expect (ch '{') s with
  | none => none
  | some s1 =>
    match expect (ch '}') s1 with
    | some s2 => if skipSpace s2 = [] then some [] else none
    | none =>
      match readMembers s1.length s1 [] with
      | some (m, s2) => if skipSpace s2 = [] then some m else none
      | none => none

/-- The members `"key": "value"` of a JSON object up to its closing brace, in
the order of the text, a repeated key kept as often as it stands there, and
the text after the brace.  Every member consumes text, so `fuel` as large as
the text suffices. -/
def readMemberList : Nat → GoString → List (GoString × GoString) →
    Option (List (GoString × GoString) × GoString)
  | 0, _, _ => none
  | fuel + 1, s, acc =>
    match expect 34 s with
    | none => none
    | some s1 =>
      match readString s1 with
      | none => none
      | some (k, s2) =>
        match expect (ch ':') s2 with
        | none => none
        | some s3 =>
          match expect 34 s3 with
          | none => none
          | some s4 =>
            match readString s4 with
            | none => none
            | some (v, s5) =>
              match expect (ch ',') s5, expect (ch '}') s5 with
              | some s6, _ => readMemberList fuel s6 (acc ++ [(k, v)])
              | none, some s6 => some (acc ++ [(k, v)], s6)
              | none, none => none

/-- The members of a JSON text that is an object whose member values are
strings, in the order of the text; `none` when it is not such a text. -/
def parseMembers (s : GoString) : Option (List (GoString × GoString)) :=
  match expect (ch '{') s with
  | none => none
  | some s1 =>
    match expect (ch '}') s1 with
    | some s2 => if skipSpace s2 = [] then some [] else none
    | none =>
      match readMemberList s1.length s1 [] with
      | some (m, s2) => if skipSpace s2 = [] then some m else none
      | none => none

end Readback

/-! ## Chains of mutator calls -/

/-- One call of a mutator of the client, with its arguments. -/
inductive Mutator
  | SetHeaders (headers : GoMap)
  | AddHeader (key value : GoString)
  | SetContentType (contentType : ContentType)
  | AddParam (key value : GoString)
  | SetCookies (cookies : List Cookie)
  | SetTimeout (timeout : Int)
  | SetBody (body : GoString)
  deriving DecidableEq, Repr

/-- The configuration after one mutator call; `none` when the call panics. -/
def Client.call (c : Client) : Mutator → Option Client
  | .SetHeaders headers => some (c.SetHeaders headers)
  | .AddHeader key value => c.AddHeader key value
  | .SetContentType contentType => c.SetContentType contentType
  | .AddParam key value => c.AddParam key value
  | .SetCookies cookies => some (c.SetCookies cookies)
  | .SetTimeout timeout => some (c.SetTimeout timeout)
  | .SetBody body => some (c.SetBody body)

/-- The configuration after a chain of mutator calls, made from left to right;
`none` when one of the calls panics. -/
def Client.chain (c : Client) : List Mutator → Option Client
  | [] => some c
  | m :: ms =>
    match c.call m with
    | none => none
    | some c2 => Client.chain c2 ms

/-! ## Map lemmas -/

theorem Entries.get?_set_self (m : Entries) (k v : GoString) :
    Entries.get? (Entries.set m k v) k = some v := by
  induction m with
  | nil => simp [Entries.set, Entries.get?]
  | cons e m ih =>
    obtain ⟨k1, v1⟩ := e
    by_cases h : k1 = k
    · simp [Entries.set, Entries.get?, h]
    · simp [Entries.set, Entries.get?, h, ih]

theorem Entries.get?_set_of_ne (m : Entries) (k v key : GoString) (hne : key ≠ k) :
    Entries.get? (Entries.set m k v) key = Entries.get? m key := by
  induction m with
  | nil =>
    have h : ¬ k = key := fun h => hne h.symm
    simp [Entries.set, Entries.get?, h]
  | cons e m ih =>
    obtain ⟨k1, v1⟩ := e
    by_cases h : k1 = k
    · have h2 : ¬ k = key := fun h => hne h.symm
      simp [Entries.set, Entries.get?, h, h2]
    · by_cases h3 : k1 = key
      · subst h3
        simp [Entries.set, Entries.get?, h]
      · simp [Entries.set, Entries.get?, h, h3, ih]

/-! ## The method switch of `parse` -/

/-- C1: for a configuration whose method is GET or DELETE, whatever its params,
`parse` returns a nil reader together with the URL and the error of
`parseQuery`, and neither the content type nor the body field plays a part in
the result. -/
theorem parse_get_delete_is_parseQuery (c : Client)
    (hm : c.method = Get ∨ c.method = Delete) :
    c.parse = (c.parseQuery.1, none, c.parseQuery.2) ∧
    ∀ (ct : ContentType) (b : GoString),
      ({ c with contentType := ct, body := b } : Client).parse = c.parse := by
  constructor
  · simp [Client.parse, hm]
  · intro ct b
    simp [Client.parse, hm, Client.parseQuery]

theorem parse_get_delete_is_parseQuery_witness :
    ((NewClient (str "http://x.test/api")).setMethodType Delete).method = Delete ∧
    ((NewClient (str "http://x.test/api")).setMethodType Delete).parse
      = (str "http://x.test/api", none, none) ∧
    ({ (NewClient (str "http://x.test/api")).setMethodType Delete with
        contentType := str "text/plain", body := str "raw" } : Client).parse
      = (str "http://x.test/api", none, none) := by
  have h := parse_get_delete_is_parseQuery
    ((NewClient (str "http://x.test/api")).setMethodType Delete) (Or.inr rfl)
  refine ⟨rfl, ?_, ?_⟩
  · rw [h.1]; decide
  · rw [h.2, h.1]; decide

/-- C2: for a configuration whose method is POST, PUT or PATCH and whose params
are empty, `parse` succeeds with the url field itself as the effective URL and
a nil reader, whatever the body field holds. -/
theorem parse_body_method_empty_params (c : Client)
    (hm : c.method = Post ∨ c.method = Put ∨ c.method = Patch)
    (hp : GoMap.len c.params = 0) :
    c.parse = (c.url, none, none) := by
  have h1 : ¬ (c.method = Get ∨ c.method = Delete) := by
    rcases hm with h | h | h <;> rw [h] <;> decide
  simp [Client.parse, h1, hm, Client.parseData, hp]

theorem parse_body_method_empty_params_witness :
    (((NewClient (str "http://x.test/api")).SetBody (str "raw")).setMethodType Post).method = Post ∧
    GoMap.len (((NewClient (str "http://x.test/api")).SetBody (str "raw")).setMethodType
      Post).params = 0 ∧
    (((NewClient (str "http://x.test/api")).SetBody (str "raw")).setMethodType Post).parse
      = (str "http://x.test/api", none, none) ∧
    ((Client.Post (fun _ _ => ()) (fun _ => ((none : Option Unit), none))
        ((NewClient (str "http://x.test/api")).SetBody (str "raw"))).sent.map
          (fun r => (r.Method, r.URL.String, r.Body)))
      = some (str "POST", str "http://x.test/api", none) :=
  ⟨rfl, rfl,
    parse_body_method_empty_params
      (((NewClient (str "http://x.test/api")).SetBody (str "raw")).setMethodType Post)
      (Or.inl rfl) rfl,
    by decide⟩

/-- C10: for a configuration whose method is none of GET, POST, PUT, PATCH and
DELETE, `parse` fails with the error "unsupported method", a nil reader and
the url field unchanged, whatever the params and the content type; the unset
method of a client fresh from `NewClient` is such a method. -/
theorem parse_unsupported_method (c : Client)
    (hm : c.method ≠ Get ∧ c.method ≠ Post ∧ c.method ≠ Put ∧ c.method ≠ Patch ∧
      c.method ≠ Delete) :
    c.parse = (c.url, none, some (.errorString "unsupported method")) := by
  obtain ⟨h1, h2, h3, h4, h5⟩ := hm
  simp [Client.parse, h1, h2, h3, h4, h5]

theorem parse_unsupported_method_witness :
    ((NewClient (str "http://x.test/api")).method ≠ Get ∧
      (NewClient (str "http://x.test/api")).method ≠ Post ∧
      (NewClient (str "http://x.test/api")).method ≠ Put ∧
      (NewClient (str "http://x.test/api")).method ≠ Patch ∧
      (NewClient (str "http://x.test/api")).method ≠ Delete) ∧
    (NewClient (str "http://x.test/api")).parse
      = (str "http://x.test/api", none, some (.errorString "unsupported method")) :=
  ⟨by decide, parse_unsupported_method (NewClient (str "http://x.test/api")) (by decide)⟩

/-! ## The end-to-end scenarios -/

/-- The request that `do` hands to the transport when `parse` succeeds: the one
of `http.NewRequest` with the headers and the cookies of the client added. -/
theorem Client.do_sent {τ ρ : Type} (roundTrip : Request → Int → τ)
    (buildResponse : τ → Option ρ × Option GoError) (c : Client)
    (reqUrl : GoString) (reader : Option GoString)
    (hp : c.parse = (reqUrl, reader, none)) :
    (c.do roundTrip buildResponse).sent =
      (NewRequest c.method reqUrl reader).toOption.map (fun request =>
        c.cookies.foldl (fun r cookie => { r with Cookies := r.Cookies ++ [cookie] })
          ((GoMap.range c.headers).foldl
            (fun r kv => { r with Header := r.Header ++ [(kv.1, kv.2)] }) request)) := by
  simp only [Client.do, hp]
  cases NewRequest c.method reqUrl reader <;> rfl

/-- C6, the claim as stated fails: the effective URL of scenario A is not
`http://x.test/api?q=a%20b`. -/
theorem scenarioA_url_is_not_percent20 :
    ((NewClient (str "http://x.test/api")).AddParam (str "q") (str "a b")).map
        (fun c => (c.setMethodType Get).parse.1)
      ≠ some (str "http://x.test/api?q=a%20b") := by
  decide

/-- C6, amended: in scenario A, `NewClient("http://x.test/api")` with
`AddParam("q", "a b")` dispatched with `Get`, the effective URL that `parse`
returns and that the request carries is exactly `http://x.test/api?q=a+b`: the
space of the value is written as `+`, with a nil reader and no error. -/
theorem scenarioA_url_is_plus {τ ρ : Type} (roundTrip : Request → Int → τ)
    (buildResponse : τ → Option ρ × Option GoError) :
    ∃ c, (NewClient (str "http://x.test/api")).AddParam (str "q") (str "a b") = some c ∧
      (c.setMethodType Get).parse = (str "http://x.test/api?q=a+b", none, none) ∧
      (c.Get roundTrip buildResponse).sent.map (fun r => (r.Method, r.URL.String, r.Body))
        = some (str "GET", str "http://x.test/api?q=a+b", none) := by
  refine ⟨_, rfl, by decide, ?_⟩
  rw [Client.Get, Client.do_sent roundTrip buildResponse _ (str "http://x.test/api?q=a+b") none
    (by decide)]
  decide

/-- C7, the code at the failing input: in scenario B, a client fresh from
`NewClient` with `AddParam("name", "go")` dispatched with `Post`, the request
carries the body `{"name":"go"}` and the content type of the client is JSON,
but no header at all is attached to the request, so no `Content-Type`. -/
theorem scenarioB_no_content_type_header {τ ρ : Type} (roundTrip : Request → Int → τ)
    (buildResponse : τ → Option ρ × Option GoError) :
    ∃ c, (NewClient (str "http://x.test/api")).AddParam (str "name") (str "go") = some c ∧
      c.contentType = JsonType ∧
      GoMap.get? c.headers (str "Content-Type") = none ∧
      (c.Post roundTrip buildResponse).sent.map (fun r => (r.Method, r.URL.String, r.Body, r.Header))
        = some (str "POST", str "http://x.test/api", some (str "\x7b\"name\":\"go\"\x7d"), []) := by
  refine ⟨_, rfl, rfl, rfl, ?_⟩
  rw [Client.Post, Client.do_sent roundTrip buildResponse _ (str "http://x.test/api")
    (some (str "\x7b\"name\":\"go\"\x7d")) (by decide)]
  rfl

/-! ## `SetContentType` -/

/-- C8: on a configuration with a non-nil headers mapping `SetContentType(t)`
returns normally and sets the content type to `t`, leaving url, cookies,
timeout, params, method and body as they were; when `t` is JSON or FORM the
entry `Content-Type` of the headers becomes the wire value of `t` and every
other header entry is unchanged; for any other `t` the headers mapping is
unchanged. -/
theorem setContentType_headers (c : Client) (t : ContentType) (hnil : c.headers ≠ none) :
    ∃ c2, c.SetContentType t = some c2 ∧ c2.contentType = t ∧
      (c2.url = c.url ∧ c2.cookies = c.cookies ∧ c2.timeout = c.timeout ∧
        c2.params = c.params ∧ c2.method = c.method ∧ c2.body = c.body) ∧
      (t = JsonType →
        GoMap.get? c2.headers (str "Content-Type") = some (str "application/json")) ∧
      (t = FormType →
        GoMap.get? c2.headers (str "Content-Type")
          = some (str "application/x-www-form-urlencoded")) ∧
      (t = JsonType ∨ t = FormType →
        ∀ k, k ≠ str "Content-Type" → GoMap.get? c2.headers k = GoMap.get? c.headers k) ∧
      (t ≠ JsonType → t ≠ FormType → c2.headers = c.headers) := by
  obtain ⟨m, hm⟩ := Option.ne_none_iff_exists'.mp hnil
  have hjf : JsonType ≠ FormType := by decide
  by_cases h1 : t = JsonType
  · subst h1
    refine ⟨{ c with headers := some (Entries.set m (str "Content-Type") (str "application/json")),
                     contentType := JsonType }, ?_, rfl, ⟨rfl, rfl, rfl, rfl, rfl, rfl⟩,
      ?_, ?_, ?_, ?_⟩
    · simp [Client.SetContentType, hm, GoMap.set]
    · intro _; simp [GoMap.get?, Entries.get?_set_self]
    · intro h; exact absurd h hjf
    · intro _ k hk; simp [hm, GoMap.get?, Entries.get?_set_of_ne _ _ _ _ hk]
    · intro h; exact absurd rfl h
  · by_cases h2 : t = FormType
    · subst h2
      refine ⟨{ c with headers := some (Entries.set m (str "Content-Type")
                  (str "application/x-www-form-urlencoded")),
                       contentType := FormType }, ?_, rfl, ⟨rfl, rfl, rfl, rfl, rfl, rfl⟩,
        ?_, ?_, ?_, ?_⟩
      · simp [Client.SetContentType, hm, GoMap.set, h1]
      · intro h; exact absurd h h1
      · intro _; simp [GoMap.get?, Entries.get?_set_self]
      · intro _ k hk; simp [hm, GoMap.get?, Entries.get?_set_of_ne _ _ _ _ hk]
      · intro _ h; exact absurd rfl h
    · refine ⟨{ c with contentType := t }, ?_, rfl, ⟨rfl, rfl, rfl, rfl, rfl, rfl⟩,
        ?_, ?_, ?_, ?_⟩
      · simp [Client.SetContentType, h1, h2]
      · intro h; exact absurd h h1
      · intro h; exact absurd h h2
      · intro h; rcases h with h | h
        · exact absurd h h1
        · exact absurd h h2
      · intro _ _; rfl

theorem setContentType_headers_witness :
    (NewClient (str "http://x.test/api")).headers ≠ none ∧
    ((NewClient (str "http://x.test/api")).SetContentType FormType).map
        (fun c2 => (c2.contentType, GoMap.get? c2.headers (str "Content-Type")))
      = some (FormType, some (str "application/x-www-form-urlencoded")) ∧
    ((((NewClient (str "http://x.test/api")).SetContentType FormType).bind
        (fun c => c.AddParam (str "name") (str "go"))).bind
        (fun c => (c.Post (fun _ _ => ()) (fun _ => ((none : Option Unit), none))).sent)).map
        (fun r => (r.Method, r.URL.String, r.Body, r.Header))
      = some (str "POST", str "http://x.test/api", some (str "name=go"),
          [(str "Content-Type", str "application/x-www-form-urlencoded")]) := by
  obtain ⟨c2, h1, h2, _, _, h4, _, _⟩ :=
    setContentType_headers (NewClient (str "http://x.test/api")) FormType (by decide)
  refine ⟨by decide, ?_, rfl⟩
  rw [h1, Option.map_some', h2, h4 rfl]

/-- C9, the claim as stated fails: after `SetContentType("text/plain")` on a
client without params, `parse` for POST returns the url with a nil reader and
no error at all. -/
theorem unknown_content_type_without_params_succeeds :
    ((NewClient (str "http://x.test/api")).SetContentType (str "text/plain")).map
        (fun c => (c.setMethodType Post).parse)
      = some (str "http://x.test/api", none, none) ∧
    ((NewClient (str "http://x.test/api")).SetContentType (str "text/plain")).map
        (fun c => (c.setMethodType Post).parse.2.2)
      ≠ some (some (.errorString "unsupported Content-Type")) := by
  constructor
  · decide
  · decide

/-- C9, amended: `SetContentType(t)` with `t` outside JSON and FORM returns
normally and stores `t`, and from then on, for each of the methods POST, PUT
and PATCH, `parse` of a configuration that has at least one param fails with
the error "unsupported Content-Type", a nil reader and the url unchanged. -/
theorem unknown_content_type_with_params_fails (c : Client) (t : ContentType) (m : MethodType)
    (ht : t ≠ JsonType ∧ t ≠ FormType) (hm : m = Post ∨ m = Put ∨ m = Patch)
    (hp : 0 < GoMap.len c.params) :
    ∃ c2, c.SetContentType t = some c2 ∧ c2.contentType = t ∧
      (c2.setMethodType m).parse
        = (c.url, none, some (.errorString "unsupported Content-Type")) := by
  refine ⟨{ c with contentType := t }, by simp [Client.SetContentType, ht.1, ht.2], rfl, ?_⟩
  have h1 : ¬ (m = Get ∨ m = Delete) := by
    rcases hm with h | h | h <;> rw [h] <;> decide
  have h2 : ¬ GoMap.len c.params ≤ 0 := by omega
  simp [Client.parse, Client.setMethodType, h1, hm, Client.parseData, h2, ht.1, ht.2]

theorem unknown_content_type_with_params_fails_witness :
    (str "text/plain" ≠ JsonType ∧ str "text/plain" ≠ FormType) ∧
    0 < GoMap.len ({ NewClient (str "http://x.test/api") with
      params := some [(str "name", str "go")] } : Client).params ∧
    (({ NewClient (str "http://x.test/api") with
        params := some [(str "name", str "go")] } : Client).SetContentType (str "text/plain")).map
        (fun c2 => (c2.setMethodType Put).parse)
      = some (str "http://x.test/api", none, some (.errorString "unsupported Content-Type")) := by
  obtain ⟨c2, h1, _, h3⟩ := unknown_content_type_with_params_fails
    ({ NewClient (str "http://x.test/api") with params := some [(str "name", str "go")] } : Client)
    (str "text/plain") Put (by decide) (Or.inr (Or.inl rfl)) (by decide)
  refine ⟨by decide, by decide, ?_⟩
  rw [h1, Option.map_some', h3]
  rfl

namespace Url


/-! ## Escaping and unescaping -/

set_option maxRecDepth 100000 in
theorem hexByte_upperhex : ∀ c : Byte,
    hexByte (upperhex (c.val / 16)) (upperhex (c.val % 16)) = c := by
  decide

set_option maxRecDepth 100000 in
theorem ishex_upperhex : ∀ c : Byte,
    ishex (upperhex (c.val / 16)) = true ∧ ishex (upperhex (c.val % 16)) = true := by
  decide

set_option maxRecDepth 100000 in
theorem shouldEscape_query_false : ∀ c : Byte, shouldEscape c .encodeQueryComponent = false →
    c ≠ ch '%' ∧ c ≠ ch '+' ∧ c ≠ ch '&' ∧ c ≠ ch '=' ∧ c ≠ ch ';' ∧ c ≠ ch '#' ∧
      c ≠ ch ' ' := by
  decide

set_option maxRecDepth 100000 in
theorem upperhex_ne : ∀ c : Byte,
    (upperhex (c.val / 16) ≠ ch '&' ∧ upperhex (c.val / 16) ≠ ch '=' ∧
      upperhex (c.val / 16) ≠ ch ';' ∧ upperhex (c.val / 16) ≠ ch '#' ∧
      upperhex (c.val / 16) ≠ ch '?') ∧
    (upperhex (c.val % 16) ≠ ch '&' ∧ upperhex (c.val % 16) ≠ ch '=' ∧
      upperhex (c.val % 16) ≠ ch ';' ∧ upperhex (c.val % 16) ≠ ch '#' ∧
      upperhex (c.val % 16) ≠ ch '?') := by
  decide

/-- The fast path of `escape` returns what the writing loop would. -/
theorem escapeWrite_eq_self (mode : Encoding) (s : GoString)
    (h : ∀ c ∈ s, shouldEscape c mode = false) : escapeWrite mode s = s := by
  induction s with
  | nil => rfl
  | cons c s ih =>
    have hc : shouldEscape c mode = false := h c (List.mem_cons_self _ _)
    have hsp : ¬ (c = ch ' ' ∧ mode = .encodeQueryComponent) := by
      rintro ⟨h1, h2⟩
      subst h1 h2
      revert hc
      decide
    simp only [escapeWrite, hsp, hc, if_false]
    rw [ih (fun x hx => h x (List.mem_cons_of_mem _ hx))]
    simp

theorem escapeWrite_cons (mode : Encoding) (c : Byte) (s : GoString) :
    escapeWrite mode (c :: s) =
      if c = ch ' ' ∧ mode = .encodeQueryComponent then ch '+' :: escapeWrite mode s
      else if shouldEscape c mode then
        ch '%' :: upperhex (c.val / 16) :: upperhex (c.val % 16) :: escapeWrite mode s
      else c :: escapeWrite mode s := rfl

theorem shouldEscape_space (mode : Encoding) : shouldEscape (ch ' ') mode = true := by
  cases mode <;> decide

/-- The shortcut of `escape` for a text in which only spaces are to be escaped
returns what the writing loop would. -/
theorem escapeWrite_eq_map (mode : Encoding) (s : GoString)
    (h : ∀ c ∈ s, shouldEscape c mode = true → c = ch ' ' ∧ mode = .encodeQueryComponent) :
    escapeWrite mode s = s.map (fun c => if c = ch ' ' then ch '+' else c) := by
  induction s with
  | nil => rfl
  | cons c s ih =>
    have hc := h c (List.mem_cons_self _ _)
    have ih2 := ih (fun x hx => h x (List.mem_cons_of_mem _ hx))
    rw [escapeWrite_cons, List.map_cons, ih2]
    by_cases hsp : c = ch ' ' ∧ mode = .encodeQueryComponent
    · rw [if_pos hsp, if_pos hsp.1]
    · have hne : shouldEscape c mode = false := by
        by_contra hx
        exact hsp (hc (by simpa using hx))
      have hc2 : c ≠ ch ' ' := by
        intro e
        rw [e, shouldEscape_space] at hne
        exact Bool.noConfusion hne
      rw [if_neg hsp, if_neg (by simp [hne]), if_neg hc2]

theorem escape_eq_escapeWrite (s : GoString) (mode : Encoding) :
    escape s mode = escapeWrite mode s := by
  unfold escape
  simp only []
  split
  · rename_i h
    symm
    apply escapeWrite_eq_self
    intro c hc
    by_contra hne
    have hne2 : shouldEscape c mode = true := by simpa using hne
    have h1 := List.length_eq_zero.mp h.1
    have h2 := List.length_eq_zero.mp h.2
    simp only [List.filter_eq_nil_iff] at h1 h2
    have a := h1 c hc
    have b := h2 c hc
    by_cases hsp : c = ch ' ' ∧ mode = .encodeQueryComponent
    · rw [hne2] at a
      simp [hsp] at a
    · rw [hne2] at b
      simp [hsp] at b
  · split
    · rename_i h
      symm
      apply escapeWrite_eq_map
      intro c hc hesc
      have h2 := List.length_eq_zero.mp h
      simp only [List.filter_eq_nil_iff] at h2
      have b := h2 c hc
      rw [hesc] at b
      by_contra hsp
      simp [hsp] at b
    · rfl

end Url

namespace Url

theorem ch_plus_ne_percent : ch '+' ≠ ch '%' := by decide

theorem unescapeScan_cons_of_ne (mode : Encoding) (c : Byte) (s : GoString) (n : Nat)
    (hp : Bool) (hc : c ≠ ch '%') :
    unescapeScan mode (c :: s) n hp =
      if c = ch '+' then unescapeScan mode s n (decide (mode = .encodeQueryComponent))
      else if (mode = .encodeHost ∨ mode = .encodeZone) ∧ c.val < 128 ∧
          shouldEscape c .encodeHost then .error (.invalidHost [c])
      else unescapeScan mode s n hp := by
  rw [unescapeScan.eq_def]
  simp only [hc, if_false]

theorem unescapeWrite_cons_of_ne (mode : Encoding) (c : Byte) (s : GoString)
    (hc : c ≠ ch '%') :
    unescapeWrite mode (c :: s) =
      if c = ch '+' then
        (if mode = .encodeQueryComponent then ch ' ' else ch '+') :: unescapeWrite mode s
      else c :: unescapeWrite mode s := by
  rw [unescapeWrite.eq_def]
  simp only [hc, if_false]

theorem unescapeScan_percent_short (mode : Encoding) (s : GoString) (n : Nat) (hp : Bool)
    (hs : s.length < 2) :
    unescapeScan mode (ch '%' :: s) n hp = .error (.escape (ch '%' :: s)) := by
  match s, hs with
  | [], _ => rfl
  | [a], _ => rfl
  | _ :: _ :: _, hs => simp at hs; omega

/-- The fast path of `unescape` returns what the writing loop would: when the
scan meets no escape and leaves `hasPlus` unset, writing changes nothing. -/
theorem unescapeScan_fast (mode : Encoding) :
    ∀ (k : Nat) (s : GoString), s.length ≤ k → ∀ (n0 : Nat) (hp0 : Bool) (n : Nat) (hp : Bool),
      unescapeScan mode s n0 hp0 = .ok (n, hp) →
      n0 ≤ n ∧ (mode = .encodeQueryComponent → hp = false → hp0 = false) ∧
      (n = n0 → hp = false → unescapeWrite mode s = s) := by
  intro k
  induction k with
  | zero =>
    intro s hs n0 hp0 n hp h
    have : s = [] := List.length_eq_zero.mp (by omega)
    subst this
    simp only [unescapeScan, Except.ok.injEq, Prod.mk.injEq] at h
    obtain ⟨h1, h2⟩ := h
    subst h1 h2
    simp [unescapeWrite]
  | succ k ih =>
    intro s hs n0 hp0 n hp h
    match s, hs, h with
    | [], _, h =>
      simp only [unescapeScan, Except.ok.injEq, Prod.mk.injEq] at h
      obtain ⟨h1, h2⟩ := h
      subst h1 h2
      simp [unescapeWrite]
    | c :: s, hs, h =>
      have hlen : s.length ≤ k := by simpa using hs
      by_cases hc : c = ch '%'
      · subst hc
        match s, hlen, h with
        | [], _, h => simp [unescapeScan] at h
        | [a], _, h => simp [unescapeScan] at h
        | a :: b :: rest, hlen, h =>
          rw [unescapeScan.eq_2] at h
          simp only [if_true] at h
          split at h
          · simp at h
          · split at h
            · simp at h
            · split at h
              · simp at h
              · have hl : rest.length ≤ k := by
                  simp only [List.length_cons] at hlen; omega
                obtain ⟨h1, h2, _⟩ := ih rest hl _ _ _ _ h
                refine ⟨by omega, h2, ?_⟩
                intro hn
                omega
      · rw [unescapeScan_cons_of_ne _ _ _ _ _ hc] at h
        rw [unescapeWrite_cons_of_ne _ _ _ hc]
        by_cases hplus : c = ch '+'
        · simp only [hplus, if_true] at h ⊢
          obtain ⟨h1, h2, h3⟩ := ih s hlen _ _ _ _ h
          refine ⟨h1, ?_, ?_⟩
          · intro hm hhp
            have := h2 hm hhp
            simp [hm] at this
          · intro hn hhp
            by_cases hm : mode = .encodeQueryComponent
            · have := h2 hm hhp
              simp [hm] at this
            · simp only [hm, if_false]
              rw [h3 hn hhp]
        · simp only [hplus, if_false] at h ⊢
          split at h
          · simp at h
          · obtain ⟨h1, h2, h3⟩ := ih s hlen _ _ _ _ h
            refine ⟨h1, h2, ?_⟩
            intro hn hhp
            rw [h3 hn hhp]

/-- Go `unescape` returns what its writing loop writes whenever its scan
accepts the text. -/
theorem unescape_eq_write (mode : Encoding) (s : GoString) (n : Nat) (hp : Bool)
    (h : unescapeScan mode s 0 false = .ok (n, hp)) :
    unescape s mode = .ok (unescapeWrite mode s) := by
  unfold unescape
  rw [h]
  simp only []
  split
  · rename_i hc
    obtain ⟨_, _, h3⟩ := unescapeScan_fast mode s.length s (Nat.le_refl _) _ _ _ _ h
    rw [h3 hc.1 (by simpa using hc.2)]
  · rfl

theorem unescapeScan_escapeWrite (s : GoString) :
    ∀ (n : Nat) (hp : Bool), ∃ n1 hp1,
      unescapeScan .encodeQueryComponent (escapeWrite .encodeQueryComponent s) n hp
        = .ok (n1, hp1) := by
  induction s with
  | nil => intro n hp; exact ⟨n, hp, rfl⟩
  | cons c s ih =>
    intro n hp
    rw [escapeWrite_cons]
    by_cases hsp : c = ch ' '
    · simp only [hsp, true_and, if_true]
      rw [unescapeScan_cons_of_ne _ _ _ _ _ ch_plus_ne_percent]
      simp only [if_true]
      exact ih _ _
    · simp only [hsp, false_and, if_false]
      by_cases hesc : shouldEscape c .encodeQueryComponent = true
      · simp only [hesc, if_true]
        rw [unescapeScan.eq_2]
        have hh := ishex_upperhex c
        simp only [hh.1, hh.2, if_true, Bool.not_true, Bool.or_self, Bool.false_eq_true, if_false,
          reduceCtorEq, false_and]
        exact ih _ _
      · have hesc2 : shouldEscape c .encodeQueryComponent = false := by simpa using hesc
        have hf := shouldEscape_query_false c hesc2
        simp only [hesc2, Bool.false_eq_true, if_false]
        rw [unescapeScan_cons_of_ne _ _ _ _ _ hf.1]
        simp only [hf.2.1, if_false, reduceCtorEq, false_or, false_and]
        exact ih _ _

theorem unescapeWrite_escapeWrite (s : GoString) :
    unescapeWrite .encodeQueryComponent (escapeWrite .encodeQueryComponent s) = s := by
  induction s with
  | nil => rfl
  | cons c s ih =>
    rw [escapeWrite_cons]
    by_cases hsp : c = ch ' '
    · simp only [hsp, true_and, if_true]
      rw [unescapeWrite_cons_of_ne _ _ _ ch_plus_ne_percent]
      simp only [if_true, ih]
    · simp only [hsp, false_and, if_false]
      by_cases hesc : shouldEscape c .encodeQueryComponent = true
      · simp only [hesc, if_true]
        rw [unescapeWrite.eq_2]
        simp only [if_true, ih, hexByte_upperhex]
      · have hesc2 : shouldEscape c .encodeQueryComponent = false := by simpa using hesc
        have hf := shouldEscape_query_false c hesc2
        simp only [hesc2, Bool.false_eq_true, if_false]
        rw [unescapeWrite_cons_of_ne _ _ _ hf.1]
        simp only [hf.2.1, if_false, ih]

/-- Query unescaping undoes query escaping, for every Go string. -/
theorem QueryUnescape_QueryEscape (s : GoString) : QueryUnescape (QueryEscape s) = .ok s := by
  unfold QueryUnescape QueryEscape
  rw [escape_eq_escapeWrite]
  obtain ⟨n, hp, h⟩ := unescapeScan_escapeWrite s 0 false
  rw [unescape_eq_write _ _ n hp h, unescapeWrite_escapeWrite]

/-- A query-escaped text holds none of the separators `&`, `=`, `;` and `#`. -/
theorem QueryEscape_no_separator (s : GoString) (b : Byte) (hb : b ∈ QueryEscape s) :
    b ≠ ch '&' ∧ b ≠ ch '=' ∧ b ≠ ch ';' ∧ b ≠ ch '#' := by
  unfold QueryEscape at hb
  rw [escape_eq_escapeWrite] at hb
  induction s with
  | nil => simp [escapeWrite] at hb
  | cons c s ih =>
    rw [escapeWrite_cons] at hb
    by_cases hsp : c = ch ' '
    · simp only [hsp, true_and, if_true, List.mem_cons] at hb
      rcases hb with hb | hb
      · subst hb; decide
      · exact ih hb
    · simp only [hsp, false_and, if_false] at hb
      by_cases hesc : shouldEscape c .encodeQueryComponent = true
      · simp only [hesc, if_true, List.mem_cons] at hb
        have hu := upperhex_ne c
        rcases hb with hb | hb | hb | hb
        · subst hb; decide
        · subst hb; exact ⟨hu.1.1, hu.1.2.1, hu.1.2.2.1, hu.1.2.2.2.1⟩
        · subst hb; exact ⟨hu.2.1, hu.2.2.1, hu.2.2.2.1, hu.2.2.2.2.1⟩
        · exact ih hb
      · have hesc2 : shouldEscape c .encodeQueryComponent = false := by simpa using hesc
        have hf := shouldEscape_query_false c hesc2
        simp only [hesc2, Bool.false_eq_true, if_false, List.mem_cons] at hb
        rcases hb with hb | hb
        · subst hb; exact ⟨hf.2.2.1, hf.2.2.2.1, hf.2.2.2.2.1, hf.2.2.2.2.2.1⟩
        · exact ih hb

/-! ## Query values -/

theorem cut_append_sep (sep : Byte) (a b : GoString) (h : sep ∉ a) :
    cut sep (a ++ sep :: b) = (a, b, true) := by
  induction a with
  | nil => simp [cut]
  | cons c a ih =>
    have hc : c ≠ sep := fun e => h (e ▸ List.mem_cons_self _ _)
    have ha : sep ∉ a := fun e => h (List.mem_cons_of_mem _ e)
    simp [cut, hc, ih ha]

theorem cut_of_not_mem (sep : Byte) (a : GoString) (h : sep ∉ a) :
    cut sep a = (a, [], false) := by
  induction a with
  | nil => simp [cut]
  | cons c a ih =>
    have hc : c ≠ sep := fun e => h (e ▸ List.mem_cons_self _ _)
    have ha : sep ∉ a := fun e => h (List.mem_cons_of_mem _ e)
    simp [cut, hc, ih ha]

theorem pieces_append_amp (s rest : GoString) (h : ch '&' ∉ s) :
    pieces (s ++ ch '&' :: rest) = s :: pieces rest := by
  induction s with
  | nil => simp [pieces]
  | cons c s ih =>
    have hc : c ≠ ch '&' := fun e => h (e ▸ List.mem_cons_self _ _)
    have hs : ch '&' ∉ s := fun e => h (List.mem_cons_of_mem _ e)
    simp [pieces, hc, ih hs]

theorem pieces_single (s : GoString) (h : ch '&' ∉ s) (hne : s ≠ []) : pieces s = [s] := by
  induction s with
  | nil => exact absurd rfl hne
  | cons c s ih =>
    have hc : c ≠ ch '&' := fun e => h (e ▸ List.mem_cons_self _ _)
    have hs : ch '&' ∉ s := fun e => h (List.mem_cons_of_mem _ e)
    by_cases hnil : s = []
    · subst hnil
      simp [pieces, hc]
    · simp [pieces, hc, ih hs hnil]

theorem pieces_joined (s : GoString) (ss : List GoString)
    (h : ∀ t ∈ s :: ss, ch '&' ∉ t ∧ t ≠ []) :
    pieces (s ++ (ss.map (fun t => ch '&' :: t)).flatten) = s :: ss := by
  induction ss generalizing s with
  | nil =>
    have := h s (List.mem_cons_self _ _)
    simpa using pieces_single s this.1 this.2
  | cons t ss ih =>
    have hs := h s (List.mem_cons_self _ _)
    simp only [List.map_cons, List.flatten_cons, List.cons_append]
    rw [pieces_append_amp _ _ hs.1, ih t (fun x hx => h x (List.mem_cons_of_mem _ hx))]

/-- The text `Values.Encode` writes for one key with one value. -/
theorem segment_facts (k v : GoString) :
    ch '&' ∉ QueryEscape k ++ ch '=' :: QueryEscape v ∧
    ch ';' ∉ QueryEscape k ++ ch '=' :: QueryEscape v ∧
    ch '#' ∉ QueryEscape k ++ ch '=' :: QueryEscape v ∧
    QueryEscape k ++ ch '=' :: QueryEscape v ≠ [] := by
  have hk := QueryEscape_no_separator k
  have hv := QueryEscape_no_separator v
  refine ⟨?_, ?_, ?_, by simp⟩
  · intro h
    rcases List.mem_append.mp h with h | h
    · exact (hk _ h).1 rfl
    · rcases List.mem_cons.mp h with h | h
      · revert h; decide
      · exact (hv _ h).1 rfl
  · intro h
    rcases List.mem_append.mp h with h | h
    · exact (hk _ h).2.2.1 rfl
    · rcases List.mem_cons.mp h with h | h
      · revert h; decide
      · exact (hv _ h).2.2.1 rfl
  · intro h
    rcases List.mem_append.mp h with h | h
    · exact (hk _ h).2.2.2 rfl
    · rcases List.mem_cons.mp h with h | h
      · revert h; decide
      · exact (hv _ h).2.2.2 rfl

theorem parseQueryStep_segment (acc : Values × Option ParseError) (k v : GoString) :
    parseQueryStep acc (QueryEscape k ++ ch '=' :: QueryEscape v)
      = (Values.Add acc.1 k v, acc.2) := by
  have hf := segment_facts k v
  have hcut : cut (ch '=') (QueryEscape k ++ ch '=' :: QueryEscape v)
      = (QueryEscape k, QueryEscape v, true) :=
    cut_append_sep _ _ _ (fun h => (QueryEscape_no_separator k _ h).2.1 rfl)
  unfold parseQueryStep
  simp only [hf.2.1, hf.2.2.2, if_false, hcut, QueryUnescape_QueryEscape]

theorem parseQuery_fold_segments (pairs : List (GoString × GoString))
    (acc : Values × Option ParseError) :
    (pairs.map (fun kv => QueryEscape kv.1 ++ ch '=' :: QueryEscape kv.2)).foldl
        parseQueryStep acc
      = (pairs.foldl (fun a kv => Values.Add a kv.1 kv.2) acc.1, acc.2) := by
  induction pairs generalizing acc with
  | nil => rfl
  | cons p ps ih =>
    simp only [List.map_cons, List.foldl_cons, parseQueryStep_segment, ih]

/-- The loop of `Values.Encode` over keys that hold one value each, started
with text in the buffer. -/
theorem encode_fold_nonempty (V : Values) (ks : List GoString) (buf : GoString)
    (hbuf : buf ≠ []) (hs : ∀ k ∈ ks, ∃ v, V.lookup k = [v]) :
    ks.foldl (fun buf k =>
        (V.lookup k).foldl (fun buf val =>
          (if buf.length > 0 then buf ++ [ch '&'] else buf)
            ++ QueryEscape k ++ [ch '='] ++ QueryEscape val) buf) buf
      = buf ++ (ks.map (fun k =>
          ch '&' :: (QueryEscape k ++ ch '=' :: QueryEscape ((V.lookup k).headD [])))).flatten := by
  induction ks generalizing buf with
  | nil => simp
  | cons k ks ih =>
    obtain ⟨v, hv⟩ := hs k (List.mem_cons_self _ _)
    have hlen : buf.length > 0 := List.length_pos.mpr hbuf
    simp only [List.foldl_cons, hv, List.foldl_nil, hlen, if_true, List.map_cons,
      List.flatten_cons, List.headD_cons]
    rw [ih _ (by simp) (fun x hx => hs x (List.mem_cons_of_mem _ hx))]
    simp

/-- The loop of `Values.Encode` over keys that hold one value each: the
segments `key=value`, joined by `&`. -/
theorem encode_fold (V : Values) (k : GoString) (ks : List GoString)
    (hs : ∀ x ∈ k :: ks, ∃ v, V.lookup x = [v]) :
    (k :: ks).foldl (fun buf k =>
        (V.lookup k).foldl (fun buf val =>
          (if buf.length > 0 then buf ++ [ch '&'] else buf)
            ++ QueryEscape k ++ [ch '='] ++ QueryEscape val) buf) []
      = (QueryEscape k ++ ch '=' :: QueryEscape ((V.lookup k).headD [])) ++
        (ks.map (fun k =>
          ch '&' :: (QueryEscape k ++ ch '=' :: QueryEscape ((V.lookup k).headD [])))).flatten := by
  obtain ⟨v, hv⟩ := hs k (List.mem_cons_self _ _)
  simp only [List.foldl_cons, hv, List.foldl_nil, List.length_nil, gt_iff_lt, Nat.lt_irrefl,
    if_false, List.nil_append, List.headD_cons]
  rw [encode_fold_nonempty V ks _ (by simp) (fun x hx => hs x (List.mem_cons_of_mem _ hx))]
  simp

/-- Decoding the text of `Values.Encode` with `ParseQuery`, for values that
hold one value per key: no error, and the keys in ascending order, each with
its value. -/
theorem ParseQuery_Encode (V : Values) (hs : ∀ k ∈ V.keys, ∃ v, V.lookup k = [v]) :
    ParseQuery (Values.Encode V)
      = ((List.insertionSort (· ≤ ·) V.keys).foldl
          (fun a k => Values.Add a k ((V.lookup k).headD [])) [], none) := by
  unfold Values.Encode
  by_cases h0 : V.keys.length = 0
  · simp only [h0, if_true]
    have : V.keys = [] := List.length_eq_zero.mp h0
    simp [this, ParseQuery, pieces]
  · simp only [h0, if_false]
    have hperm := List.perm_insertionSort (· ≤ ·) V.keys
    have hs2 : ∀ k ∈ List.insertionSort (· ≤ ·) V.keys, ∃ v, V.lookup k = [v] :=
      fun k hk => hs k (hperm.mem_iff.mp hk)
    generalize List.insertionSort (· ≤ ·) V.keys = S at hs2 hperm
    match S, hs2, hperm with
    | [], _, hperm =>
      have := hperm.length_eq
      simp at this
      omega
    | k :: ks, hs2, _ =>
      rw [encode_fold V k ks hs2]
      unfold ParseQuery
      have hmap : (ks.map (fun k =>
          ch '&' :: (QueryEscape k ++ ch '=' :: QueryEscape ((V.lookup k).headD [])))) =
          ((ks.map (fun k => QueryEscape k ++ ch '=' :: QueryEscape ((V.lookup k).headD []))).map
            (fun t => ch '&' :: t)) := by
        simp [List.map_map]
      rw [hmap, pieces_joined]
      · have := parseQuery_fold_segments ((k :: ks).map (fun k => (k, (V.lookup k).headD [])))
          ([], none)
        simp only [List.map_map, List.map_cons] at this
        refine Eq.trans this ?_
        simp [List.foldl_map]
      · intro t ht
        have : ∃ a b, t = QueryEscape a ++ ch '=' :: QueryEscape b := by
          rcases List.mem_cons.mp ht with h | h
          · exact ⟨_, _, h⟩
          · obtain ⟨a, _, ha⟩ := List.mem_map.mp h
            exact ⟨_, _, ha.symm⟩
        obtain ⟨a, b, rfl⟩ := this
        exact ⟨(segment_facts a b).1, (segment_facts a b).2.2.2⟩

theorem Values.Add_of_not_mem (V : Values) (k v : GoString) (h : k ∉ V.keys) :
    Values.Add V k v = V ++ [(k, [v])] := by
  induction V with
  | nil => rfl
  | cons e V ih =>
    obtain ⟨k1, vs⟩ := e
    have h1 : k1 ≠ k := fun e => h (by simp [Values.keys, e])
    have h2 : k ∉ Values.keys V := fun e => h (by
      simp only [Values.keys, List.map_cons, List.mem_cons]
      exact Or.inr e)
    simp [Values.Add, h1, ih h2]

/-- Adding pairs with distinct new keys appends one entry per pair. -/
theorem Values.fold_Add (P : List (GoString × GoString)) (V : Values)
    (hnd : (P.map Prod.fst).Nodup) (hdis : ∀ k ∈ P.map Prod.fst, k ∉ V.keys) :
    P.foldl (fun a kv => Values.Add a kv.1 kv.2) V = V ++ P.map (fun kv => (kv.1, [kv.2])) := by
  induction P generalizing V with
  | nil => simp
  | cons p P ih =>
    simp only [List.map_cons, List.nodup_cons] at hnd
    have hp : p.1 ∉ V.keys := hdis p.1 (by simp)
    simp only [List.foldl_cons, Values.Add_of_not_mem V _ _ hp]
    rw [ih _ hnd.2]
    · simp
    · intro k hk hmem
      simp only [Values.keys, List.map_append, List.map_cons, List.map_nil, List.mem_append,
        List.mem_singleton] at hmem
      rcases hmem with hmem | hmem
      · exact hdis k (by simp only [List.map_cons, List.mem_cons]; exact Or.inr hk) hmem
      · exact hnd.1 (hmem ▸ hk)

theorem Values.lookup_map_of_mem (P : List (GoString × GoString))
    (hnd : (P.map Prod.fst).Nodup) (k v : GoString) (h : (k, v) ∈ P) :
    Values.lookup (P.map (fun kv => (kv.1, [kv.2]))) k = [v] := by
  induction P with
  | nil => simp at h
  | cons p P ih =>
    simp only [List.map_cons, List.nodup_cons] at hnd
    rcases List.mem_cons.mp h with h | h
    · subst h
      simp [Values.lookup]
    · have hne : p.1 ≠ k := by
        intro e
        apply hnd.1
        rw [e]
        exact List.mem_map.mpr ⟨(k, v), h, rfl⟩
      simp [Values.lookup, hne, ih hnd.2 h]

theorem Values.lookup_map_of_not_mem (P : List (GoString × GoString)) (k : GoString)
    (h : k ∉ P.map Prod.fst) :
    Values.lookup (P.map (fun kv => (kv.1, [kv.2]))) k = [] := by
  induction P with
  | nil => rfl
  | cons p P ih =>
    simp only [List.map_cons, List.mem_cons, not_or] at h
    have hne : p.1 ≠ k := fun e => h.1 e.symm
    simp [Values.lookup, hne, ih h.2]

end Url

theorem Entries.get?_eq_some_mem (m : Entries) (k v : GoString) (h : Entries.get? m k = some v) :
    k ∈ m.map Prod.fst := by
  induction m with
  | nil => simp [Entries.get?] at h
  | cons e m ih =>
    obtain ⟨k1, v1⟩ := e
    by_cases hk : k1 = k
    · simp [hk]
    · simp only [Entries.get?, hk, if_false] at h
      simp [ih h]

theorem Entries.get?_of_mem (m : Entries) (k : GoString) (h : k ∈ m.map Prod.fst) :
    ∃ v, Entries.get? m k = some v := by
  induction m with
  | nil => simp at h
  | cons e m ih =>
    obtain ⟨k1, v1⟩ := e
    by_cases hk : k1 = k
    · exact ⟨v1, by simp [Entries.get?, hk]⟩
    · simp only [List.map_cons, List.mem_cons] at h
      rcases h with h | h
      · exact absurd h.symm hk
      · simpa [Entries.get?, hk] using ih h

theorem filterMap_pairs_fst (ks : List GoString) (f : GoString → Option GoString)
    (h : ∀ k ∈ ks, ∃ v, f k = some v) :
    (ks.filterMap (fun k => (f k).map (fun v => (k, v)))).map Prod.fst = ks := by
  induction ks with
  | nil => rfl
  | cons k ks ih =>
    obtain ⟨v, hv⟩ := h k (List.mem_cons_self _ _)
    simp [List.filterMap_cons, hv, ih (fun x hx => h x (List.mem_cons_of_mem _ hx))]

/-- The entries a `range` loop visits: every key of the map once, with its
value. -/
theorem GoMap.range_spec (p : GoMap) :
    ((GoMap.range p).map Prod.fst).Nodup ∧
    (∀ k v, (k, v) ∈ GoMap.range p ↔ GoMap.get? p k = some v) ∧
    ((GoMap.range p).map Prod.fst).length = GoMap.len p := by
  cases p with
  | none => simp [GoMap.range, GoMap.get?, GoMap.len]
  | some m =>
    have hk : ((GoMap.range (some m)).map Prod.fst) = Entries.keys m := by
      unfold GoMap.range
      apply filterMap_pairs_fst
      intro k hk
      exact Entries.get?_of_mem m k (List.mem_dedup.mp hk)
    refine ⟨?_, ?_, ?_⟩
    · rw [hk]; exact List.nodup_dedup _
    · intro k v
      simp only [GoMap.range, GoMap.get?, List.mem_filterMap, Option.map_eq_some']
      constructor
      · rintro ⟨a, _, b, hb, heq⟩
        simp only [Prod.mk.injEq] at heq
        obtain ⟨h1, h2⟩ := heq
        subst h1 h2
        exact hb
      · intro h
        exact ⟨k, List.mem_dedup.mpr (Entries.get?_eq_some_mem m k v h), v, h, rfl⟩
    · rw [hk]; rfl

/-- The query values that `parseQuery` and `parseData` build from the params:
one entry per key, holding the value of the key. -/
theorem paramsValues_eq (p : GoMap) :
    (GoMap.range p).foldl (fun q kv => Url.Values.Add q kv.1 kv.2) []
      = (GoMap.range p).map (fun kv => (kv.1, [kv.2])) := by
  rw [Url.Values.fold_Add _ _ (GoMap.range_spec p).1 (by simp [Url.Values.keys])]
  simp

theorem paramsValues_lookup (p : GoMap) (k : GoString) :
    Url.Values.lookup ((GoMap.range p).foldl (fun q kv => Url.Values.Add q kv.1 kv.2) []) k
      = match GoMap.get? p k with
        | some v => [v]
        | none => [] := by
  rw [paramsValues_eq]
  have hr := GoMap.range_spec p
  cases hg : GoMap.get? p k with
  | some v =>
    exact Url.Values.lookup_map_of_mem _ hr.1 k v ((hr.2.1 k v).mpr hg)
  | none =>
    apply Url.Values.lookup_map_of_not_mem
    intro hmem
    obtain ⟨⟨k1, v1⟩, h1, h2⟩ := List.mem_map.mp hmem
    simp only at h2
    subst h2
    rw [(hr.2.1 _ _).mp h1] at hg
    exact Option.noConfusion hg

theorem paramsValues_keys (p : GoMap) :
    Url.Values.keys ((GoMap.range p).foldl (fun q kv => Url.Values.Add q kv.1 kv.2) [])
      = (GoMap.range p).map Prod.fst := by
  rw [paramsValues_eq]
  simp [Url.Values.keys, List.map_map, Function.comp]

theorem map_pair_fst (S : List GoString) (g : GoString → GoString) :
    (S.map (fun k => (k, g k))).map Prod.fst = S := by
  induction S with
  | nil => rfl
  | cons k S ih => simp [ih]

/-- Adding one value per key, for distinct keys, to the empty values. -/
theorem fold_Add_keys (S : List GoString) (g : GoString → GoString) (hnd : S.Nodup) :
    S.foldl (fun a k => Url.Values.Add a k (g k)) [] = S.map (fun k => (k, [g k])) := by
  have h := Url.Values.fold_Add (S.map (fun k => (k, g k))) []
    (by rw [map_pair_fst]; exact hnd) (by simp [Url.Values.keys])
  rw [List.foldl_map] at h
  rw [h]
  simp [List.map_map, Function.comp]

theorem lookup_keyed_of_mem (S : List GoString) (g : GoString → GoString) (k : GoString)
    (h : k ∈ S) : Url.Values.lookup (S.map (fun k => (k, [g k]))) k = [g k] := by
  induction S with
  | nil => simp at h
  | cons a S ih =>
    by_cases ha : a = k
    · simp [Url.Values.lookup, ha]
    · rcases List.mem_cons.mp h with h | h
      · exact absurd h.symm ha
      · simp [Url.Values.lookup, ha, ih h]

theorem lookup_keyed_of_not_mem (S : List GoString) (g : GoString → GoString) (k : GoString)
    (h : k ∉ S) : Url.Values.lookup (S.map (fun k => (k, [g k]))) k = [] := by
  induction S with
  | nil => rfl
  | cons a S ih =>
    simp only [List.mem_cons, not_or] at h
    have ha : a ≠ k := fun e => h.1 e.symm
    simp [Url.Values.lookup, ha, ih h.2]

theorem keys_keyed (S : List GoString) (g : GoString → GoString) :
    Url.Values.keys (S.map (fun k => (k, [g k]))) = S := by
  induction S with
  | nil => rfl
  | cons k S ih =>
    simp only [Url.Values.keys] at ih
    simp [Url.Values.keys, ih]

/-- Form encoding round-trips: `url.ParseQuery` applied to the text that
`Values.Encode` writes for the params reports no error and yields every key
of the params once, in ascending order, with the value of the key, and no
other key. -/
theorem ParseQuery_Encode_params (p : GoMap) :
    (Url.ParseQuery (Url.Values.Encode
        ((GoMap.range p).foldl (fun q kv => Url.Values.Add q kv.1 kv.2) []))).2 = none ∧
    Url.Values.keys (Url.ParseQuery (Url.Values.Encode
        ((GoMap.range p).foldl (fun q kv => Url.Values.Add q kv.1 kv.2) []))).1
      = List.insertionSort (· ≤ ·) ((GoMap.range p).map Prod.fst) ∧
    (Url.Values.keys (Url.ParseQuery (Url.Values.Encode
        ((GoMap.range p).foldl (fun q kv => Url.Values.Add q kv.1 kv.2) []))).1).Nodup ∧
    ∀ k, Url.Values.lookup (Url.ParseQuery (Url.Values.Encode
        ((GoMap.range p).foldl (fun q kv => Url.Values.Add q kv.1 kv.2) []))).1 k
      = match GoMap.get? p k with
        | some v => [v]
        | none => [] := by
  have hr := GoMap.range_spec p
  have hsingle : ∀ k ∈ Url.Values.keys
      ((GoMap.range p).foldl (fun q kv => Url.Values.Add q kv.1 kv.2) []),
      ∃ v, Url.Values.lookup
        ((GoMap.range p).foldl (fun q kv => Url.Values.Add q kv.1 kv.2) []) k = [v] := by
    intro k hk
    rw [paramsValues_keys] at hk
    obtain ⟨⟨k1, v1⟩, h1, h2⟩ := List.mem_map.mp hk
    simp only at h2
    subst h2
    refine ⟨v1, ?_⟩
    rw [paramsValues_lookup, (hr.2.1 _ _).mp h1]
  rw [Url.ParseQuery_Encode _ hsingle, paramsValues_keys]
  have hperm := List.perm_insertionSort (· ≤ ·) ((GoMap.range p).map Prod.fst)
  have hnd : (List.insertionSort (· ≤ ·) ((GoMap.range p).map Prod.fst)).Nodup :=
    hperm.nodup_iff.mpr hr.1
  generalize List.insertionSort (· ≤ ·) ((GoMap.range p).map Prod.fst) = S at hperm hnd
  simp only [fold_Add_keys S _ hnd, keys_keyed]
  refine ⟨by trivial, by trivial, hnd, ?_⟩
  intro k
  cases hg : GoMap.get? p k with
  | some v =>
    have hmem : k ∈ S := hperm.mem_iff.mpr (List.mem_map.mpr ⟨(k, v), (hr.2.1 k v).mpr hg, rfl⟩)
    rw [lookup_keyed_of_mem S _ k hmem, paramsValues_lookup, hg]
    rfl
  | none =>
    apply lookup_keyed_of_not_mem
    intro hmem
    obtain ⟨⟨k1, v1⟩, h1, h2⟩ := List.mem_map.mp (hperm.mem_iff.mp hmem)
    simp only at h2
    subst h2
    rw [(hr.2.1 _ _).mp h1] at hg
    exact Option.noConfusion hg

theorem GoMap.mem_range_keys (p : GoMap) (k : GoString) :
    k ∈ (GoMap.range p).map Prod.fst ↔ ∃ v, GoMap.get? p k = some v := by
  have hr := GoMap.range_spec p
  constructor
  · intro h
    obtain ⟨⟨k1, v1⟩, h1, h2⟩ := List.mem_map.mp h
    simp only at h2
    subst h2
    exact ⟨v1, (hr.2.1 _ _).mp h1⟩
  · rintro ⟨v, hv⟩
    exact List.mem_map.mpr ⟨(k, v), (hr.2.1 k v).mpr hv, rfl⟩

/-- C4: for a configuration with at least one param, content type FORM and
method POST, PUT or PATCH, `parse` succeeds with the url unchanged and a body
that `url.ParseQuery` reads back without error into exactly the params: the
keys of the params and no other, each once, each with its one original
value. -/
theorem parse_form_body_roundtrip (c : Client)
    (hm : c.method = Post ∨ c.method = Put ∨ c.method = Patch)
    (hct : c.contentType = FormType) (hp : 0 < GoMap.len c.params) :
    ∃ body, c.parse = (c.url, some body, none) ∧
      (Url.ParseQuery body).2 = none ∧
      (Url.Values.keys (Url.ParseQuery body).1).Nodup ∧
      (∀ k, k ∈ Url.Values.keys (Url.ParseQuery body).1 ↔ ∃ v, GoMap.get? c.params k = some v) ∧
      ∀ k, Url.Values.lookup (Url.ParseQuery body).1 k
        = match GoMap.get? c.params k with
          | some v => [v]
          | none => [] := by
  have h1 : ¬ (c.method = Get ∨ c.method = Delete) := by
    rcases hm with h | h | h <;> rw [h] <;> decide
  have h2 : ¬ GoMap.len c.params ≤ 0 := by omega
  have h3 : FormType ≠ JsonType := by decide
  have hrt := ParseQuery_Encode_params c.params
  refine ⟨_, by simp [Client.parse, h1, hm, Client.parseData, h2, hct, h3],
    hrt.1, hrt.2.2.1, ?_, hrt.2.2.2⟩
  intro k
  rw [hrt.2.1, (List.perm_insertionSort _ _).mem_iff, GoMap.mem_range_keys]

theorem parse_form_body_roundtrip_witness :
    0 < GoMap.len ({ NewClient (str "http://x.test/api") with
        params := some [(str "q", str "a b&c=d")], contentType := FormType,
        method := Post } : Client).params ∧
    ({ NewClient (str "http://x.test/api") with
        params := some [(str "q", str "a b&c=d")], contentType := FormType,
        method := Post } : Client).parse
      = (str "http://x.test/api", some (str "q=a+b%26c%3Dd"), none) ∧
    Url.ParseQuery (str "q=a+b%26c%3Dd") = ([(str "q", [str "a b&c=d"])], none) ∧
    ∃ body, ({ NewClient (str "http://x.test/api") with
        params := some [(str "q", str "a b&c=d")], contentType := FormType,
        method := Post } : Client).parse = (str "http://x.test/api", some body, none) ∧
      (Url.ParseQuery body).2 = none ∧
      Url.Values.lookup (Url.ParseQuery body).1 (str "q") = [str "a b&c=d"] := by
  obtain ⟨body, h1, h2, _, _, h5⟩ := parse_form_body_roundtrip
    ({ NewClient (str "http://x.test/api") with
        params := some [(str "q", str "a b&c=d")], contentType := FormType,
        method := Post } : Client) (Or.inl rfl) rfl (by decide)
  exact ⟨by decide, by decide, by decide, body, h1, h2, h5 (str "q")⟩

namespace Url

theorem cut_fst_not_mem (sep : Byte) (s : GoString) : sep ∉ (cut sep s).1 := by
  induction s with
  | nil => simp [cut]
  | cons c s ih =>
    by_cases hc : c = sep
    · simp [cut, hc]
    · simp only [cut, hc, if_false, List.mem_cons, not_or]
      exact ⟨fun e => hc e.symm, ih⟩

theorem cut_fst_subset (sep : Byte) (s : GoString) (b : Byte) (h : b ∈ (cut sep s).1) :
    b ∈ s := by
  induction s with
  | nil => simp [cut] at h
  | cons c s ih =>
    by_cases hc : c = sep
    · simp [cut, hc] at h
    · simp only [cut, hc, if_false, List.mem_cons] at h
      rcases h with h | h
      · exact h ▸ List.mem_cons_self _ _
      · exact List.mem_cons_of_mem _ (ih h)

theorem cut_snd_subset (sep : Byte) (s : GoString) (b : Byte) (h : b ∈ (cut sep s).2.1) :
    b ∈ s := by
  induction s with
  | nil => simp [cut] at h
  | cons c s ih =>
    by_cases hc : c = sep
    · simp only [cut, hc, if_true] at h
      exact List.mem_cons_of_mem _ h
    · simp only [cut, hc, if_false] at h
      exact List.mem_cons_of_mem _ (ih h)

theorem dropLast_not_mem_of_count (b : Byte) (s : GoString)
    (hlast : s.getLast? = some b) (hcount : count b s = 1) : b ∉ s.dropLast := by
  obtain ⟨t, rfl⟩ : ∃ t, s = t ++ [b] := by
    match hs : s.getLast? with
    | none => rw [hs] at hlast; exact Option.noConfusion hlast
    | some x =>
      rw [hs] at hlast
      have hx : x = b := Option.some.inj hlast
      subst hx
      have hne : s ≠ [] := by
        intro e; subst e; simp at hs
      refine ⟨s.dropLast, ?_⟩
      have h1 := List.dropLast_append_getLast hne
      have h2 : s.getLast hne = x := by
        rw [List.getLast?_eq_getLast _ hne] at hs
        exact Option.some.inj hs
      rw [h2] at h1
      exact h1.symm
  simp only [List.dropLast_concat]
  intro hmem
  have : 2 ≤ count b (t ++ [b]) := by
    unfold count
    simp only [List.filter_append, List.length_append]
    have h1 : 0 < (t.filter (fun c => c == b)).length := by
      apply List.length_pos.mpr
      intro e
      have := List.filter_eq_nil_iff.mp e b hmem
      simp at this
    simp
    omega
  omega

set_option maxRecDepth 100000 in
theorem scheme_letter_lower : ∀ c : Byte,
    (ch 'a' ≤ c ∧ c ≤ ch 'z') ∨ (ch 'A' ≤ c ∧ c ≤ ch 'Z') →
    (if ch 'A' ≤ c ∧ c ≤ ch 'Z' then c + 32 else c) ≠ ch '?' ∧
    (if ch 'A' ≤ c ∧ c ≤ ch 'Z' then c + 32 else c) ≠ ch '#' := by
  decide

set_option maxRecDepth 100000 in
theorem scheme_other_lower : ∀ c : Byte,
    (ch '0' ≤ c ∧ c ≤ ch '9') ∨ c = ch '+' ∨ c = ch '-' ∨ c = ch '.' →
    (if ch 'A' ≤ c ∧ c ≤ ch 'Z' then c + 32 else c) ≠ ch '?' ∧
    (if ch 'A' ≤ c ∧ c ≤ ch 'Z' then c + 32 else c) ≠ ch '#' := by
  decide

/-- The scheme that `getScheme` splits off holds neither `?` nor `#`, also in
lower case, and the rest is text of the URL. -/
theorem getSchemeLoop_spec (cur : GoString) :
    ∀ (pre sch rest : GoString),
      (∀ c ∈ pre, (if ch 'A' ≤ c ∧ c ≤ ch 'Z' then c + 32 else c) ≠ ch '?' ∧
        (if ch 'A' ≤ c ∧ c ≤ ch 'Z' then c + 32 else c) ≠ ch '#') →
      getSchemeLoop (pre ++ cur) cur pre.length = .ok (sch, rest) →
      (∀ c ∈ sch, (if ch 'A' ≤ c ∧ c ≤ ch 'Z' then c + 32 else c) ≠ ch '?' ∧
        (if ch 'A' ≤ c ∧ c ≤ ch 'Z' then c + 32 else c) ≠ ch '#') ∧
      (∀ b ∈ rest, b ∈ pre ++ cur) := by
  induction cur with
  | nil =>
    intro pre sch rest _ h
    simp only [getSchemeLoop, Except.ok.injEq, Prod.mk.injEq] at h
    obtain ⟨h1, h2⟩ := h
    subst h1 h2
    simp
  | cons c cur ih =>
    intro pre sch rest hpre h
    have hassoc : pre ++ c :: cur = (pre ++ [c]) ++ cur := by simp
    have hlen : pre.length + 1 = (pre ++ [c]).length := by simp
    unfold getSchemeLoop at h
    split at h
    · rename_i hc
      rw [hassoc, hlen] at h
      have := ih (pre ++ [c]) sch rest (by
        intro x hx
        rcases List.mem_append.mp hx with hx | hx
        · exact hpre x hx
        · simp only [List.mem_singleton] at hx
          subst hx
          exact scheme_letter_lower x hc) h
      rw [hassoc]
      exact this
    · split at h
      · rename_i hc
        split at h
        · simp only [Except.ok.injEq, Prod.mk.injEq] at h
          obtain ⟨h1, h2⟩ := h
          subst h1 h2
          simp
        · rw [hassoc, hlen] at h
          have := ih (pre ++ [c]) sch rest (by
            intro x hx
            rcases List.mem_append.mp hx with hx | hx
            · exact hpre x hx
            · simp only [List.mem_singleton] at hx
              subst hx
              exact scheme_other_lower x hc) h
          rw [hassoc]
          exact this
      · split at h
        · split at h
          · simp at h
          · simp only [Except.ok.injEq, Prod.mk.injEq] at h
            obtain ⟨h1, h2⟩ := h
            subst h1 h2
            simp only [List.take_left']
            refine ⟨hpre, ?_⟩
            intro b hb
            simp [hb]
        · simp only [Except.ok.injEq, Prod.mk.injEq] at h
          obtain ⟨h1, h2⟩ := h
          subst h1 h2
          simp

theorem getScheme_spec (s sch rest : GoString) (h : getScheme s = .ok (sch, rest)) :
    ch '?' ∉ toLower sch ∧ ch '#' ∉ toLower sch ∧ ∀ b ∈ rest, b ∈ s := by
  have := getSchemeLoop_spec s [] sch rest (by simp) (by simpa [getScheme] using h)
  refine ⟨?_, ?_, by simpa using this.2⟩
  · intro hmem
    obtain ⟨c, hc, he⟩ := List.mem_map.mp hmem
    exact (this.1 c hc).1 he
  · intro hmem
    obtain ⟨c, hc, he⟩ := List.mem_map.mp hmem
    exact (this.1 c hc).2 he

theorem setPath_fields (u u2 : URL) (p : GoString) (h : URL.setPath u p = .ok u2) :
    u2.Scheme = u.Scheme ∧ u2.Opaque = u.Opaque := by
  unfold URL.setPath at h
  split at h
  · simp at h
  · split at h <;>
    · simp only [Except.ok.injEq] at h
      subst h
      exact ⟨rfl, rfl⟩

theorem setFragment_fields (u u2 : URL) (f : GoString) (h : URL.setFragment u f = .ok u2) :
    u2.Scheme = u.Scheme ∧ u2.Opaque = u.Opaque ∧ u2.User = u.User ∧ u2.Host = u.Host ∧
      u2.Path = u.Path ∧ u2.RawPath = u.RawPath ∧ u2.OmitHost = u.OmitHost := by
  unfold URL.setFragment at h
  split at h
  · simp at h
  · split at h <;>
    · simp only [Except.ok.injEq] at h
      subst h
      exact ⟨rfl, rfl, rfl, rfl, rfl, rfl, rfl⟩

/-- A URL that `parse` accepts has neither `?` nor `#` in its scheme and in its
opaque part, when the text has no `#`. -/
theorem parse_scheme_opaque (s : GoString) (vr : Bool) (u : URL) (h : parse s vr = .ok u)
    (hs : ch '#' ∉ s) :
    ch '?' ∉ u.Scheme ∧ ch '#' ∉ u.Scheme ∧ ch '?' ∉ u.Opaque ∧ ch '#' ∉ u.Opaque := by
  unfold parse at h
  split at h
  · simp at h
  split at h
  · simp at h
  split at h
  · simp only [Except.ok.injEq] at h
    subst h
    simp
  split at h
  · simp at h
  rename_i scheme rest0 hsch
  have hS := getScheme_spec s scheme rest0 hsch
  have hrest0 : ch '#' ∉ rest0 := fun hm => hs (hS.2.2 _ hm)
  simp only [] at h
  by_cases hforced : rest0.getLast? = some (ch '?') ∧ count (ch '?') rest0 = 1
  · simp only [hforced, and_self, decide_True, if_true] at h
    have hq : ch '?' ∉ rest0.dropLast := dropLast_not_mem_of_count _ _ hforced.1 hforced.2
    have hh : ch '#' ∉ rest0.dropLast := fun hm => hrest0 (List.mem_of_mem_dropLast hm)
    split at h
    · simp only [Except.ok.injEq] at h
      subst h
      exact ⟨hS.1, hS.2.1, hq, hh⟩
    split at h
    · simp at h
    split at h
    · simp at h
    split at h
    · split at h
      · simp at h
      · obtain ⟨h1, h2⟩ := setPath_fields _ _ _ h
        rw [h1, h2]
        exact ⟨hS.1, hS.2.1, by simp, by simp⟩
    split at h
    · obtain ⟨h1, h2⟩ := setPath_fields _ _ _ h
      rw [h1, h2]
      exact ⟨hS.1, hS.2.1, by simp, by simp⟩
    · obtain ⟨h1, h2⟩ := setPath_fields _ _ _ h
      rw [h1, h2]
      exact ⟨hS.1, hS.2.1, by simp, by simp⟩
  · simp only [hforced, decide_False, if_false, Bool.false_eq_true] at h
    have hq : ch '?' ∉ (cut (ch '?') rest0).1 := cut_fst_not_mem _ _
    have hh : ch '#' ∉ (cut (ch '?') rest0).1 := fun hm => hrest0 (cut_fst_subset _ _ _ hm)
    split at h
    · simp only [Except.ok.injEq] at h
      subst h
      exact ⟨hS.1, hS.2.1, hq, hh⟩
    split at h
    · simp at h
    split at h
    · simp at h
    split at h
    · split at h
      · simp at h
      · obtain ⟨h1, h2⟩ := setPath_fields _ _ _ h
        rw [h1, h2]
        exact ⟨hS.1, hS.2.1, by simp, by simp⟩
    split at h
    · obtain ⟨h1, h2⟩ := setPath_fields _ _ _ h
      rw [h1, h2]
      exact ⟨hS.1, hS.2.1, by simp, by simp⟩
    · obtain ⟨h1, h2⟩ := setPath_fields _ _ _ h
      rw [h1, h2]
      exact ⟨hS.1, hS.2.1, by simp, by simp⟩

theorem Parse_scheme_opaque (raw : GoString) (u : URL) (h : Parse raw = .ok u) :
    ch '?' ∉ u.Scheme ∧ ch '#' ∉ u.Scheme ∧ ch '?' ∉ u.Opaque ∧ ch '#' ∉ u.Opaque := by
  unfold Parse at h
  simp only [] at h
  split at h
  · simp at h
  · rename_i url hp
    have := parse_scheme_opaque _ _ _ hp (cut_fst_not_mem _ _)
    split at h
    · simp only [Except.ok.injEq] at h
      subst h
      exact this
    · split at h
      · simp at h
      · rename_i url2 hf
        simp only [Except.ok.injEq] at h
        subst h
        obtain ⟨h1, h2, _⟩ := setFragment_fields _ _ _ hf
        rw [h1, h2]
        exact this

theorem escapeWrite_mem (mode : Encoding) (s : GoString) (b : Byte)
    (hb : b ∈ escapeWrite mode s) :
    b = ch '+' ∨ b = ch '%' ∨ (∃ c : Byte, b = upperhex (c.val / 16) ∨ b = upperhex (c.val % 16)) ∨
      shouldEscape b mode = false := by
  induction s with
  | nil => simp [escapeWrite] at hb
  | cons c s ih =>
    rw [escapeWrite_cons] at hb
    split at hb
    · rcases List.mem_cons.mp hb with h | h
      · exact Or.inl h
      · exact ih h
    · split at hb
      · simp only [List.mem_cons] at hb
        rcases hb with h | h | h | h
        · exact Or.inr (Or.inl h)
        · exact Or.inr (Or.inr (Or.inl ⟨c, Or.inl h⟩))
        · exact Or.inr (Or.inr (Or.inl ⟨c, Or.inr h⟩))
        · exact ih h
      · rename_i hne
        rcases List.mem_cons.mp hb with h | h
        · subst h
          exact Or.inr (Or.inr (Or.inr (by simpa using hne)))
        · exact ih h

/-- A text escaped for the user, host or path part of a URL holds neither `?`
nor `#`. -/
theorem escape_no_query_mark (mode : Encoding) (s : GoString) (b : Byte)
    (hb : b = ch '?' ∨ b = ch '#')
    (hmode : mode = .encodeUserPassword ∨ mode = .encodeHost ∨ mode = .encodePath) :
    b ∉ escape s mode := by
  rw [escape_eq_escapeWrite]
  intro hmem
  rcases escapeWrite_mem mode s b hmem with h | h | ⟨c, h⟩ | h
  · rcases hb with hb | hb <;> · subst hb; revert h; decide
  · rcases hb with hb | hb <;> · subst hb; revert h; decide
  · have hu := upperhex_ne c
    rcases hb with hb | hb <;> rcases h with h | h <;> subst hb
    · exact hu.1.2.2.2.2 h.symm
    · exact hu.2.2.2.2.2 h.symm
    · exact hu.1.2.2.2.1 h.symm
    · exact hu.2.2.2.2.1 h.symm
  · rcases hb with hb | hb <;> rcases hmode with hm | hm | hm <;>
    · subst hb hm; revert h; decide

theorem validEncoded_no_query_mark (s : GoString) (b : Byte)
    (hb : b = ch '?' ∨ b = ch '#') (hv : validEncoded s .encodePath = true) : b ∉ s := by
  intro hmem
  unfold validEncoded at hv
  rw [List.all_eq_true] at hv
  have := hv b hmem
  rcases hb with hb | hb <;> · subst hb; revert this; decide

theorem EscapedPath_no_query_mark (u : URL) (b : Byte) (hb : b = ch '?' ∨ b = ch '#') :
    b ∉ u.EscapedPath := by
  unfold URL.EscapedPath
  split
  · rename_i h
    exact validEncoded_no_query_mark _ _ hb h.2.1
  · split
    · rcases hb with hb | hb <;> · subst hb; decide
    · exact escape_no_query_mark _ _ _ hb (Or.inr (Or.inr rfl))

theorem Userinfo_no_query_mark (ui : Userinfo) (b : Byte) (hb : b = ch '?' ∨ b = ch '#') :
    b ∉ ui.String := by
  unfold Userinfo.String
  intro hmem
  rcases List.mem_append.mp hmem with h | h
  · exact escape_no_query_mark _ _ _ hb (Or.inl rfl) h
  · split at h
    · rcases List.mem_cons.mp h with h | h
      · rcases hb with hb | hb <;> · subst hb; revert h; decide
      · exact escape_no_query_mark _ _ _ hb (Or.inl rfl) h
    · simp at h

/-- What `URL.String` writes before the query holds neither `?` nor `#`, when
the scheme and the opaque part hold none. -/
theorem stringHead_no_query_mark (u : URL) (b : Byte) (hb : b = ch '?' ∨ b = ch '#')
    (h1 : b ∉ u.Scheme) (h2 : b ∉ u.Opaque) : b ∉ u.stringHead := by
  have hP := EscapedPath_no_query_mark u b hb
  have hH := escape_no_query_mark .encodeHost u.Host b hb (Or.inr (Or.inl rfl))
  have hc : b ≠ ch ':' ∧ b ≠ ch '/' ∧ b ≠ ch '@' ∧ b ≠ ch '.' := by
    rcases hb with hb | hb <;> · subst hb; decide
  have hss : b ∉ str "//" := by
    rcases hb with hb | hb <;> · subst hb; decide
  have hds : b ∉ str "./" := by
    rcases hb with hb | hb <;> · subst hb; decide
  have hU : ∀ ui, u.User = some ui → b ∉ ui.String := fun ui _ => Userinfo_no_query_mark ui b hb
  unfold URL.stringHead
  lift_lets
  intro buf0 b1 b2 buf1 path buf2 buf3
  have k0 : b ∉ buf0 := by
    simp only [buf0]
    split
    · simp only [List.mem_append, List.mem_singleton, not_or]
      exact ⟨h1, hc.1⟩
    · simp
  have k1 : b ∉ b1 := by
    simp only [b1]
    split
    · simp only [List.mem_append, not_or]
      exact ⟨k0, hss⟩
    · exact k0
  have k2 : b ∉ b2 := by
    simp only [b2]
    split
    · rename_i ui hu
      simp only [List.mem_append, List.mem_singleton, not_or]
      exact ⟨⟨k1, hU ui hu⟩, hc.2.2.1⟩
    · exact k1
  have k3 : b ∉ buf1 := by
    simp only [buf1]
    split
    · split
      · exact k0
      · split
        · simp only [List.mem_append, not_or]
          exact ⟨k2, hH⟩
        · exact k2
    · exact k0
  have k4 : b ∉ buf2 := by
    simp only [buf2]
    split
    · simp only [List.mem_append, List.mem_singleton, not_or]
      exact ⟨k3, hc.2.1⟩
    · exact k3
  have k5 : b ∉ buf3 := by
    simp only [buf3]
    split
    · simp only [List.mem_append, not_or]
      exact ⟨k4, hds⟩
    · exact k4
  split
  · simp only [List.mem_append, not_or]
    exact ⟨k0, h2⟩
  · simp only [List.mem_append, not_or]
    exact ⟨k5, hP⟩

/-- The text of `Values.Encode` holds no `#`, for values that hold one value
per key. -/
theorem Encode_no_hash (V : Values) (hs : ∀ k ∈ V.keys, ∃ v, V.lookup k = [v]) :
    ch '#' ∉ Values.Encode V := by
  unfold Values.Encode
  by_cases h0 : V.keys.length = 0
  · simp [h0]
  · simp only [h0, if_false]
    have hperm := List.perm_insertionSort (· ≤ ·) V.keys
    have hs2 : ∀ k ∈ List.insertionSort (· ≤ ·) V.keys, ∃ v, V.lookup k = [v] :=
      fun k hk => hs k (hperm.mem_iff.mp hk)
    generalize List.insertionSort (· ≤ ·) V.keys = S at hs2
    match S, hs2 with
    | [], _ => simp
    | k :: ks, hs2 =>
      rw [encode_fold V k ks hs2]
      intro hmem
      rcases List.mem_append.mp hmem with h | h
      · exact (segment_facts _ _).2.2.1 h
      · obtain ⟨l, hl, hb⟩ := List.mem_flatten.mp h
        obtain ⟨a, _, rfl⟩ := List.mem_map.mp hl
        rcases List.mem_cons.mp hb with h | h
        · revert h; decide
        · exact (segment_facts _ _).2.2.1 h

end Url

/-- The query component of the text `URL.String` writes is the `RawQuery` of
the URL, when the text before the query holds neither `?` nor `#` and the
query holds no `#`. -/
theorem Readback.queryComponent_String (u : Url.URL) (E : GoString)
    (hq : ch '?' ∉ u.stringHead) (hh : ch '#' ∉ u.stringHead) (hE : ch '#' ∉ E) :
    Readback.queryComponent (Url.URL.String { u with RawQuery := E }) = E := by
  have hhead : Url.URL.stringHead { u with RawQuery := E } = u.stringHead := rfl
  unfold Readback.queryComponent Url.URL.String
  simp only [hhead]
  by_cases hc : u.ForceQuery = true ∨ E ≠ []
  · simp only [hc, if_true]
    have hno : ch '#' ∉ u.stringHead ++ [ch '?'] ++ E := by
      simp only [List.mem_append, List.mem_singleton, not_or]
      exact ⟨⟨hh, by decide⟩, hE⟩
    have hcut : (cut (ch '#') (if u.Fragment ≠ [] then
        u.stringHead ++ [ch '?'] ++ E ++ [ch '#'] ++
          Url.URL.EscapedFragment { u with RawQuery := E }
        else u.stringHead ++ [ch '?'] ++ E)).1 = u.stringHead ++ [ch '?'] ++ E := by
      split
      · have := Url.cut_append_sep (ch '#') (u.stringHead ++ [ch '?'] ++ E)
          (Url.URL.EscapedFragment { u with RawQuery := E }) hno
        simp only [List.append_assoc, List.singleton_append] at this ⊢
        rw [this]
      · rw [Url.cut_of_not_mem _ _ hno]
    rw [hcut]
    have := Url.cut_append_sep (ch '?') u.stringHead E hq
    simp only [List.append_assoc, List.singleton_append]
    rw [this]
  · have hE0 : E = [] := by
      by_contra hne
      exact hc (Or.inr hne)
    simp only [hc, if_false]
    have hcut : (cut (ch '#') (if u.Fragment ≠ [] then
        u.stringHead ++ [ch '#'] ++ Url.URL.EscapedFragment { u with RawQuery := E }
        else u.stringHead)).1 = u.stringHead := by
      split
      · have := Url.cut_append_sep (ch '#') u.stringHead
          (Url.URL.EscapedFragment { u with RawQuery := E }) hh
        simp only [List.append_assoc, List.singleton_append] at this ⊢
        rw [this]
      · rw [Url.cut_of_not_mem _ _ hh]
    rw [hcut, Url.cut_of_not_mem _ _ hq, hE0]

/-- C5: for GET and DELETE, whenever `parseQuery` reports no error (the url
parses), the query round-trips for every params mapping, whatever bytes its
keys and values hold: `url.ParseQuery` applied to the query component of the
effective URL reports no error and yields exactly the keys of the params,
each once, each with its one original value. -/
theorem parseQuery_query_roundtrip (c : Client)
    (hm : c.method = Get ∨ c.method = Delete) (hok : c.parseQuery.2 = none) :
    ∃ eff, c.parse = (eff, none, none) ∧
      (Url.ParseQuery (Readback.queryComponent eff)).2 = none ∧
      (Url.Values.keys (Url.ParseQuery (Readback.queryComponent eff)).1).Nodup ∧
      (∀ k, k ∈ Url.Values.keys (Url.ParseQuery (Readback.queryComponent eff)).1 ↔
        ∃ v, GoMap.get? c.params k = some v) ∧
      ∀ k, Url.Values.lookup (Url.ParseQuery (Readback.queryComponent eff)).1 k
        = match GoMap.get? c.params k with
          | some v => [v]
          | none => [] := by
  have hrt := ParseQuery_Encode_params c.params
  have hparse : c.parse = (c.parseQuery.1, none, none) := by
    simp [Client.parse, hm, hok]
  refine ⟨c.parseQuery.1, hparse, ?_⟩
  have hsingle : ∀ k ∈ Url.Values.keys
      ((GoMap.range c.params).foldl (fun q kv => Url.Values.Add q kv.1 kv.2) []),
      ∃ v, Url.Values.lookup
        ((GoMap.range c.params).foldl (fun q kv => Url.Values.Add q kv.1 kv.2) []) k = [v] := by
    intro k hk
    rw [paramsValues_keys] at hk
    obtain ⟨v, hv⟩ := (GoMap.mem_range_keys _ _).mp hk
    exact ⟨v, by rw [paramsValues_lookup, hv]⟩
  have hq : Readback.queryComponent c.parseQuery.1 = Url.Values.Encode
      ((GoMap.range c.params).foldl (fun q kv => Url.Values.Add q kv.1 kv.2) []) := by
    unfold Client.parseQuery at hok ⊢
    simp only [] at hok ⊢
    cases hp : Url.Parse c.url with
    | error e => rw [hp] at hok; simp at hok
    | ok u =>
      simp only []
      have hso := Url.Parse_scheme_opaque _ _ hp
      exact Readback.queryComponent_String u _
        (Url.stringHead_no_query_mark u _ (Or.inl rfl) hso.1 hso.2.2.1)
        (Url.stringHead_no_query_mark u _ (Or.inr rfl) hso.2.1 hso.2.2.2)
        (Url.Encode_no_hash _ hsingle)
  rw [hq]
  refine ⟨hrt.1, hrt.2.2.1, ?_, hrt.2.2.2⟩
  intro k
  rw [hrt.2.1, (List.perm_insertionSort _ _).mem_iff, GoMap.mem_range_keys]

theorem parseQuery_query_roundtrip_witness :
    ({ NewClient (str "http://x.test/api?old=1#frag") with
        params := some [(str "a&b=", str "x y&z=%+#")], method := Get } : Client).parseQuery.2
      = none ∧
    ({ NewClient (str "http://x.test/api?old=1#frag") with
        params := some [(str "a&b=", str "x y&z=%+#")], method := Get } : Client).parse
      = (str "http://x.test/api?a%26b%3D=x+y%26z%3D%25%2B%23#frag", none, none) ∧
    Readback.queryComponent (str "http://x.test/api?a%26b%3D=x+y%26z%3D%25%2B%23#frag")
      = str "a%26b%3D=x+y%26z%3D%25%2B%23" ∧
    Url.ParseQuery (str "a%26b%3D=x+y%26z%3D%25%2B%23")
      = ([(str "a&b=", [str "x y&z=%+#"])], none) ∧
    ∃ eff, ({ NewClient (str "http://x.test/api?old=1#frag") with
        params := some [(str "a&b=", str "x y&z=%+#")], method := Get } : Client).parse
        = (eff, none, none) ∧
      (Url.ParseQuery (Readback.queryComponent eff)).2 = none ∧
      Url.Values.lookup (Url.ParseQuery (Readback.queryComponent eff)).1 (str "a&b=")
        = [str "x y&z=%+#"] := by
  obtain ⟨eff, h1, h2, _, _, h5⟩ := parseQuery_query_roundtrip
    ({ NewClient (str "http://x.test/api?old=1#frag") with
        params := some [(str "a&b=", str "x y&z=%+#")], method := Get } : Client)
    (Or.inl rfl) (by decide)
  exact ⟨by decide, by decide, by decide, by decide, eff, h1, h2, h5 (str "a&b=")⟩

namespace Utf8

set_option maxRecDepth 100000 in
theorem first_cases : ∀ b : Byte, 0x80 ≤ b.val →
    first b = 0xF1 ∨
    (first b % 8 = 2 ∧ first b < 0xF0 ∧ 0x80 ≤ (acceptRanges (first b / 16)).1) ∨
    (first b % 8 = 3 ∧ first b < 0xF0 ∧ 0x80 ≤ (acceptRanges (first b / 16)).1 ∧
      (acceptRanges (first b / 16)).2 ≤ 0xBF ∧ 0xE0 ≤ b.val ∧ b.val ≤ 0xEF) ∨
    (first b % 8 = 4 ∧ first b < 0xF0 ∧ 0x80 ≤ (acceptRanges (first b / 16)).1 ∧
      (b.val = 0xF0 → 0x90 ≤ (acceptRanges (first b / 16)).1) ∧ 0xF0 ≤ b.val ∧
      b.val ≤ 0xF4 ∧ (acceptRanges (first b / 16)).2 ≤ 0xBF) := by
  decide

theorem decode_invalid (b : Byte) (t : GoString) (hf : first b = 0xF1) :
    DecodeRuneInString (b :: t) = (RuneError, 1) := by
  simp [DecodeRuneInString, hf]

theorem decode_short (b : Byte) (hlt : first b < 0xF0) :
    DecodeRuneInString [b] = (RuneError, 1) := by
  have h1 : ¬ (0xF0 ≤ first b) := by omega
  simp only [DecodeRuneInString, ge_iff_le, h1, if_false, List.length_singleton]
  split <;> rfl

theorem decode2 (b s1 : Byte) (r : GoString) (h8 : first b % 8 = 2) (hlt : first b < 0xF0) :
    DecodeRuneInString (b :: s1 :: r) =
      if s1.val < (acceptRanges (first b / 16)).1 ∨ (acceptRanges (first b / 16)).2 < s1.val then
        (RuneError, 1)
      else ((b.val % 32) * 64 + s1.val % 64, 2) := by
  have h1 : ¬ (0xF0 ≤ first b) := by omega
  have h2 : ¬ ((b :: s1 :: r).length < 2) := by simp
  simp only [DecodeRuneInString, ge_iff_le, h1, if_false, h8, h2, Nat.le_refl, if_true]

theorem decode3_short (b s1 : Byte) (h8 : first b % 8 = 3) (hlt : first b < 0xF0) :
    DecodeRuneInString [b, s1] = (RuneError, 1) := by
  have h1 : ¬ (0xF0 ≤ first b) := by omega
  simp [DecodeRuneInString, h1, h8]

theorem decode3 (b s1 s2 : Byte) (r : GoString) (h8 : first b % 8 = 3) (hlt : first b < 0xF0) :
    DecodeRuneInString (b :: s1 :: s2 :: r) =
      if s1.val < (acceptRanges (first b / 16)).1 ∨ (acceptRanges (first b / 16)).2 < s1.val then
        (RuneError, 1)
      else if s2.val < 0x80 ∨ 0xBF < s2.val then (RuneError, 1)
      else ((b.val % 16) * 4096 + (s1.val % 64) * 64 + s2.val % 64, 3) := by
  have h1 : ¬ (0xF0 ≤ first b) := by omega
  have h2 : ¬ ((b :: s1 :: s2 :: r).length < 3) := by simp
  have h3 : ¬ (3 ≤ 2) := by omega
  simp only [DecodeRuneInString, ge_iff_le, h1, if_false, h8, h2, h3, Nat.le_refl, if_true]

theorem decode4_short (b s1 : Byte) (t : GoString) (ht : t.length ≤ 1)
    (h8 : first b % 8 = 4) (hlt : first b < 0xF0) :
    DecodeRuneInString (b :: s1 :: t) = (RuneError, 1) := by
  have h1 : ¬ (0xF0 ≤ first b) := by omega
  have h2 : (b :: s1 :: t).length < 4 := by simp; omega
  simp only [DecodeRuneInString, ge_iff_le, h1, if_false, h8, h2, if_true]

theorem decode4 (b s1 s2 s3 : Byte) (r : GoString) (h8 : first b % 8 = 4)
    (hlt : first b < 0xF0) :
    DecodeRuneInString (b :: s1 :: s2 :: s3 :: r) =
      if s1.val < (acceptRanges (first b / 16)).1 ∨ (acceptRanges (first b / 16)).2 < s1.val then
        (RuneError, 1)
      else if s2.val < 0x80 ∨ 0xBF < s2.val then (RuneError, 1)
      else if s3.val < 0x80 ∨ 0xBF < s3.val then (RuneError, 1)
      else ((b.val % 8) * 262144 + (s1.val % 64) * 4096 + (s2.val % 64) * 64 + s3.val % 64, 4) := by
  have h1 : ¬ (0xF0 ≤ first b) := by omega
  have h2 : ¬ ((b :: s1 :: s2 :: s3 :: r).length < 4) := by simp
  have h3 : ¬ (4 ≤ 2) := by omega
  have h4 : ¬ (4 ≤ 3) := by omega
  simp only [DecodeRuneInString, ge_iff_le, h1, if_false, h8, h2, h3, h4]

/-- The outcomes of `DecodeRuneInString` on a text that starts outside ASCII:
width 1 for an invalid encoding, else the width of the rune, whose bytes are
all outside ASCII. -/
theorem DecodeRuneInString_cases (b : Byte) (t : GoString) (hb : 0x80 ≤ b.val) :
    DecodeRuneInString (b :: t) = (RuneError, 1) ∨
    ((DecodeRuneInString (b :: t)).2 = 2 ∧ ∃ s1 r, t = s1 :: r ∧ 0x80 ≤ s1.val ∧
      (DecodeRuneInString (b :: t)).1 < 0x800) ∨
    ((DecodeRuneInString (b :: t)).2 = 3 ∧ ∃ s1 s2 r, t = s1 :: s2 :: r ∧ 0x80 ≤ s1.val ∧
      0x80 ≤ s2.val ∧ s1.val ≤ 0xBF ∧ s2.val ≤ 0xBF ∧ 0xE0 ≤ b.val ∧ b.val ≤ 0xEF ∧
      (DecodeRuneInString (b :: t)).1 = (b.val % 16) * 4096 + (s1.val % 64) * 64 + s2.val % 64) ∨
    ((DecodeRuneInString (b :: t)).2 = 4 ∧ ∃ s1 s2 s3 r, t = s1 :: s2 :: s3 :: r ∧
      0x80 ≤ s1.val ∧ 0x80 ≤ s2.val ∧ 0x80 ≤ s3.val ∧
      0x10000 ≤ (DecodeRuneInString (b :: t)).1) := by
  rcases first_cases b hb with hf | ⟨h8, hlt, hlo⟩ | ⟨h8, hlt, hlo, hhi, hb1, hb2⟩ |
    ⟨h8, hlt, hlo, hlo2, hb1, hb2, hhi⟩
  · left
    exact decode_invalid b t hf
  · match t with
    | [] => left; exact decode_short b hlt
    | s1 :: r =>
      rw [decode2 b s1 r h8 hlt]
      split
      · left; rfl
      · rename_i hc
        right; left
        exact ⟨rfl, s1, r, rfl, by omega, by simp only []; omega⟩
  · match t with
    | [] => left; exact decode_short b hlt
    | [s1] => left; exact decode3_short b s1 h8 hlt
    | s1 :: s2 :: r =>
      rw [decode3 b s1 s2 r h8 hlt]
      split
      · left; rfl
      · split
        · left; rfl
        · right; right; left
          exact ⟨rfl, s1, s2, r, rfl, by omega, by omega, by omega, by omega, hb1, hb2, rfl⟩
  · match t with
    | [] => left; exact decode_short b hlt
    | [s1] => left; exact decode4_short b s1 [] (by simp) h8 hlt
    | [s1, s2] => left; exact decode4_short b s1 [s2] (by simp) h8 hlt
    | s1 :: s2 :: s3 :: r =>
      rw [decode4 b s1 s2 s3 r h8 hlt]
      split
      · left; rfl
      · split
        · left; rfl
        · split
          · left; rfl
          · right; right; right
            refine ⟨rfl, s1, s2, s3, r, rfl, by omega, by omega, by omega, ?_⟩
            simp only []
            by_cases hF0 : b.val = 0xF0
            · have := hlo2 hF0
              omega
            · omega

end Utf8

namespace Utf8

theorem decode_take4 (b : Byte) (t : GoString) (hb : 0x80 ≤ b.val) :
    DecodeRuneInString ((b :: t).take 4) = DecodeRuneInString (b :: t) := by
  match t with
  | [] => rfl
  | [_] => rfl
  | [_, _] => rfl
  | [_, _, _] => rfl
  | s1 :: s2 :: s3 :: s4 :: r =>
    simp only [List.take_succ_cons, List.take_zero]
    rcases first_cases b hb with hf | ⟨h8, hlt, _⟩ | ⟨h8, hlt, _⟩ | ⟨h8, hlt, _⟩
    · rw [decode_invalid _ _ hf, decode_invalid _ _ hf]
    · rw [decode2 _ _ _ h8 hlt, decode2 _ _ _ h8 hlt]
    · rw [decode3 _ _ _ _ h8 hlt, decode3 _ _ _ _ h8 hlt]
    · rw [decode4 _ _ _ _ _ h8 hlt, decode4 _ _ _ _ _ h8 hlt]

end Utf8

namespace Readback

theorem readStringFrom_skip (l t : GoString) :
    readStringFrom l.length (l ++ t) = readStringFrom 0 t := by
  induction l with
  | nil => rfl
  | cons c l ih => simpa [readStringFrom] using ih

theorem readString_quote (s : GoString) : readString (34 :: s) = some ([], s) := by
  simp [readString, readStringFrom]

theorem readString_plain (c : Byte) (s : GoString) (h1 : c ≠ 34) (h2 : c ≠ 92)
    (h3 : 0x20 ≤ c.val) :
    readString (c :: s) = (readString s).map (fun p => (c :: p.1, p.2)) := by
  have h4 : ¬ c.val < 0x20 := by omega
  simp only [readString, readStringFrom, h1, h2, h4, if_false]

theorem readString_escape (l t x : GoString) (h : readEscape (l ++ t) = some (x, l.length)) :
    readString (92 :: (l ++ t)) = (readString t).map (fun p => (x ++ p.1, p.2)) := by
  have h0 : (92 : Byte) ≠ 34 := by decide
  simp only [readString, readStringFrom, h0, if_false, if_true, h, readStringFrom_skip]

theorem lowSurrogate_none (r : Nat) (s : GoString) (hr : r < 0xD800 ∨ 0xDC00 ≤ r) :
    lowSurrogate r s = none := by
  unfold lowSurrogate
  split
  · rename_i b u e f g h rest
    have : ¬ (b = 92 ∧ u = ch 'u' ∧ 0xD800 ≤ r ∧ r < 0xDC00) := by
      intro h; omega
    simp only [this, if_false]
  · rfl

theorem readString_unicode (h1 h2 h3 h4 : Byte) (s : GoString) (r : Nat)
    (hg : getu4 h1 h2 h3 h4 = some r) (hr : r < 0xD800 ∨ 0xDC00 ≤ r) :
    readString (92 :: ch 'u' :: h1 :: h2 :: h3 :: h4 :: s)
      = (readString s).map (fun p => (Utf8.EncodeRune r ++ p.1, p.2)) := by
  have := readString_escape [ch 'u', h1, h2, h3, h4] s (Utf8.EncodeRune r) (by
    simp only [List.cons_append, List.nil_append, readEscape, if_true, hg,
      lowSurrogate_none r _ hr, List.length_cons, List.length_nil])
  simpa using this

theorem readString_simple (e x : Byte) (s : GoString) (h1 : e ≠ ch 'u')
    (h2 : simpleEscape e = some x) :
    readString (92 :: e :: s) = (readString s).map (fun p => (x :: p.1, p.2)) := by
  have := readString_escape [e] s [x] (by
    simp only [List.cons_append, List.nil_append, readEscape, h1, if_false, h2,
      List.length_cons, List.length_nil])
  simpa using this

end Readback

namespace Json

theorem appendStringFrom_skip (l t : GoString) :
    appendStringFrom l.length (l ++ t) = appendStringFrom 0 t := by
  induction l with
  | nil => rfl
  | cons c l ih => simpa [appendStringFrom] using ih

theorem appendStringLoop_nil : appendStringLoop [] = [] := rfl

theorem appendStringLoop_ascii (b : Byte) (s : GoString) (hb : b.val < 0x80) :
    appendStringLoop (b :: s) =
      if htmlSafeSet b then b :: appendStringLoop s else escapeByte b ++ appendStringLoop s := by
  simp only [appendStringLoop, appendStringFrom, hb, if_true]

/-- The loop of `appendString` at a rune outside ASCII: `l` holds the bytes of
the rune after the first. -/
theorem appendStringLoop_rune (b : Byte) (l t : GoString) (c : Nat) (hb : 0x80 ≤ b.val)
    (hd : Utf8.DecodeRuneInString (b :: (l ++ t)) = (c, l.length + 1)) (hl : l ≠ []) :
    appendStringLoop (b :: (l ++ t)) =
      if c = 0x2028 ∨ c = 0x2029 then
        [92, ch 'u', ch '2', ch '0', ch '2', hex (c % 16)] ++ appendStringLoop t
      else b :: l ++ appendStringLoop t := by
  have hb2 : ¬ b.val < 0x80 := by omega
  have hlen : ¬ (l.length + 1 = 1) := by
    have := List.length_pos.mpr hl
    omega
  simp only [appendStringLoop, appendStringFrom, hb2, if_false, Utf8.decode_take4 b _ hb, hd,
    hlen, and_false, Nat.add_sub_cancel, appendStringFrom_skip]
  split
  · rfl
  · simp

end Json

namespace Utf8

theorem validFrom_skip (l t : GoString) : validFrom l.length (l ++ t) = validFrom 0 t := by
  induction l with
  | nil => rfl
  | cons c l ih => simpa [validFrom] using ih

theorem ValidString_ascii (b : Byte) (s : GoString) (hb : b.val < 0x80) :
    ValidString (b :: s) = ValidString s := by
  simp only [ValidString, validFrom, hb, if_true]

theorem ValidString_invalid (b : Byte) (s : GoString) (hb : 0x80 ≤ b.val)
    (hd : DecodeRuneInString (b :: s) = (RuneError, 1)) : ValidString (b :: s) = false := by
  have hb2 : ¬ b.val < 0x80 := by omega
  simp only [ValidString, validFrom, hb2, if_false, hd, and_self, if_true]

theorem ValidString_rune (b : Byte) (l t : GoString) (c : Nat) (hb : 0x80 ≤ b.val)
    (hd : DecodeRuneInString (b :: (l ++ t)) = (c, l.length + 1)) (hl : l ≠ []) :
    ValidString (b :: (l ++ t)) = ValidString t := by
  have hb2 : ¬ b.val < 0x80 := by omega
  have hlen : ¬ (l.length + 1 = 1) := by
    have := List.length_pos.mpr hl
    omega
  simp only [ValidString, validFrom, hb2, if_false, hd, hlen, and_false, Nat.add_sub_cancel,
    validFrom_skip]

end Utf8
namespace Readback

set_option maxRecDepth 100000 in
theorem htmlSafe_plain : ∀ b : Byte, Json.htmlSafeSet b = true →
    b ≠ 34 ∧ b ≠ 92 ∧ 0x20 ≤ b.val := by
  decide

set_option maxRecDepth 100000 in
theorem escapeByte_cases : ∀ b : Byte, b.val < 0x80 → Json.htmlSafeSet b = false →
    (Json.escapeByte b = [92, (Json.escapeByte b).getD 1 0] ∧
      (Json.escapeByte b).getD 1 0 ≠ ch 'u' ∧
      simpleEscape ((Json.escapeByte b).getD 1 0) = some b) ∨
    (Json.escapeByte b
        = [92, ch 'u', ch '0', ch '0', Json.hex (b.val / 16), Json.hex (b.val % 16)] ∧
      getu4 (ch '0') (ch '0') (Json.hex (b.val / 16)) (Json.hex (b.val % 16)) = some b.val ∧
      Utf8.EncodeRune b.val = [b]) := by
  decide

theorem readString_escapeByte (b : Byte) (t : GoString) (hb : b.val < 0x80)
    (hs : Json.htmlSafeSet b = false) :
    readString (Json.escapeByte b ++ t) = (readString t).map (fun p => (b :: p.1, p.2)) := by
  rcases escapeByte_cases b hb hs with ⟨h1, h2, h3⟩ | ⟨h1, h2, h3⟩
  · rw [h1]
    exact readString_simple _ _ _ h2 h3
  · rw [h1]
    have := readString_unicode _ _ _ _ t b.val h2 (Or.inl (by omega))
    rw [h3] at this
    simpa using this

theorem readString_high (b : Byte) (s : GoString) (hb : 0x80 ≤ b.val) :
    readString (b :: s) = (readString s).map (fun p => (b :: p.1, p.2)) := by
  apply readString_plain
  · intro h; subst h; revert hb; decide
  · intro h; subst h; revert hb; decide
  · omega

theorem line_separator_bytes (b s1 s2 : Byte) (c : Nat)
    (hc : c = (b.val % 16) * 4096 + (s1.val % 64) * 64 + s2.val % 64)
    (h1 : 0x80 ≤ s1.val) (h2 : 0x80 ≤ s2.val) (h3 : s1.val ≤ 0xBF) (h4 : s2.val ≤ 0xBF)
    (h5 : 0xE0 ≤ b.val) (h6 : b.val ≤ 0xEF) (h2028 : c = 0x2028 ∨ c = 0x2029) :
    getu4 (ch '2') (ch '0') (ch '2') (Json.hex (c % 16)) = some c ∧
      Utf8.EncodeRune c = [b, s1, s2] := by
  have hb : b = 0xE2 := Fin.ext (by show b.val = 226; omega)
  have hs1 : s1 = 0x80 := Fin.ext (by show s1.val = 128; omega)
  rcases h2028 with h | h
  · have hs2 : s2 = 0xA8 := Fin.ext (by show s2.val = 168; omega)
    subst hb hs1 hs2 h
    decide
  · have hs2 : s2 = 0xA9 := Fin.ext (by show s2.val = 169; omega)
    subst hb hs1 hs2 h
    decide

/-- Reading back the JSON string literal of a valid UTF-8 text yields the
text. -/
theorem readString_appendStringLoop (n : Nat) :
    ∀ s : GoString, s.length ≤ n → Utf8.ValidString s = true → ∀ rest : GoString,
      readString (Json.appendStringLoop s ++ 34 :: rest) = some (s, rest) := by
  induction n with
  | zero =>
    intro s hs _ rest
    have : s = [] := List.length_eq_zero.mp (by omega)
    subst this
    exact readString_quote rest
  | succ n ih =>
    intro s hs hv rest
    match s, hs, hv with
    | [], _, _ => exact readString_quote rest
    | b :: t, hs, hv =>
      have hlen : t.length ≤ n := by simpa using hs
      by_cases hb : b.val < 0x80
      · rw [Utf8.ValidString_ascii b t hb] at hv
        have := ih t hlen hv rest
        rw [Json.appendStringLoop_ascii b t hb]
        by_cases hsafe : Json.htmlSafeSet b = true
        · have hp := htmlSafe_plain b hsafe
          simp only [hsafe, if_true, List.cons_append]
          rw [readString_plain _ _ hp.1 hp.2.1 hp.2.2, this]
          rfl
        · have hsafe2 : Json.htmlSafeSet b = false := by simpa using hsafe
          simp only [hsafe2, Bool.false_eq_true, if_false, List.append_assoc]
          rw [readString_escapeByte b _ hb hsafe2, this]
          rfl
      · have hb2 : 0x80 ≤ b.val := by omega
        rcases Utf8.DecodeRuneInString_cases b t hb2 with hd | ⟨hd, s1, r, rfl, h1, hc⟩ |
          ⟨hd, s1, s2, r, rfl, h1, h2, h3, h4, h5, h6, hc⟩ |
          ⟨hd, s1, s2, s3, r, rfl, h1, h2, h3, hc⟩
        · rw [Utf8.ValidString_invalid b t hb2 hd] at hv
          exact absurd hv (by simp)
        · have hd2 : Utf8.DecodeRuneInString (b :: ([s1] ++ r))
              = ((Utf8.DecodeRuneInString (b :: s1 :: r)).1, [s1].length + 1) := by
            exact Prod.ext rfl hd
          have hv2 := Utf8.ValidString_rune b [s1] r _ hb2 hd2 (by simp)
          have ha := Json.appendStringLoop_rune b [s1] r _ hb2 hd2 (by simp)
          simp only [List.singleton_append] at hv2 ha
          rw [hv2] at hv
          have hne : ¬ ((Utf8.DecodeRuneInString (b :: s1 :: r)).1 = 0x2028 ∨
              (Utf8.DecodeRuneInString (b :: s1 :: r)).1 = 0x2029) := by omega
          rw [ha]
          simp only [hne, if_false, List.cons_append, List.nil_append]
          rw [readString_high _ _ hb2, readString_high _ _ h1,
            ih r (by simp at hlen; omega) hv rest]
          rfl
        · have hd2 : Utf8.DecodeRuneInString (b :: ([s1, s2] ++ r))
              = ((Utf8.DecodeRuneInString (b :: s1 :: s2 :: r)).1, [s1, s2].length + 1) := by
            exact Prod.ext rfl hd
          have hv2 := Utf8.ValidString_rune b [s1, s2] r _ hb2 hd2 (by simp)
          have ha := Json.appendStringLoop_rune b [s1, s2] r _ hb2 hd2 (by simp)
          simp only [List.cons_append, List.nil_append] at hv2 ha
          rw [hv2] at hv
          have hr := ih r (by simp at hlen; omega) hv rest
          rw [ha]
          split
          · rename_i h2028
            have hl := line_separator_bytes b s1 s2 _ hc h1 h2 h3 h4 h5 h6 h2028
            simp only [List.cons_append, List.nil_append]
            rw [readString_unicode _ _ _ _ _ _ hl.1 (Or.inl (by omega)), hr, hl.2]
            rfl
          · simp only [List.cons_append, List.nil_append]
            rw [readString_high _ _ hb2, readString_high _ _ h1, readString_high _ _ h2, hr]
            rfl
        · have hd2 : Utf8.DecodeRuneInString (b :: ([s1, s2, s3] ++ r))
              = ((Utf8.DecodeRuneInString (b :: s1 :: s2 :: s3 :: r)).1,
                  [s1, s2, s3].length + 1) := by
            exact Prod.ext rfl hd
          have hv2 := Utf8.ValidString_rune b [s1, s2, s3] r _ hb2 hd2 (by simp)
          have ha := Json.appendStringLoop_rune b [s1, s2, s3] r _ hb2 hd2 (by simp)
          simp only [List.cons_append, List.nil_append] at hv2 ha
          rw [hv2] at hv
          have hr := ih r (by simp at hlen; omega) hv rest
          have hne : ¬ ((Utf8.DecodeRuneInString (b :: s1 :: s2 :: s3 :: r)).1 = 0x2028 ∨
              (Utf8.DecodeRuneInString (b :: s1 :: s2 :: s3 :: r)).1 = 0x2029) := by omega
          rw [ha]
          simp only [hne, if_false, List.cons_append, List.nil_append]
          rw [readString_high _ _ hb2, readString_high _ _ h1, readString_high _ _ h2,
            readString_high _ _ h3, hr]
          rfl

end Readback

namespace Readback

theorem expect_head (c : Byte) (r : GoString) (hc : isSpace c = false) :
    expect c (c :: r) = some r := by
  simp [expect, skipSpace, hc]

theorem expect_other (c x : Byte) (r : GoString) (hx : isSpace x = false) (hne : x ≠ c) :
    expect c (x :: r) = none := by
  simp [expect, skipSpace, hx, hne]

/-- Reading one member `"key":"value"` that `json.Marshal` wrote. -/
theorem readMembers_member (k v tail : GoString) (acc : Entries) (fuel : Nat)
    (hk : Utf8.ValidString k = true) (hv : Utf8.ValidString v = true) :
    readMembers (fuel + 1)
        (Json.appendString k ++ [ch ':'] ++ Json.appendString v ++ tail) acc =
      match expect (ch ',') tail, expect (ch '}') tail with
      | some s6, _ => readMembers fuel s6 (Entries.set acc k v)
      | none, some s6 => some (Entries.set acc k v, s6)
      | none, none => none := by
  have e1 : Json.appendString k ++ [ch ':'] ++ Json.appendString v ++ tail
      = 34 :: (Json.appendStringLoop k ++ 34 ::
          (ch ':' :: 34 :: (Json.appendStringLoop v ++ 34 :: tail))) := by
    simp [Json.appendString]
  rw [e1, readMembers]
  rw [expect_head 34 _ (by decide)]
  simp only []
  rw [readString_appendStringLoop k.length k (Nat.le_refl _) hk]
  simp only []
  rw [expect_head (ch ':') _ (by decide)]
  simp only []
  rw [expect_head 34 _ (by decide)]
  simp only []
  rw [readString_appendStringLoop v.length v (Nat.le_refl _) hv]
  try rfl

theorem encodeMembers_cons (k v : GoString) (kvs : List (GoString × GoString)) (i : Nat) :
    Json.encodeMembers ((k, v) :: kvs) i =
      (if i > 0 then [ch ','] else []) ++ Json.appendString k ++ [ch ':'] ++ Json.appendString v
        ++ Json.encodeMembers kvs (i + 1) := rfl

/-- Reading the members that `json.Marshal` wrote, up to the closing brace. -/
theorem readMembers_encodeMembers (kvs : List (GoString × GoString)) :
    ∀ (k v : GoString) (acc : Entries) (fuel i : Nat) (tail : GoString),
      kvs.length ≤ fuel →
      Utf8.ValidString k = true → Utf8.ValidString v = true →
      (∀ kv ∈ kvs, Utf8.ValidString kv.1 = true ∧ Utf8.ValidString kv.2 = true) →
      readMembers (fuel + 1)
          (Json.appendString k ++ [ch ':'] ++ Json.appendString v ++
            (Json.encodeMembers kvs (i + 1) ++ ch '}' :: tail)) acc
        = some (kvs.foldl (fun a kv => Entries.set a kv.1 kv.2) (Entries.set acc k v), tail) := by
  induction kvs with
  | nil =>
    intro k v acc fuel i tail _ hk hv _
    rw [readMembers_member k v _ acc fuel hk hv]
    simp only [Json.encodeMembers, List.nil_append]
    rw [expect_other (ch ',') (ch '}') tail (by decide) (by decide),
      expect_head (ch '}') tail (by decide)]
    rfl
  | cons kv kvs ih =>
    intro k v acc fuel i tail hf hk hv hall
    obtain ⟨k2, v2⟩ := kv
    rw [readMembers_member k v _ acc fuel hk hv]
    have hi : i + 1 > 0 := Nat.succ_pos i
    rw [encodeMembers_cons]
    simp only [hi, if_true, List.append_assoc, List.singleton_append, List.cons_append,
      List.nil_append]
    rw [expect_head (ch ',') _ (by decide)]
    simp only []
    obtain ⟨f, rfl⟩ : ∃ f, fuel = f + 1 := by
      simp only [List.length_cons] at hf
      exact ⟨fuel - 1, by omega⟩
    have h2 := hall (k2, v2) (List.mem_cons_self _ _)
    have := ih k2 v2 (Entries.set acc k v) f (i + 1) tail
      (by simp only [List.length_cons] at hf; omega) h2.1 h2.2
      (fun x hx => hall x (List.mem_cons_of_mem _ hx))
    simp only [List.append_assoc, List.singleton_append, List.cons_append,
      List.nil_append] at this
    rw [this]
    rfl

theorem encodeMembers_length (kvs : List (GoString × GoString)) (i : Nat) :
    kvs.length ≤ (Json.encodeMembers kvs i).length := by
  induction kvs generalizing i with
  | nil => simp
  | cons kv kvs ih =>
    obtain ⟨k, v⟩ := kv
    rw [encodeMembers_cons]
    have := ih (i + 1)
    simp only [List.length_append, List.length_cons, List.length_nil]
    omega

/-- Parsing back the object that `json.Marshal` wrote for entries of valid
UTF-8 text: the mapping built by writing the entries in turn. -/
theorem parseObject_encodeMembers (k v : GoString) (kvs : List (GoString × GoString))
    (hall : ∀ kv ∈ (k, v) :: kvs, Utf8.ValidString kv.1 = true ∧ Utf8.ValidString kv.2 = true) :
    parseObject (ch '{' :: Json.encodeMembers ((k, v) :: kvs) 0 ++ [ch '}'])
      = some (((k, v) :: kvs).foldl (fun a kv => Entries.set a kv.1 kv.2) []) := by
  unfold parseObject
  simp only [List.cons_append]
  rw [expect_head (ch '{') _ (by decide)]
  simp only []
  have hk := hall (k, v) (List.mem_cons_self _ _)
  have e1 : Json.encodeMembers ((k, v) :: kvs) 0 ++ [ch '}']
      = Json.appendString k ++ [ch ':'] ++ Json.appendString v ++
          (Json.encodeMembers kvs (0 + 1) ++ ch '}' :: []) := by
    rw [encodeMembers_cons]
    simp
  have e2 : expect (ch '}') (Json.encodeMembers ((k, v) :: kvs) 0 ++ [ch '}']) = none := by
    rw [e1]
    simp only [Json.appendString, List.cons_append]
    exact expect_other _ _ _ (by decide) (by decide)
  rw [e2]
  simp only []
  have hlen : ∃ f, (Json.encodeMembers ((k, v) :: kvs) 0 ++ [ch '}']).length = f + 1 ∧
      kvs.length ≤ f := by
    refine ⟨(Json.encodeMembers ((k, v) :: kvs) 0).length, by simp, ?_⟩
    have := encodeMembers_length ((k, v) :: kvs) 0
    simp only [List.length_cons] at this
    omega
  obtain ⟨f, hf1, hf2⟩ := hlen
  rw [hf1, e1, readMembers_encodeMembers kvs k v [] f 0 [] hf2 hk.1 hk.2
    (fun x hx => hall x (List.mem_cons_of_mem _ hx))]
  simp [skipSpace]

end Readback

theorem Entries.get?_foldl_set_of_not_mem (P : List (GoString × GoString)) (acc : Entries)
    (k : GoString) (h : k ∉ P.map Prod.fst) :
    Entries.get? (P.foldl (fun a kv => Entries.set a kv.1 kv.2) acc) k = Entries.get? acc k := by
  induction P generalizing acc with
  | nil => rfl
  | cons p P ih =>
    simp only [List.map_cons, List.mem_cons, not_or] at h
    simp only [List.foldl_cons]
    rw [ih _ h.2, Entries.get?_set_of_ne _ _ _ _ h.1]

theorem Entries.get?_foldl_set_of_mem (P : List (GoString × GoString)) (acc : Entries)
    (k v : GoString) (hnd : (P.map Prod.fst).Nodup) (h : (k, v) ∈ P) :
    Entries.get? (P.foldl (fun a kv => Entries.set a kv.1 kv.2) acc) k = some v := by
  induction P generalizing acc with
  | nil => simp at h
  | cons p P ih =>
    simp only [List.map_cons, List.nodup_cons] at hnd
    simp only [List.foldl_cons]
    rcases List.mem_cons.mp h with h | h
    · subst h
      rw [Entries.get?_foldl_set_of_not_mem _ _ _ hnd.1, Entries.get?_set_self]
    · exact ih _ hnd.2 h

/-- The entries `json.Marshal` encodes: the keys of the map in ascending order,
each once, each with its value. -/
theorem Json.sorted_entries_spec (m : Entries) :
    (((List.insertionSort (· ≤ ·) (Entries.keys m)).filterMap
        (fun k => (Entries.get? m k).map (fun v => (k, v)))).map Prod.fst).Nodup ∧
    (∀ k v, (k, v) ∈ (List.insertionSort (· ≤ ·) (Entries.keys m)).filterMap
        (fun k => (Entries.get? m k).map (fun v => (k, v))) ↔ Entries.get? m k = some v) ∧
    ((List.insertionSort (· ≤ ·) (Entries.keys m)).filterMap
        (fun k => (Entries.get? m k).map (fun v => (k, v)))).length = (Entries.keys m).length := by
  have hperm := List.perm_insertionSort (· ≤ ·) (Entries.keys m)
  have hk : ((List.insertionSort (· ≤ ·) (Entries.keys m)).filterMap
      (fun k => (Entries.get? m k).map (fun v => (k, v)))).map Prod.fst
      = List.insertionSort (· ≤ ·) (Entries.keys m) := by
    apply filterMap_pairs_fst
    intro k hk
    exact Entries.get?_of_mem m k (List.mem_dedup.mp (hperm.mem_iff.mp hk))
  refine ⟨?_, ?_, ?_⟩
  · rw [hk]
    exact hperm.nodup_iff.mpr (List.nodup_dedup _)
  · intro k v
    simp only [List.mem_filterMap, Option.map_eq_some']
    constructor
    · rintro ⟨a, _, b, hb, heq⟩
      simp only [Prod.mk.injEq] at heq
      obtain ⟨h1, h2⟩ := heq
      subst h1 h2
      exact hb
    · intro h
      exact ⟨k, hperm.mem_iff.mpr (List.mem_dedup.mpr (Entries.get?_eq_some_mem m k v h)),
        v, h, rfl⟩
  · have := congrArg List.length hk
    rw [List.length_map] at this
    rw [this, hperm.length_eq]

/-- Parsing back the object that `json.Marshal` writes for a non-empty map of
valid UTF-8 keys and values yields a mapping with the same value for every
key. -/
theorem Readback.parseObject_Marshal (m : Entries) (hne : 0 < (Entries.keys m).length)
    (hvalid : ∀ k v, Entries.get? m k = some v →
      Utf8.ValidString k = true ∧ Utf8.ValidString v = true) :
    (Json.Marshal (some m)).2 = none ∧
    ∃ m2, Readback.parseObject (Json.Marshal (some m)).1 = some m2 ∧
      ∀ k, Entries.get? m2 k = Entries.get? m k := by
  have hs := Json.sorted_entries_spec m
  refine ⟨rfl, ?_⟩
  simp only [Json.Marshal]
  generalize hsv : (List.insertionSort (· ≤ ·) (Entries.keys m)).filterMap
      (fun k => (Entries.get? m k).map (fun v => (k, v))) = sv at hs
  match sv, hs with
  | [], hs =>
    have := hs.2.2
    simp only [List.length_nil] at this
    omega
  | (k, v) :: kvs, hs =>
    refine ⟨_, Readback.parseObject_encodeMembers k v kvs ?_, ?_⟩
    · intro kv hkv
      exact hvalid kv.1 kv.2 ((hs.2.1 kv.1 kv.2).mp hkv)
    · intro key
      cases hg : Entries.get? m key with
      | some val =>
        exact Entries.get?_foldl_set_of_mem _ _ _ _ hs.1 ((hs.2.1 key val).mpr hg)
      | none =>
        rw [Entries.get?_foldl_set_of_not_mem]
        · rfl
        · intro hmem
          obtain ⟨⟨k1, v1⟩, h1, h2⟩ := List.mem_map.mp hmem
          simp only at h2
          subst h2
          rw [(hs.2.1 _ _).mp h1] at hg
          exact Option.noConfusion hg

/-- C3, the claim as stated fails: for the params `{"k": "\xff"}`, whose value
is not valid UTF-8, `parse` for POST with the JSON content type writes the
body `{"k":"\ufffd"}`, which parses back to U+FFFD (the bytes EF BF BD) for
`k`, not to the byte FF of the params. -/
theorem json_invalid_utf8_not_roundtrip :
    ({ NewClient (str "http://x.test/api") with
        params := some [(str "k", [0xFF])], method := Post } : Client).parse
      = (str "http://x.test/api", some (str "\x7b\"k\":\"\\ufffd\"\x7d"), none) ∧
    Readback.parseObject (str "\x7b\"k\":\"\\ufffd\"\x7d")
      = some [(str "k", [0xEF, 0xBF, 0xBD])] ∧
    Entries.get? [(str "k", [0xEF, 0xBF, 0xBD])] (str "k")
      ≠ GoMap.get? (some [(str "k", [0xFF])]) (str "k") := by
  refine ⟨by decide, by decide, by decide⟩

/-- C3, amended: for a configuration with at least one param, all keys and
values of the params valid UTF-8, content type JSON and method POST, PUT or
PATCH, `parse` succeeds with the url unchanged and a body that parses back as
a JSON object to a mapping equal to the params: the same keys, each with its
original value. -/
theorem parse_json_body_roundtrip (c : Client)
    (hm : c.method = Post ∨ c.method = Put ∨ c.method = Patch)
    (hct : c.contentType = JsonType) (hp : 0 < GoMap.len c.params)
    (hvalid : ∀ k v, GoMap.get? c.params k = some v →
      Utf8.ValidString k = true ∧ Utf8.ValidString v = true) :
    ∃ body m, c.parse = (c.url, some body, none) ∧
      Readback.parseObject body = some m ∧
      ∀ k, Entries.get? m k = GoMap.get? c.params k := by
  have h1 : ¬ (c.method = Get ∨ c.method = Delete) := by
    rcases hm with h | h | h <;> rw [h] <;> decide
  have h2 : ¬ GoMap.len c.params ≤ 0 := by omega
  cases hpar : c.params with
  | none => rw [hpar] at hp; simp [GoMap.len] at hp
  | some m =>
    rw [hpar] at hp hvalid
    obtain ⟨he, m2, hm2, hget⟩ := Readback.parseObject_Marshal m hp hvalid
    refine ⟨(Json.Marshal (some m)).1, m2, ?_, hm2, hget⟩
    have h3 : ¬ GoMap.len (some m) ≤ 0 := by omega
    simp only [Client.parse, h1, hm, if_false, if_true, Client.parseData, h3, hct, hpar]
    rfl

theorem parse_json_body_roundtrip_witness :
    (0 < GoMap.len ({ NewClient (str "http://x.test/api") with
        params := some [(str "na<me", str "g\n\"" ++ [0xC3, 0xB6, 0xE2, 0x80, 0xA8])],
        method := Patch } : Client).params ∧
      Utf8.ValidString (str "na<me") = true ∧
      Utf8.ValidString (str "g\n\"" ++ [0xC3, 0xB6, 0xE2, 0x80, 0xA8]) = true) ∧
    ({ NewClient (str "http://x.test/api") with
        params := some [(str "na<me", str "g\n\"" ++ [0xC3, 0xB6, 0xE2, 0x80, 0xA8])],
        method := Patch } : Client).parse
      = (str "http://x.test/api",
          some (str "\x7b\"na\\u003cme\":\"g\\n\\\"" ++ [0xC3, 0xB6] ++ str "\\u2028\"\x7d"),
          none) ∧
    ∃ body m, ({ NewClient (str "http://x.test/api") with
        params := some [(str "na<me", str "g\n\"" ++ [0xC3, 0xB6, 0xE2, 0x80, 0xA8])],
        method := Patch } : Client).parse = (str "http://x.test/api", some body, none) ∧
      Readback.parseObject body = some m ∧
      Entries.get? m (str "na<me") = some (str "g\n\"" ++ [0xC3, 0xB6, 0xE2, 0x80, 0xA8]) := by
  obtain ⟨body, m, h1, h2, h3⟩ := parse_json_body_roundtrip
    ({ NewClient (str "http://x.test/api") with
        params := some [(str "na<me", str "g\n\"" ++ [0xC3, 0xB6, 0xE2, 0x80, 0xA8])],
        method := Patch } : Client) (Or.inr (Or.inr rfl)) rfl (by decide)
    (by
      intro k v h
      simp only [GoMap.get?, Entries.get?] at h
      split at h
      · rename_i hk
        simp only [Option.some.injEq] at h
        subst hk h
        exact ⟨by decide, by decide⟩
      · exact Option.noConfusion h)
  exact ⟨⟨by decide, by decide, by decide⟩, by decide, body, m, h1, h2, h3 (str "na<me")⟩

/-! ## Dispatch after an encoding error -/

/-- C11: whenever `parse` returns an error, `do` builds no request and hands
nothing to the transport: it returns a nil response together with exactly the
error of `parse`, which it logged once; the outcome is the same for every
transport and every response normalizer, since neither is called. -/
theorem do_returns_parse_error {τ ρ : Type} (roundTrip : Request → Int → τ)
    (buildResponse : τ → Option ρ × Option GoError) (c : Client)
    (reqUrl : GoString) (reader : Option GoString) (err : GoError)
    (h : c.parse = (reqUrl, reader, some err)) :
    (c.do roundTrip buildResponse).sent = none ∧
    (c.do roundTrip buildResponse).response = none ∧
    (c.do roundTrip buildResponse).err = some err ∧
    (c.do roundTrip buildResponse).logged = [err] ∧
    ∀ {τ2 : Type} (roundTrip2 : Request → Int → τ2)
      (buildResponse2 : τ2 → Option ρ × Option GoError),
      c.do roundTrip2 buildResponse2 = c.do roundTrip buildResponse := by
  have hdo : ∀ {τ2 : Type} (rt : Request → Int → τ2) (br : τ2 → Option ρ × Option GoError),
      c.do rt br = { logged := [err], sent := none, response := none, err := some err } := by
    intro τ2 rt br
    simp only [Client.do, h]
  refine ⟨by rw [hdo], by rw [hdo], by rw [hdo], by rw [hdo], ?_⟩
  intro τ2 rt2 br2
  rw [hdo, hdo]

theorem do_returns_parse_error_witness :
    (NewClient (str "http://x.test/api")).parse
      = (str "http://x.test/api", none, some (.errorString "unsupported method")) ∧
    ((NewClient (str "http://x.test/api")).do (fun _ _ => ())
        (fun _ => ((some 200 : Option Nat), none))).sent = none ∧
    ((NewClient (str "http://x.test/api")).do (fun _ _ => ())
        (fun _ => ((some 200 : Option Nat), none))).response = none ∧
    ((NewClient (str "http://x.test/api")).do (fun _ _ => ())
        (fun _ => ((some 200 : Option Nat), none))).err
      = some (.errorString "unsupported method") := by
  have h := do_returns_parse_error (fun _ _ => ()) (fun _ => ((some 200 : Option Nat), none))
    (NewClient (str "http://x.test/api")) (str "http://x.test/api") none
    (.errorString "unsupported method") (by decide)
  exact ⟨by decide, h.1, h.2.1, h.2.2.1⟩

/-! ## The body field -/

/-- C12: the body field never influences encoding: two configurations that
agree on url, method, params and content type get the same URL, the same body
payload and the same error from `parse`, whatever their body fields (and their
headers, cookies and timeouts); so `SetBody` never changes what `parse`
returns. -/
theorem parse_independent_of_body (c1 c2 : Client)
    (hu : c1.url = c2.url) (hm : c1.method = c2.method) (hp : c1.params = c2.params)
    (hc : c1.contentType = c2.contentType) :
    c1.parse = c2.parse ∧ ∀ b : GoString, (c1.SetBody b).parse = c1.parse := by
  constructor
  · simp only [Client.parse, Client.parseQuery, Client.parseData, hu, hm, hp, hc]
  · intro b
    simp only [Client.parse, Client.parseQuery, Client.parseData, Client.SetBody]

theorem parse_independent_of_body_witness :
    ((NewClient (str "http://x.test/api")).setMethodType Post).parse
      = (((NewClient (str "http://x.test/api")).SetBody (str "raw")).setMethodType Post).parse ∧
    (((NewClient (str "http://x.test/api")).SetBody (str "raw")).setMethodType Post).parse
      = (str "http://x.test/api", none, none) :=
  ⟨(parse_independent_of_body ((NewClient (str "http://x.test/api")).setMethodType Post)
      (((NewClient (str "http://x.test/api")).SetBody (str "raw")).setMethodType Post)
      rfl rfl rfl rfl).1, by decide⟩

/-! ## The mutators -/

/-- C14: each of `SetHeaders`, `AddHeader`, `AddParam`, `SetCookies`,
`SetTimeout` and `SetBody` returns the configuration with one field changed
(headers, headers, params, cookies, timeout and body) and every other field,
url, method and content type included, as it was; `AddHeader` and `AddParam`
return normally whenever the map they write is not nil. -/
theorem mutators_change_one_field (c : Client) :
    (∀ h : GoMap, (c.SetHeaders h).headers = h ∧
      (c.SetHeaders h).url = c.url ∧ (c.SetHeaders h).cookies = c.cookies ∧
      (c.SetHeaders h).timeout = c.timeout ∧ (c.SetHeaders h).params = c.params ∧
      (c.SetHeaders h).contentType = c.contentType ∧ (c.SetHeaders h).method = c.method ∧
      (c.SetHeaders h).body = c.body) ∧
    (∀ k v : GoString, c.headers ≠ none →
      ∃ c2, c.AddHeader k v = some c2 ∧ GoMap.set c.headers k v = some c2.headers ∧
        c2.url = c.url ∧ c2.cookies = c.cookies ∧ c2.timeout = c.timeout ∧
        c2.params = c.params ∧ c2.contentType = c.contentType ∧ c2.method = c.method ∧
        c2.body = c.body) ∧
    (∀ k v : GoString, c.params ≠ none →
      ∃ c2, c.AddParam k v = some c2 ∧ GoMap.set c.params k v = some c2.params ∧
        c2.url = c.url ∧ c2.headers = c.headers ∧ c2.cookies = c.cookies ∧
        c2.timeout = c.timeout ∧ c2.contentType = c.contentType ∧ c2.method = c.method ∧
        c2.body = c.body) ∧
    (∀ cs : List Cookie, (c.SetCookies cs).cookies = cs ∧
      (c.SetCookies cs).url = c.url ∧ (c.SetCookies cs).headers = c.headers ∧
      (c.SetCookies cs).timeout = c.timeout ∧ (c.SetCookies cs).params = c.params ∧
      (c.SetCookies cs).contentType = c.contentType ∧ (c.SetCookies cs).method = c.method ∧
      (c.SetCookies cs).body = c.body) ∧
    (∀ t : Int, (c.SetTimeout t).timeout = t ∧
      (c.SetTimeout t).url = c.url ∧ (c.SetTimeout t).headers = c.headers ∧
      (c.SetTimeout t).cookies = c.cookies ∧ (c.SetTimeout t).params = c.params ∧
      (c.SetTimeout t).contentType = c.contentType ∧ (c.SetTimeout t).method = c.method ∧
      (c.SetTimeout t).body = c.body) ∧
    (∀ b : GoString, (c.SetBody b).body = b ∧
      (c.SetBody b).url = c.url ∧ (c.SetBody b).headers = c.headers ∧
      (c.SetBody b).cookies = c.cookies ∧ (c.SetBody b).timeout = c.timeout ∧
      (c.SetBody b).params = c.params ∧ (c.SetBody b).contentType = c.contentType ∧
      (c.SetBody b).method = c.method) := by
  refine ⟨fun h => ⟨rfl, rfl, rfl, rfl, rfl, rfl, rfl, rfl⟩, ?_, ?_,
    fun cs => ⟨rfl, rfl, rfl, rfl, rfl, rfl, rfl, rfl⟩,
    fun t => ⟨rfl, rfl, rfl, rfl, rfl, rfl, rfl, rfl⟩,
    fun b => ⟨rfl, rfl, rfl, rfl, rfl, rfl, rfl, rfl⟩⟩
  · intro k v hnil
    obtain ⟨m, hm⟩ := Option.ne_none_iff_exists'.mp hnil
    refine ⟨{ c with headers := some (Entries.set m k v) }, ?_, ?_, rfl, rfl, rfl, rfl, rfl,
      rfl, rfl⟩
    · simp [Client.AddHeader, hm, GoMap.set]
    · simp [hm, GoMap.set]
  · intro k v hnil
    obtain ⟨m, hm⟩ := Option.ne_none_iff_exists'.mp hnil
    refine ⟨{ c with params := some (Entries.set m k v) }, ?_, ?_, rfl, rfl, rfl, rfl, rfl,
      rfl, rfl⟩
    · simp [Client.AddParam, hm, GoMap.set]
    · simp [hm, GoMap.set]

/-- C15: `SetHeaders(h)` overwrites the whole headers mapping: afterwards the
headers are `h`, whatever `SetContentType` or `AddHeader` wrote before, and
the content type keeps its value; after `SetContentType(FORM)`,
`SetHeaders({})` and `AddParam("name", "go")`, `Post` sends the form body
`name=go` with content type FORM stored and no header attached at all. -/
theorem setHeaders_overwrites {τ ρ : Type} (roundTrip : Request → Int → τ)
    (buildResponse : τ → Option ρ × Option GoError) (c : Client) (h : GoMap) :
    (c.SetHeaders h).headers = h ∧
    (∀ k, GoMap.get? (c.SetHeaders h).headers k = GoMap.get? h k) ∧
    (c.SetHeaders h).contentType = c.contentType ∧
    (∀ c2 t, c.SetContentType t = some c2 →
      (c2.SetHeaders h).headers = h ∧ (c2.SetHeaders h).contentType = t) ∧
    ∃ c3, (((NewClient (str "http://x.test/api")).SetContentType FormType).map
        (fun c1 => c1.SetHeaders (some []))).bind (fun c2 => c2.AddParam (str "name") (str "go"))
        = some c3 ∧
      c3.contentType = FormType ∧ c3.headers = some [] ∧
      GoMap.get? c3.headers (str "Content-Type") = none ∧
      (c3.Post roundTrip buildResponse).sent.map
          (fun r => (r.Method, r.URL.String, r.Body, r.Header))
        = some (str "POST", str "http://x.test/api", some (str "name=go"), []) := by
  refine ⟨rfl, fun _ => rfl, rfl, ?_, ?_⟩
  · intro c2 t ht
    refine ⟨rfl, ?_⟩
    unfold Client.SetContentType at ht
    split at ht
    · split at ht
      · exact Option.noConfusion ht
      · simp only [Option.some.injEq] at ht
        subst ht
        rfl
    · split at ht
      · split at ht
        · exact Option.noConfusion ht
        · simp only [Option.some.injEq] at ht
          subst ht
          rfl
      · simp only [Option.some.injEq] at ht
        subst ht
        rfl
  · refine ⟨_, rfl, rfl, rfl, rfl, ?_⟩
    rw [Client.Post, Client.do_sent roundTrip buildResponse _ (str "http://x.test/api")
      (some (str "name=go")) (by decide)]
    rfl

/-! ## Encoding for the body-bearing methods -/

theorem Json.Marshal_no_error (p : GoMap) : (Json.Marshal p).2 = none := by
  cases p <;> rfl

/-- What `parseData` returns, branch by branch. -/
theorem Client.parseData_cases (c : Client) :
    (GoMap.len c.params = 0 ∧ c.parseData = (c.url, none, none)) ∨
    (0 < GoMap.len c.params ∧ c.contentType = JsonType ∧
      c.parseData = (c.url, some (Json.Marshal c.params).1, none)) ∨
    (0 < GoMap.len c.params ∧ c.contentType = FormType ∧
      c.parseData = (c.url, some (Url.Values.Encode
        ((GoMap.range c.params).foldl (fun q kv => Url.Values.Add q kv.1 kv.2) [])), none)) ∨
    (0 < GoMap.len c.params ∧ c.contentType ≠ JsonType ∧ c.contentType ≠ FormType ∧
      c.parseData = (c.url, none, some (.errorString "unsupported Content-Type"))) := by
  by_cases h0 : GoMap.len c.params = 0
  · left
    exact ⟨h0, by simp [Client.parseData, h0]⟩
  · have hpos : 0 < GoMap.len c.params := Nat.pos_of_ne_zero h0
    have hle : ¬ GoMap.len c.params ≤ 0 := by omega
    right
    by_cases hj : c.contentType = JsonType
    · left
      refine ⟨hpos, hj, ?_⟩
      have he := Json.Marshal_no_error c.params
      simp only [Client.parseData, hle, if_false, hj, if_true]
      generalize Json.Marshal c.params = r at he
      obtain ⟨b, e⟩ := r
      simp only at he
      subst he
      rfl
    · right
      have hfj : FormType ≠ JsonType := by decide
      by_cases hf : c.contentType = FormType
      · left
        refine ⟨hpos, hf, ?_⟩
        simp only [Client.parseData, hle, if_false, hf, hfj, if_true]
      · right
        refine ⟨hpos, hj, hf, ?_⟩
        simp only [Client.parseData, hle, if_false, hj, hf]

/-- C16: for a configuration with method POST, PUT or PATCH, `parse` returns
the url field itself as the effective URL in every branch, so the params never
appear in the URL and the url is never parsed; it fails if and only if the
params are non-empty and the content type is neither JSON nor FORM, and then
with the error "unsupported Content-Type"; it produces a body payload if and
only if the params are non-empty and the content type is JSON or FORM. -/
theorem parse_body_method_characterisation (c : Client)
    (hm : c.method = Post ∨ c.method = Put ∨ c.method = Patch) :
    c.parse.1 = c.url ∧
    (c.parse.2.2 ≠ none ↔
      (0 < GoMap.len c.params ∧ c.contentType ≠ JsonType ∧ c.contentType ≠ FormType)) ∧
    (c.parse.2.2 ≠ none → c.parse.2.2 = some (.errorString "unsupported Content-Type")) ∧
    (c.parse.2.1 ≠ none ↔
      (0 < GoMap.len c.params ∧ (c.contentType = JsonType ∨ c.contentType = FormType))) := by
  have h1 : ¬ (c.method = Get ∨ c.method = Delete) := by
    rcases hm with h | h | h <;> rw [h] <;> decide
  have hp : c.parse = c.parseData := by simp [Client.parse, h1, hm]
  have hjf : JsonType ≠ FormType := by decide
  rw [hp]
  rcases Client.parseData_cases c with ⟨h0, h⟩ | ⟨h0, hj, h⟩ | ⟨h0, hf, h⟩ | ⟨h0, hj, hf, h⟩
  · rw [h]
    refine ⟨rfl, ?_, ?_, ?_⟩
    · constructor
      · intro hx; exact absurd rfl hx
      · intro hx; omega
    · intro hx; exact absurd rfl hx
    · constructor
      · intro hx; exact absurd rfl hx
      · intro hx; omega
  · rw [h]
    refine ⟨rfl, ?_, ?_, ?_⟩
    · constructor
      · intro hx; exact absurd rfl hx
      · intro hx; exact absurd hj hx.2.1
    · intro hx; exact absurd rfl hx
    · constructor
      · intro _; exact ⟨h0, Or.inl hj⟩
      · intro _ hx; exact Option.noConfusion hx
  · rw [h]
    refine ⟨rfl, ?_, ?_, ?_⟩
    · constructor
      · intro hx; exact absurd rfl hx
      · intro hx; exact absurd hf hx.2.2
    · intro hx; exact absurd rfl hx
    · constructor
      · intro _; exact ⟨h0, Or.inr hf⟩
      · intro _ hx; exact Option.noConfusion hx
  · rw [h]
    refine ⟨rfl, ?_, ?_, ?_⟩
    · constructor
      · intro _; exact ⟨h0, hj, hf⟩
      · intro _ hx; exact Option.noConfusion hx
    · intro _; rfl
    · constructor
      · intro hx; exact absurd rfl hx
      · intro hx
        rcases hx.2 with hx | hx
        · exact absurd hx hj
        · exact absurd hx hf

theorem parse_body_method_characterisation_witness :
    Url.Parse (str "http://x y/")
      = .error ⟨"parse", str "http://x y/", .invalidHost (str " ")⟩ ∧
    ({ NewClient (str "http://x y/") with
        params := some [(str "name", str "go")], method := Put } : Client).parse
      = (str "http://x y/", some (str "\x7b\"name\":\"go\"\x7d"), none) ∧
    ({ NewClient (str "http://x y/") with
        params := some [(str "name", str "go")], method := Put } : Client).parse.1
      = str "http://x y/" ∧
    (({ NewClient (str "http://x y/") with
        params := some [(str "name", str "go")], method := Put } : Client).parse.2.1 ≠ none ↔
      (0 < GoMap.len (some [(str "name", str "go")]) ∧
        (JsonType = JsonType ∨ JsonType = FormType))) := by
  have h := parse_body_method_characterisation
    ({ NewClient (str "http://x y/") with
        params := some [(str "name", str "go")], method := Put } : Client) (Or.inr (Or.inl rfl))
  exact ⟨by decide, by decide, h.1, h.2.2.2⟩

/-! ## `AddParam` -/

theorem filter_key_of_nodup (L : List (GoString × GoString)) (k v : GoString)
    (hnd : (L.map Prod.fst).Nodup) (h : (k, v) ∈ L) :
    L.filter (fun kv => kv.1 = k) = [(k, v)] := by
  induction L with
  | nil => simp at h
  | cons p L ih =>
    simp only [List.map_cons, List.nodup_cons] at hnd
    rcases List.mem_cons.mp h with h | h
    · subst h
      have : L.filter (fun kv => decide (kv.1 = k)) = [] := by
        rw [List.filter_eq_nil_iff]
        intro a ha hk
        simp only [decide_eq_true_eq] at hk
        exact hnd.1 (hk ▸ List.mem_map.mpr ⟨a, ha, rfl⟩)
      simp [List.filter_cons, this]
    · have hne : p.1 ≠ k := by
        intro e
        exact hnd.1 (e ▸ List.mem_map.mpr ⟨(k, v), h, rfl⟩)
      simp [List.filter_cons, hne, ih hnd.2 h]

theorem Entries.set_keys_nodup (m : Entries) (k v : GoString) (h : (m.map Prod.fst).Nodup) :
    ((Entries.set m k v).map Prod.fst).Nodup := by
  have hkeys : (Entries.set m k v).map Prod.fst
      = if k ∈ m.map Prod.fst then m.map Prod.fst else m.map Prod.fst ++ [k] := by
    clear h
    induction m with
    | nil => simp [Entries.set]
    | cons e m ih =>
      obtain ⟨k1, v1⟩ := e
      by_cases hk : k1 = k
      · simp [Entries.set, hk]
      · have hk2 : ¬ k = k1 := fun e => hk e.symm
        simp only [Entries.set, hk, if_false, List.map_cons, ih, List.mem_cons, hk2, false_or]
        split <;> simp
  rw [hkeys]
  split
  · exact h
  · rename_i hnot
    rw [List.nodup_append]
    refine ⟨h, by simp, ?_⟩
    intro a ha hb
    simp only [List.mem_singleton] at hb
    exact hnot (hb ▸ ha)

/-- Reading one member `"key":"value"` that `json.Marshal` wrote into the list
of members. -/
theorem Readback.readMemberList_member (k v tail : GoString)
    (acc : List (GoString × GoString)) (fuel : Nat)
    (hk : Utf8.ValidString k = true) (hv : Utf8.ValidString v = true) :
    Readback.readMemberList (fuel + 1)
        (Json.appendString k ++ [ch ':'] ++ Json.appendString v ++ tail) acc =
      match Readback.expect (ch ',') tail, Readback.expect (ch '}') tail with
      | some s6, _ => Readback.readMemberList fuel s6 (acc ++ [(k, v)])
      | none, some s6 => some (acc ++ [(k, v)], s6)
      | none, none => none := by
  have e1 : Json.appendString k ++ [ch ':'] ++ Json.appendString v ++ tail
      = 34 :: (Json.appendStringLoop k ++ 34 ::
          (ch ':' :: 34 :: (Json.appendStringLoop v ++ 34 :: tail))) := by
    simp [Json.appendString]
  rw [e1, Readback.readMemberList]
  rw [Readback.expect_head 34 _ (by decide)]
  simp only []
  rw [Readback.readString_appendStringLoop k.length k (Nat.le_refl _) hk]
  simp only []
  rw [Readback.expect_head (ch ':') _ (by decide)]
  simp only []
  rw [Readback.expect_head 34 _ (by decide)]
  simp only []
  rw [Readback.readString_appendStringLoop v.length v (Nat.le_refl _) hv]
  try rfl

/-- Reading the members that `json.Marshal` wrote, up to the closing brace,
into the list of members. -/
theorem Readback.readMemberList_encodeMembers (kvs : List (GoString × GoString)) :
    ∀ (k v : GoString) (acc : List (GoString × GoString)) (fuel i : Nat) (tail : GoString),
      kvs.length ≤ fuel →
      Utf8.ValidString k = true → Utf8.ValidString v = true →
      (∀ kv ∈ kvs, Utf8.ValidString kv.1 = true ∧ Utf8.ValidString kv.2 = true) →
      Readback.readMemberList (fuel + 1)
          (Json.appendString k ++ [ch ':'] ++ Json.appendString v ++
            (Json.encodeMembers kvs (i + 1) ++ ch '}' :: tail)) acc
        = some (acc ++ (k, v) :: kvs, tail) := by
  induction kvs with
  | nil =>
    intro k v acc fuel i tail _ hk hv _
    rw [Readback.readMemberList_member k v _ acc fuel hk hv]
    simp only [Json.encodeMembers, List.nil_append]
    rw [Readback.expect_other (ch ',') (ch '}') tail (by decide) (by decide),
      Readback.expect_head (ch '}') tail (by decide)]
  | cons kv kvs ih =>
    intro k v acc fuel i tail hf hk hv hall
    obtain ⟨k2, v2⟩ := kv
    rw [Readback.readMemberList_member k v _ acc fuel hk hv]
    have hi : i + 1 > 0 := Nat.succ_pos i
    rw [Readback.encodeMembers_cons]
    simp only [hi, if_true, List.append_assoc, List.singleton_append, List.cons_append,
      List.nil_append]
    rw [Readback.expect_head (ch ',') _ (by decide)]
    simp only []
    obtain ⟨f, rfl⟩ : ∃ f, fuel = f + 1 := by
      simp only [List.length_cons] at hf
      exact ⟨fuel - 1, by omega⟩
    have h2 := hall (k2, v2) (List.mem_cons_self _ _)
    have := ih k2 v2 (acc ++ [(k, v)]) f (i + 1) tail
      (by simp only [List.length_cons] at hf; omega) h2.1 h2.2
      (fun x hx => hall x (List.mem_cons_of_mem _ hx))
    simp only [List.append_assoc, List.singleton_append, List.cons_append,
      List.nil_append] at this
    rw [this]

/-- The members read back from the object that `json.Marshal` wrote for
entries of valid UTF-8 text: the entries, in their order. -/
theorem Readback.parseMembers_encodeMembers (k v : GoString)
    (kvs : List (GoString × GoString))
    (hall : ∀ kv ∈ (k, v) :: kvs, Utf8.ValidString kv.1 = true ∧ Utf8.ValidString kv.2 = true) :
    Readback.parseMembers (ch '{' :: Json.encodeMembers ((k, v) :: kvs) 0 ++ [ch '}'])
      = some ((k, v) :: kvs) := by
  unfold Readback.parseMembers
  simp only [List.cons_append]
  rw [Readback.expect_head (ch '{') _ (by decide)]
  simp only []
  have hk := hall (k, v) (List.mem_cons_self _ _)
  have e1 : Json.encodeMembers ((k, v) :: kvs) 0 ++ [ch '}']
      = Json.appendString k ++ [ch ':'] ++ Json.appendString v ++
          (Json.encodeMembers kvs (0 + 1) ++ ch '}' :: []) := by
    rw [Readback.encodeMembers_cons]
    simp
  have e2 : Readback.expect (ch '}') (Json.encodeMembers ((k, v) :: kvs) 0 ++ [ch '}'])
      = none := by
    rw [e1]
    simp only [Json.appendString, List.cons_append]
    exact Readback.expect_other _ _ _ (by decide) (by decide)
  rw [e2]
  simp only []
  have hlen : ∃ f, (Json.encodeMembers ((k, v) :: kvs) 0 ++ [ch '}']).length = f + 1 ∧
      kvs.length ≤ f := by
    refine ⟨(Json.encodeMembers ((k, v) :: kvs) 0).length, by simp, ?_⟩
    have := Readback.encodeMembers_length ((k, v) :: kvs) 0
    simp only [List.length_cons] at this
    omega
  obtain ⟨f, hf1, hf2⟩ := hlen
  rw [hf1, e1, Readback.readMemberList_encodeMembers kvs k v [] f 0 [] hf2 hk.1 hk.2
    (fun x hx => hall x (List.mem_cons_of_mem _ hx))]
  simp [Readback.skipSpace]

/-- The members read back from the text that `json.Marshal` writes for a
non-empty map of valid UTF-8 keys and values: one member for each key of the
map, with its value, no key twice. -/
theorem Readback.parseMembers_Marshal (m : Entries) (hne : 0 < (Entries.keys m).length)
    (hvalid : ∀ k v, Entries.get? m k = some v →
      Utf8.ValidString k = true ∧ Utf8.ValidString v = true) :
    ∃ members, Readback.parseMembers (Json.Marshal (some m)).1 = some members ∧
      (members.map Prod.fst).Nodup ∧
      ∀ k v, (k, v) ∈ members ↔ Entries.get? m k = some v := by
  have hs := Json.sorted_entries_spec m
  simp only [Json.Marshal]
  generalize hsv : (List.insertionSort (· ≤ ·) (Entries.keys m)).filterMap
      (fun k => (Entries.get? m k).map (fun v => (k, v))) = sv at hs
  match sv, hs with
  | [], hs =>
    have := hs.2.2
    simp only [List.length_nil] at this
    omega
  | (k, v) :: kvs, hs =>
    refine ⟨_, Readback.parseMembers_encodeMembers k v kvs ?_, hs.1, hs.2.1⟩
    intro kv hkv
    exact hvalid kv.1 kv.2 ((hs.2.1 kv.1 kv.2).mp hkv)

/-! ## The query of the effective URL -/

theorem paramsValues_single (p : GoMap) :
    ∀ k ∈ Url.Values.keys
      ((GoMap.range p).foldl (fun q kv => Url.Values.Add q kv.1 kv.2) []),
      ∃ v, Url.Values.lookup
        ((GoMap.range p).foldl (fun q kv => Url.Values.Add q kv.1 kv.2) []) k = [v] := by
  intro k hk
  rw [paramsValues_keys] at hk
  obtain ⟨v, hv⟩ := (GoMap.mem_range_keys _ _).mp hk
  exact ⟨v, by rw [paramsValues_lookup, hv]⟩

/-- What `parseQuery` returns for a url that `url.Parse` accepts, and the query
component of the URL it returns: the text of `Values.Encode` for the params. -/
theorem Client.parseQuery_of_Parse (c : Client) (u : Url.URL) (hp : Url.Parse c.url = .ok u) :
    c.parseQuery = (Url.URL.String { u with
        RawQuery := Url.Values.Encode
          ((GoMap.range c.params).foldl (fun q kv => Url.Values.Add q kv.1 kv.2) []) }, none) ∧
    Readback.queryComponent c.parseQuery.1 = Url.Values.Encode
        ((GoMap.range c.params).foldl (fun q kv => Url.Values.Add q kv.1 kv.2) []) ∧
    ch '?' ∉ u.stringHead ∧ ch '#' ∉ u.stringHead := by
  have hpq : c.parseQuery = (Url.URL.String { u with
        RawQuery := Url.Values.Encode
          ((GoMap.range c.params).foldl (fun q kv => Url.Values.Add q kv.1 kv.2) []) }, none) := by
    simp only [Client.parseQuery, hp]
  have hso := Url.Parse_scheme_opaque _ _ hp
  have hq := Url.stringHead_no_query_mark u _ (Or.inl rfl) hso.1 hso.2.2.1
  have hh := Url.stringHead_no_query_mark u _ (Or.inr rfl) hso.2.1 hso.2.2.2
  refine ⟨hpq, ?_, hq, hh⟩
  rw [hpq]
  exact Readback.queryComponent_String u _ hq hh (Url.Encode_no_hash _ (paramsValues_single _))

theorem paramsValues_empty (p : GoMap) (h0 : GoMap.len p = 0) :
    Url.Values.Encode ((GoMap.range p).foldl (fun q kv => Url.Values.Add q kv.1 kv.2) []) = [] := by
  have hr := (GoMap.range_spec p).2.2
  rw [h0, List.length_map] at hr
  rw [List.length_eq_zero.mp hr]
  rfl

/-- The part before the fragment of the text `URL.String` writes for a URL
with an empty `RawQuery`: what stands before the query, and a `?` when
`ForceQuery` is set. -/
theorem Url.String_empty_query (u : Url.URL) (hh : ch '#' ∉ u.stringHead) :
    (cut (ch '#') (Url.URL.String { u with RawQuery := [] })).1
      = if u.ForceQuery = true then u.stringHead ++ [ch '?'] else u.stringHead := by
  have hhead : Url.URL.stringHead { u with RawQuery := ([] : GoString) } = u.stringHead := rfl
  have hfq : ({ u with RawQuery := ([] : GoString) } : Url.URL).ForceQuery = u.ForceQuery := rfl
  have hfr : ({ u with RawQuery := ([] : GoString) } : Url.URL).Fragment = u.Fragment := rfl
  have hrq : ({ u with RawQuery := ([] : GoString) } : Url.URL).RawQuery = [] := rfl
  unfold Url.URL.String
  rw [hhead, hfq, hfr, hrq]
  generalize Url.URL.EscapedFragment { u with RawQuery := ([] : GoString) } = F
  have hno : ch '#' ∉ u.stringHead ++ [ch '?'] := by
    simp only [List.mem_append, List.mem_singleton, not_or]
    exact ⟨hh, by decide⟩
  cases hf : u.ForceQuery
  · simp only [Bool.false_eq_true, false_or, ne_eq, not_true_eq_false, if_false,
      List.append_nil]
    split
    · have := Url.cut_append_sep (ch '#') u.stringHead F hh
      simp only [List.append_assoc, List.singleton_append, List.cons_append,
        List.nil_append] at this ⊢
      rw [this]
    · rw [Url.cut_of_not_mem _ _ hh]
  · simp only [true_or, if_true, List.append_nil]
    split
    · have := Url.cut_append_sep (ch '#') (u.stringHead ++ [ch '?']) F hno
      simp only [List.append_assoc, List.singleton_append, List.cons_append,
        List.nil_append] at this ⊢
      rw [this]
    · rw [Url.cut_of_not_mem _ _ hno]

/-- C17, the claim as stated fails: for the url `http://x.test/api?`, which has
an empty query, and empty params, the effective URL of GET is the url itself:
it still carries the `?`. -/
theorem empty_params_keeps_empty_query :
    ((NewClient (str "http://x.test/api?")).setMethodType Get).parse
      = (str "http://x.test/api?", none, none) ∧
    GoMap.len ((NewClient (str "http://x.test/api?")).setMethodType Get).params = 0 ∧
    ch '?' ∈ ((NewClient (str "http://x.test/api?")).setMethodType Get).parse.1 ∧
    ¬ (((NewClient (str "http://x.test/api?")).setMethodType Get).parse.1
      ≠ ((NewClient (str "http://x.test/api?")).setMethodType Get).url) := by
  refine ⟨by decide, by decide, by decide, by decide⟩

/-- C17, amended: for GET and DELETE with a url that `url.Parse` accepts, the
query component of the effective URL is exactly the text `Values.Encode`
writes for the params: a query already in the url is replaced, not appended
to (`http://x.test/api?a=1` with params `{b: 2}` gives
`http://x.test/api?b=2`).  With empty params the query component is empty and
the effective URL differs from the url whenever the url had a non-empty query;
the part before the fragment then holds no `?`, unless `url.Parse` found the
url to end in an empty query (`ForceQuery`), whose `?` is kept. -/
theorem parseQuery_replaces_query (c : Client) (u : Url.URL)
    (hm : c.method = Get ∨ c.method = Delete) (hp : Url.Parse c.url = .ok u) :
    c.parse = (c.parseQuery.1, none, none) ∧
    Readback.queryComponent c.parse.1 = Url.Values.Encode
      ((GoMap.range c.params).foldl (fun q kv => Url.Values.Add q kv.1 kv.2) []) ∧
    (GoMap.len c.params = 0 →
      Readback.queryComponent c.parse.1 = [] ∧
      (u.ForceQuery = false → ch '?' ∉ (cut (ch '#') c.parse.1).1) ∧
      (u.ForceQuery = true → ch '?' ∈ (cut (ch '#') c.parse.1).1) ∧
      (Readback.queryComponent c.url ≠ [] → c.parse.1 ≠ c.url)) ∧
    ({ NewClient (str "http://x.test/api?a=1") with
        params := some [(str "b", str "2")], method := c.method } : Client).parse
      = (str "http://x.test/api?b=2", none, none) := by
  obtain ⟨hpq, hqc, hq, hh⟩ := Client.parseQuery_of_Parse c u hp
  have hparse : c.parse = (c.parseQuery.1, none, none) := by
    simp [Client.parse, hm, hpq]
  have h1 : c.parse.1 = c.parseQuery.1 := by rw [hparse]
  refine ⟨hparse, by rw [h1]; exact hqc, ?_, ?_⟩
  · intro h0
    have hE := paramsValues_empty c.params h0
    have hqe : Readback.queryComponent c.parse.1 = [] := by rw [h1, hqc, hE]
    have hcut := Url.String_empty_query u hh
    refine ⟨hqe, ?_, ?_, ?_⟩
    · intro hf
      rw [h1, hpq, hE, hcut]
      simp only [hf, Bool.false_eq_true, if_false]
      exact hq
    · intro hf
      rw [h1, hpq, hE, hcut]
      simp only [hf, if_true]
      simp
    · intro hne heq
      rw [heq] at hqe
      exact hne hqe
  · rcases hm with h | h <;> rw [h] <;> decide

theorem parseQuery_replaces_query_witness :
    Url.Parse (str "http://x.test/api?a=1#top")
      = .ok { Scheme := str "http", Host := str "x.test", Path := str "/api",
              RawQuery := str "a=1", Fragment := str "top" } ∧
    ({ NewClient (str "http://x.test/api?a=1#top") with method := Delete } : Client).parse
      = (str "http://x.test/api#top", none, none) ∧
    Readback.queryComponent
      ({ NewClient (str "http://x.test/api?a=1#top") with method := Delete } : Client).parse.1
      = [] ∧
    ({ NewClient (str "http://x.test/api?a=1#top") with method := Delete } : Client).parse.1
      ≠ str "http://x.test/api?a=1#top" := by
  have h := parseQuery_replaces_query
    ({ NewClient (str "http://x.test/api?a=1#top") with method := Delete } : Client)
    { Scheme := str "http", Host := str "x.test", Path := str "/api",
      RawQuery := str "a=1", Fragment := str "top" } (Or.inr rfl) (by decide)
  exact ⟨by decide, by decide, (h.2.2.1 (by decide)).1,
    (h.2.2.1 (by decide)).2.2.2 (by decide)⟩

/-! ## Order independence of the encodings -/

/-- Two duplicate-free key lists with the same members sort to the same list. -/
theorem sorted_keys_congr (l1 l2 : List GoString) (h1 : l1.Nodup) (h2 : l2.Nodup)
    (h : ∀ k, k ∈ l1 ↔ k ∈ l2) :
    List.insertionSort (· ≤ ·) l1 = List.insertionSort (· ≤ ·) l2 ∧ l1.length = l2.length := by
  have hperm : l1.Perm l2 := (List.perm_ext_iff_of_nodup h1 h2).mpr h
  refine ⟨List.eq_of_perm_of_sorted ?_ (List.sorted_insertionSort _ l1)
    (List.sorted_insertionSort _ l2), hperm.length_eq⟩
  exact ((List.perm_insertionSort _ l1).trans hperm).trans (List.perm_insertionSort _ l2).symm

theorem sorted_keys_ascending (l : List GoString) (h : l.Nodup) :
    (List.insertionSort (· ≤ ·) l).Sorted (· < ·) :=
  (List.sorted_insertionSort _ l).lt_of_le ((List.perm_insertionSort _ l).nodup_iff.mpr h)

/-- `Values.Encode` reads the map through its sorted keys and its values
only. -/
theorem Url.Values.Encode_congr (V1 V2 : Url.Values)
    (hk : List.insertionSort (· ≤ ·) V1.keys = List.insertionSort (· ≤ ·) V2.keys)
    (hlen : V1.keys.length = V2.keys.length)
    (hl : ∀ k, V1.lookup k = V2.lookup k) : Url.Values.Encode V1 = Url.Values.Encode V2 := by
  have hf : V1.lookup = V2.lookup := funext hl
  simp only [Url.Values.Encode, hk, hlen, hf]

/-- Params with the same value for every key have the same form encoding and
the same length. -/
theorem paramsValues_congr (p1 p2 : GoMap) (h : ∀ k, GoMap.get? p1 k = GoMap.get? p2 k) :
    Url.Values.Encode ((GoMap.range p1).foldl (fun q kv => Url.Values.Add q kv.1 kv.2) [])
      = Url.Values.Encode ((GoMap.range p2).foldl (fun q kv => Url.Values.Add q kv.1 kv.2) []) ∧
    GoMap.len p1 = GoMap.len p2 := by
  have hs := sorted_keys_congr ((GoMap.range p1).map Prod.fst) ((GoMap.range p2).map Prod.fst)
    (GoMap.range_spec p1).1 (GoMap.range_spec p2).1
    (by intro k; rw [GoMap.mem_range_keys, GoMap.mem_range_keys, h])
  refine ⟨Url.Values.Encode_congr _ _ ?_ ?_ ?_, ?_⟩
  · rw [paramsValues_keys, paramsValues_keys]; exact hs.1
  · rw [paramsValues_keys, paramsValues_keys]; exact hs.2
  · intro k; rw [paramsValues_lookup, paramsValues_lookup, h]
  · rw [← (GoMap.range_spec p1).2.2, ← (GoMap.range_spec p2).2.2]; exact hs.2

theorem Entries.mem_keys (m : Entries) (k : GoString) :
    k ∈ Entries.keys m ↔ ∃ v, Entries.get? m k = some v := by
  constructor
  · intro hk
    exact Entries.get?_of_mem m k (List.mem_dedup.mp hk)
  · rintro ⟨v, hv⟩
    exact List.mem_dedup.mpr (Entries.get?_eq_some_mem m k v hv)

/-- Maps with the same value for every key, both nil or both not, marshal to
the same text. -/
theorem Json.Marshal_congr (p1 p2 : GoMap) (h : ∀ k, GoMap.get? p1 k = GoMap.get? p2 k)
    (hn : p1 = none ↔ p2 = none) : Json.Marshal p1 = Json.Marshal p2 := by
  cases p1 with
  | none => rw [hn.mp rfl]
  | some m1 =>
    cases p2 with
    | none => exact Option.noConfusion (hn.mpr rfl)
    | some m2 =>
      have hg : ∀ k, Entries.get? m1 k = Entries.get? m2 k := h
      have hs := sorted_keys_congr (Entries.keys m1) (Entries.keys m2) (List.nodup_dedup _)
        (List.nodup_dedup _) (by intro k; rw [Entries.mem_keys, Entries.mem_keys, hg])
      have hf : Entries.get? m1 = Entries.get? m2 := funext hg
      simp only [Json.Marshal, hs.1, hf]

theorem GoMap.ne_none_of_len_pos (p : GoMap) (h : GoMap.len p ≠ 0) : p ≠ none := by
  intro hp
  rw [hp] at h
  exact h rfl

/-- Configurations that agree on url, method and content type and whose params
have the same value for every key are encoded alike. -/
theorem Client.parse_congr (c1 c2 : Client) (hu : c1.url = c2.url)
    (hm : c1.method = c2.method) (hc : c1.contentType = c2.contentType)
    (hp : ∀ k, GoMap.get? c1.params k = GoMap.get? c2.params k) :
    c1.parseQuery = c2.parseQuery ∧ c1.parseData = c2.parseData ∧ c1.parse = c2.parse := by
  obtain ⟨hE, hlen⟩ := paramsValues_congr c1.params c2.params hp
  have hq : c1.parseQuery = c2.parseQuery := by
    simp only [Client.parseQuery, hu, hE]
  have hd : c1.parseData = c2.parseData := by
    by_cases h0 : GoMap.len c2.params = 0
    · simp only [Client.parseData, hlen, h0, hu, le_refl, if_true]
    · have hM : Json.Marshal c1.params = Json.Marshal c2.params :=
        Json.Marshal_congr _ _ hp
          ⟨fun h => absurd h (GoMap.ne_none_of_len_pos _ (by rw [hlen]; exact h0)),
           fun h => absurd h (GoMap.ne_none_of_len_pos _ h0)⟩
      simp only [Client.parseData, hlen, hu, hc, hE, hM]
  refine ⟨hq, hd, ?_⟩
  simp only [Client.parse, hm, hq, hd, hu]

/-- A chain of `AddParam` calls that returns leaves url, method and content
type alone and keeps a non-nil params map non-nil. -/
theorem Client.chain_addParam (l : List (GoString × GoString)) :
    ∀ c d : Client, c.chain (l.map (fun kv => Mutator.AddParam kv.1 kv.2)) = some d →
      d.url = c.url ∧ d.method = c.method ∧ d.contentType = c.contentType ∧
      (d.params = none ↔ c.params = none) := by
  induction l with
  | nil =>
    intro c d h
    simp only [List.map_nil, Client.chain, Option.some.injEq] at h
    subst h
    exact ⟨rfl, rfl, rfl, Iff.rfl⟩
  | cons kv l ih =>
    intro c d h
    simp only [List.map_cons, Client.chain, Client.call] at h
    cases hp : c.params with
    | none =>
      simp [Client.AddParam, GoMap.set, hp] at h
    | some m =>
      simp only [Client.AddParam, GoMap.set, hp] at h
      obtain ⟨h1, h2, h3, h4⟩ := ih _ d h
      refine ⟨h1, h2, h3, ?_⟩
      simp only at h4
      constructor
      · intro hd
        exact absurd (h4.mp hd) (by simp)
      · intro hd
        exact Option.noConfusion hd

/-- C18: encoding is a function of the params mapping, not of the order in
which the parameters were added: two chains of `AddParam` calls on one
configuration that leave the same value for every key give the same `parse`
result, whatever the method and the content type, the same GET/DELETE URL, the
same FORM body and the same JSON body, byte for byte; the keys of the query
string and of the FORM body, read back in the order they were written, and the
keys of the members of the JSON object are in strictly ascending order. -/
theorem encoding_independent_of_insertion_order (c : Client)
    (l1 l2 : List (GoString × GoString)) (d1 d2 : Client)
    (h1 : c.chain (l1.map (fun kv => Mutator.AddParam kv.1 kv.2)) = some d1)
    (h2 : c.chain (l2.map (fun kv => Mutator.AddParam kv.1 kv.2)) = some d2)
    (hp : ∀ k, GoMap.get? d1.params k = GoMap.get? d2.params k) :
    d1.parse = d2.parse ∧
    d1.parseQuery = d2.parseQuery ∧
    d1.parseData = d2.parseData ∧
    Url.Values.Encode ((GoMap.range d1.params).foldl (fun q kv => Url.Values.Add q kv.1 kv.2) [])
      = Url.Values.Encode
          ((GoMap.range d2.params).foldl (fun q kv => Url.Values.Add q kv.1 kv.2) []) ∧
    Json.Marshal d1.params = Json.Marshal d2.params ∧
    (Url.Values.keys (Url.ParseQuery (Url.Values.Encode
        ((GoMap.range d1.params).foldl (fun q kv => Url.Values.Add q kv.1 kv.2) []))).1).Sorted
      (· < ·) ∧
    (∀ k, k ∈ Url.Values.keys (Url.ParseQuery (Url.Values.Encode
        ((GoMap.range d1.params).foldl (fun q kv => Url.Values.Add q kv.1 kv.2) []))).1
      ↔ ∃ v, GoMap.get? d1.params k = some v) ∧
    (∀ m, d1.params = some m →
      ∃ sv : List (GoString × GoString),
        (Json.Marshal d1.params).1 = ch '{' :: Json.encodeMembers sv 0 ++ [ch '}'] ∧
        (sv.map Prod.fst).Sorted (· < ·) ∧
        ∀ k v, (k, v) ∈ sv ↔ GoMap.get? d1.params k = some v) := by
  obtain ⟨hu1, hm1, hc1, hn1⟩ := Client.chain_addParam l1 c d1 h1
  obtain ⟨hu2, hm2, hc2, hn2⟩ := Client.chain_addParam l2 c d2 h2
  obtain ⟨hq, hd, hpar⟩ := Client.parse_congr d1 d2 (hu1.trans hu2.symm) (hm1.trans hm2.symm)
    (hc1.trans hc2.symm) hp
  have hk := (ParseQuery_Encode_params d1.params).2.1
  refine ⟨hpar, hq, hd, (paramsValues_congr _ _ hp).1,
    Json.Marshal_congr _ _ hp (hn1.trans hn2.symm), ?_, ?_, ?_⟩
  · rw [hk]
    exact sorted_keys_ascending _ (GoMap.range_spec d1.params).1
  · intro k
    rw [hk, (List.perm_insertionSort _ _).mem_iff, GoMap.mem_range_keys]
  · intro m hm
    have hs := Json.sorted_entries_spec m
    have hkeys : ((List.insertionSort (· ≤ ·) (Entries.keys m)).filterMap
        (fun k => (Entries.get? m k).map (fun v => (k, v)))).map Prod.fst
        = List.insertionSort (· ≤ ·) (Entries.keys m) := by
      apply filterMap_pairs_fst
      intro k hk
      exact Entries.get?_of_mem m k
        (List.mem_dedup.mp ((List.perm_insertionSort _ _).mem_iff.mp hk))
    refine ⟨(List.insertionSort (· ≤ ·) (Entries.keys m)).filterMap
        (fun k => (Entries.get? m k).map (fun v => (k, v))), ?_, ?_, ?_⟩
    · rw [hm]; rfl
    · rw [hkeys]
      exact sorted_keys_ascending _ (List.nodup_dedup _)
    · intro k v
      rw [hm]
      exact hs.2.1 k v

theorem encoding_independent_of_insertion_order_witness :
    (NewClient (str "http://x.test/api")).chain
        [.AddParam (str "b") (str "2"), .AddParam (str "a") (str "1")]
      = some { NewClient (str "http://x.test/api") with
          params := some [(str "b", str "2"), (str "a", str "1")] } ∧
    (NewClient (str "http://x.test/api")).chain
        [.AddParam (str "a") (str "0"), .AddParam (str "b") (str "2"),
         .AddParam (str "a") (str "1")]
      = some { NewClient (str "http://x.test/api") with
          params := some [(str "a", str "1"), (str "b", str "2")] } ∧
    Json.Marshal (some [(str "b", str "2"), (str "a", str "1")])
      = Json.Marshal (some [(str "a", str "1"), (str "b", str "2")]) ∧
    Json.Marshal (some [(str "b", str "2"), (str "a", str "1")])
      = (str "\x7b\"a\":\"1\",\"b\":\"2\"\x7d", none) ∧
    Url.Values.Encode ((GoMap.range (some [(str "b", str "2"), (str "a", str "1")])).foldl
        (fun q kv => Url.Values.Add q kv.1 kv.2) []) = str "a=1&b=2" := by
  have h := encoding_independent_of_insertion_order (NewClient (str "http://x.test/api"))
    [(str "b", str "2"), (str "a", str "1")]
    [(str "a", str "0"), (str "b", str "2"), (str "a", str "1")]
    { NewClient (str "http://x.test/api") with
      params := some [(str "b", str "2"), (str "a", str "1")] }
    { NewClient (str "http://x.test/api") with
      params := some [(str "a", str "1"), (str "b", str "2")] }
    (by decide) (by decide)
    (by
      intro k
      simp only [GoMap.get?, Entries.get?]
      by_cases ha : str "a" = k
      · have hb : str "b" ≠ k := by rw [← ha]; decide
        simp [ha, hb]
      · simp [ha])
  exact ⟨by decide, by decide, h.2.2.2.2.1, by decide, by decide⟩

/-! ## Nil maps -/

/-- One mutator call other than `SetHeaders(nil)` on a configuration whose
maps are not nil returns, and the maps are not nil afterwards. -/
theorem Client.call_maps (c : Client) (m : Mutator) (hh : c.headers ≠ none)
    (hp : c.params ≠ none) (hm : m ≠ Mutator.SetHeaders none) :
    ∃ d, c.call m = some d ∧ d.headers ≠ none ∧ d.params ≠ none := by
  obtain ⟨H, hH⟩ := Option.ne_none_iff_exists'.mp hh
  obtain ⟨P, hP⟩ := Option.ne_none_iff_exists'.mp hp
  cases m with
  | SetHeaders h =>
    refine ⟨c.SetHeaders h, rfl, ?_, hp⟩
    intro hn
    apply hm
    have : h = none := hn
    rw [this]
  | AddHeader k v =>
    refine ⟨{ c with headers := some (Entries.set H k v) }, ?_, by simp, hp⟩
    simp [Client.call, Client.AddHeader, GoMap.set, hH]
  | SetContentType t =>
    by_cases hj : t = JsonType
    · refine ⟨{ c with headers := some (Entries.set H (str "Content-Type")
          (str "application/json")), contentType := t }, ?_, by simp, hp⟩
      simp [Client.call, Client.SetContentType, GoMap.set, hH, hj]
    · by_cases hf : t = FormType
      · have hfj : FormType ≠ JsonType := by decide
        refine ⟨{ c with headers := some (Entries.set H (str "Content-Type")
            (str "application/x-www-form-urlencoded")), contentType := t }, ?_, by simp, hp⟩
        simp [Client.call, Client.SetContentType, GoMap.set, hH, hf, hfj]
      · refine ⟨{ c with contentType := t }, ?_, hh, hp⟩
        simp [Client.call, Client.SetContentType, hj, hf]
  | AddParam k v =>
    refine ⟨{ c with params := some (Entries.set P k v) }, ?_, hh, by simp⟩
    simp [Client.call, Client.AddParam, GoMap.set, hP]
  | SetCookies cs => exact ⟨c.SetCookies cs, rfl, hh, hp⟩
  | SetTimeout t => exact ⟨c.SetTimeout t, rfl, hh, hp⟩
  | SetBody b => exact ⟨c.SetBody b, rfl, hh, hp⟩

/-- A chain of mutator calls without `SetHeaders(nil)` on a configuration
whose maps are not nil returns, and the maps are not nil afterwards. -/
theorem Client.chain_maps (ops : List Mutator) :
    ∀ c : Client, c.headers ≠ none → c.params ≠ none →
      (∀ m ∈ ops, m ≠ Mutator.SetHeaders none) →
      ∃ d, c.chain ops = some d ∧ d.headers ≠ none ∧ d.params ≠ none := by
  induction ops with
  | nil =>
    intro c hh hp _
    exact ⟨c, rfl, hh, hp⟩
  | cons m ops ih =>
    intro c hh hp hops
    obtain ⟨d, hd, hdh, hdp⟩ := Client.call_maps c m hh hp (hops m (List.mem_cons_self _ _))
    obtain ⟨e, he, heh, hep⟩ := ih d hdh hdp (fun x hx => hops x (List.mem_cons_of_mem _ hx))
    refine ⟨e, ?_, heh, hep⟩
    simp only [Client.chain, hd, he]

/-- No mutator call makes the params map nil. -/
theorem Client.call_params (c d : Client) (m : Mutator) (hp : c.params ≠ none)
    (h : c.call m = some d) : d.params ≠ none := by
  obtain ⟨P, hP⟩ := Option.ne_none_iff_exists'.mp hp
  cases m with
  | SetHeaders hs =>
    simp only [Client.call, Option.some.injEq] at h
    subst h
    exact hp
  | AddHeader k v =>
    simp only [Client.call, Client.AddHeader] at h
    split at h
    · exact Option.noConfusion h
    · simp only [Option.some.injEq] at h
      subst h
      exact hp
  | SetContentType t =>
    simp only [Client.call, Client.SetContentType] at h
    split at h
    · split at h
      · exact Option.noConfusion h
      · simp only [Option.some.injEq] at h
        subst h
        exact hp
    · split at h
      · split at h
        · exact Option.noConfusion h
        · simp only [Option.some.injEq] at h
          subst h
          exact hp
      · simp only [Option.some.injEq] at h
        subst h
        exact hp
  | AddParam k v =>
    simp only [Client.call, Client.AddParam, GoMap.set, hP, Option.some.injEq] at h
    subst h
    simp
  | SetCookies cs =>
    simp only [Client.call, Option.some.injEq] at h
    subst h
    exact hp
  | SetTimeout t =>
    simp only [Client.call, Option.some.injEq] at h
    subst h
    exact hp
  | SetBody b =>
    simp only [Client.call, Option.some.injEq] at h
    subst h
    exact hp

theorem Client.chain_params (ops : List Mutator) :
    ∀ c d : Client, c.params ≠ none → c.chain ops = some d → d.params ≠ none := by
  induction ops with
  | nil =>
    intro c d hp h
    simp only [Client.chain, Option.some.injEq] at h
    subst h
    exact hp
  | cons m ops ih =>
    intro c d hp h
    simp only [Client.chain] at h
    cases hc : c.call m with
    | none => simp [hc] at h
    | some e =>
      simp only [hc] at h
      exact ih e d (Client.call_params c e m hp hc) h

/-- C19: in every state reached from `NewClient` by a chain of `AddHeader`,
`AddParam`, `SetContentType`, `SetCookies`, `SetTimeout`, `SetBody` and
`SetHeaders` with a non-nil mapping, every call in the chain returns, the
headers and the params are not nil, and so `AddHeader`, `AddParam` and
`SetContentType` do not fault there.  The params are not nil in any state
reached at all, and headers are nil in a reached state only when the chain
holds a `SetHeaders(nil)`.  After `SetHeaders(nil)` the headers are nil, and
`AddHeader` and `SetContentType` with JSON or FORM fault on the write, while
`SetContentType` with another content type and `AddParam` do not. -/
theorem maps_not_nil_unless_setHeaders_nil (u : GoString) :
    (∀ ops : List Mutator, (∀ m ∈ ops, m ≠ Mutator.SetHeaders none) →
      ∃ c, (NewClient u).chain ops = some c ∧ c.headers ≠ none ∧ c.params ≠ none ∧
        (∀ k v, c.AddHeader k v ≠ none) ∧ (∀ k v, c.AddParam k v ≠ none) ∧
        (∀ t, c.SetContentType t ≠ none)) ∧
    (∀ (ops : List Mutator) (c : Client), (NewClient u).chain ops = some c →
      c.params ≠ none ∧ (∀ k v, c.AddParam k v ≠ none) ∧
      (c.headers = none → Mutator.SetHeaders none ∈ ops)) ∧
    (∀ (ops : List Mutator) (c : Client), (NewClient u).chain ops = some c →
      (c.SetHeaders none).headers = none ∧
      (∀ k v, (c.SetHeaders none).AddHeader k v = none) ∧
      (c.SetHeaders none).SetContentType JsonType = none ∧
      (c.SetHeaders none).SetContentType FormType = none ∧
      (∀ t, t ≠ JsonType → t ≠ FormType → (c.SetHeaders none).SetContentType t ≠ none) ∧
      (∀ k v, (c.SetHeaders none).AddParam k v ≠ none) ∧
      (∀ k v rest, (NewClient u).chain
        (ops ++ Mutator.SetHeaders none :: Mutator.AddHeader k v :: rest) = none)) := by
  have hcall : ∀ (c : Client) (m : Mutator), c.headers ≠ none → c.params ≠ none →
      m ≠ Mutator.SetHeaders none → c.call m ≠ none := by
    intro c m hh hp hm hn
    obtain ⟨d, hd, _⟩ := Client.call_maps c m hh hp hm
    rw [hn] at hd
    exact Option.noConfusion hd
  have haddParam : ∀ c : Client, c.params ≠ none → ∀ k v, c.AddParam k v ≠ none := by
    intro c hp k v
    obtain ⟨P, hP⟩ := Option.ne_none_iff_exists'.mp hp
    simp [Client.AddParam, GoMap.set, hP]
  refine ⟨?_, ?_, ?_⟩
  · intro ops hops
    obtain ⟨c, hc, hh, hp⟩ := Client.chain_maps ops (NewClient u) (by simp [NewClient])
      (by simp [NewClient]) hops
    refine ⟨c, hc, hh, hp, ?_, haddParam c hp, ?_⟩
    · intro k v
      exact hcall c (.AddHeader k v) hh hp (by simp)
    · intro t
      exact hcall c (.SetContentType t) hh hp (by simp)
  · intro ops c hc
    have hp := Client.chain_params ops (NewClient u) c (by simp [NewClient]) hc
    refine ⟨hp, haddParam c hp, ?_⟩
    intro hnil
    by_contra hmem
    obtain ⟨d, hd, hh, _⟩ := Client.chain_maps ops (NewClient u) (by simp [NewClient])
      (by simp [NewClient]) (fun m hm heq => hmem (heq ▸ hm))
    rw [hc, Option.some.injEq] at hd
    subst hd
    exact hh hnil
  · intro ops c hc
    have hp := Client.chain_params ops (NewClient u) c (by simp [NewClient]) hc
    refine ⟨rfl, fun _ _ => rfl, rfl, rfl, ?_, ?_, ?_⟩
    · intro t hj hf
      simp [Client.SetContentType, hj, hf]
    · exact haddParam (c.SetHeaders none) hp
    · intro k v rest
      have happ : ∀ (l1 l2 : List Mutator) (a b : Client), a.chain l1 = some b →
          a.chain (l1 ++ l2) = b.chain l2 := by
        intro l1
        induction l1 with
        | nil =>
          intro l2 a b h
          simp only [Client.chain, Option.some.injEq] at h
          subst h
          rfl
        | cons m l1 ih =>
          intro l2 a b h
          simp only [Client.chain, List.cons_append] at h ⊢
          cases hm : a.call m with
          | none => simp [hm] at h
          | some e =>
            simp only [hm] at h ⊢
            exact ih l2 e b h
      rw [happ ops _ (NewClient u) c hc]
      rfl

/-! ## `AddParam` and the encodings -/

/-- What `parse` returns for a body-bearing method with the JSON content type
and at least one param. -/
theorem parse_json_body_of_params (c : Client)
    (hm : c.method = Post ∨ c.method = Put ∨ c.method = Patch)
    (hj : c.contentType = JsonType) (hpos : 0 < GoMap.len c.params) :
    c.parse = (c.url, some (Json.Marshal c.params).1, none) := by
  have h1 : ¬ (c.method = Get ∨ c.method = Delete) := by
    rcases hm with h | h | h <;> rw [h] <;> decide
  have hp : c.parse = c.parseData := by simp [Client.parse, h1, hm]
  rw [hp]
  rcases Client.parseData_cases c with ⟨h0, _⟩ | ⟨_, _, h⟩ | ⟨_, hf, _⟩ | ⟨_, hnj, _⟩
  · omega
  · exact h
  · rw [hj] at hf
    exact absurd hf (by decide)
  · exact absurd hj hnj

/-- What `parse` returns for a body-bearing method with the FORM content type
and at least one param. -/
theorem parse_form_body_of_params (c : Client)
    (hm : c.method = Post ∨ c.method = Put ∨ c.method = Patch)
    (hf : c.contentType = FormType) (hpos : 0 < GoMap.len c.params) :
    c.parse = (c.url, some (Url.Values.Encode
      ((GoMap.range c.params).foldl (fun q kv => Url.Values.Add q kv.1 kv.2) [])), none) := by
  have h1 : ¬ (c.method = Get ∨ c.method = Delete) := by
    rcases hm with h | h | h <;> rw [h] <;> decide
  have hp : c.parse = c.parseData := by simp [Client.parse, h1, hm]
  rw [hp]
  rcases Client.parseData_cases c with ⟨h0, _⟩ | ⟨_, hj, _⟩ | ⟨_, _, h⟩ | ⟨_, _, hnf, _⟩
  · omega
  · rw [hf] at hj
    exact absurd hj (by decide)
  · exact h
  · exact absurd hf hnf

theorem GoMap.len_pos_of_get? (p : GoMap) (k v : GoString) (h : GoMap.get? p k = some v) :
    0 < GoMap.len p := by
  have hr := GoMap.range_spec p
  rw [← hr.2.2]
  exact List.length_pos_of_mem ((GoMap.mem_range_keys p k).mpr ⟨v, h⟩)

/-- C13, the claim as stated fails for the JSON body: after the params
`{"\xfe": "1"}`, `AddParam("\xff", "2")` and `AddParam("\xff", "3")` leave the
one entry `"\xff": "3"` in the params, but the JSON body that `parse` writes
for POST is `{"\ufffd":"1","\ufffd":"3"}`: it holds no member with the key
`\xff`, and the key U+FFFD twice. -/
theorem addParam_json_body_without_key :
    (NewClient (str "http://x.test/api")).chain
        [.AddParam [0xFE] (str "1"), .AddParam [0xFF] (str "2"), .AddParam [0xFF] (str "3")]
      = some { NewClient (str "http://x.test/api") with
          params := some [([0xFE], str "1"), ([0xFF], str "3")] } ∧
    ({ NewClient (str "http://x.test/api") with
        params := some [([0xFE], str "1"), ([0xFF], str "3")], method := Post } : Client).parse
      = (str "http://x.test/api",
          some (str "\x7b\"\\ufffd\":\"1\",\"\\ufffd\":\"3\"\x7d"), none) ∧
    Readback.parseMembers (str "\x7b\"\\ufffd\":\"1\",\"\\ufffd\":\"3\"\x7d")
      = some [([0xEF, 0xBF, 0xBD], str "1"), ([0xEF, 0xBF, 0xBD], str "3")] ∧
    [(([0xEF, 0xBF, 0xBD] : GoString), str "1"), ([0xEF, 0xBF, 0xBD], str "3")].filter
        (fun kv => kv.1 = [0xFF]) = [] ∧
    ([(([0xEF, 0xBF, 0xBD] : GoString), str "1"), ([0xEF, 0xBF, 0xBD], str "3")].filter
        (fun kv => kv.1 = [0xEF, 0xBF, 0xBD])).length = 2 ∧
    Readback.parseObject (str "\x7b\"\\ufffd\":\"1\",\"\\ufffd\":\"3\"\x7d")
      = some [([0xEF, 0xBF, 0xBD], str "3")] ∧
    Entries.get? [([0xEF, 0xBF, 0xBD], str "3")] [0xFF] = none := by
  refine ⟨by decide, by decide, by decide, by decide, by decide, by decide, by decide⟩

/-- C13, amended: `AddParam(k, v)` on a configuration whose params mapping is
not nil (every configuration made by `NewClient` is such) is an upsert:
afterwards the params map `k` to `v`, every other key has the value it had,
and the keys are still unique, `k` being there once; so after `AddParam(k, v1)`
and `AddParam(k, v2)` the one entry of `k` holds `v2`.  The text that
`Values.Encode` writes for these params, which is the query of the effective
URL of GET and DELETE for a url that `url.Parse` accepts and the FORM body of
POST, PUT and PATCH, reads back with `k` once, with `v2`.  When all keys and
values of the params are valid UTF-8, the JSON body of POST, PUT and PATCH
reads back as members with unique keys, one of them `k`, with `v2`. -/
theorem addParam_upsert (c : Client) (k v : GoString) (hnil : c.params ≠ none) :
    ∃ c2, c.AddParam k v = some c2 ∧ c2.params ≠ none ∧
      GoMap.get? c2.params k = some v ∧
      (∀ k2, k2 ≠ k → GoMap.get? c2.params k2 = GoMap.get? c.params k2) ∧
      (∀ m m2, c.params = some m → c2.params = some m2 → (m.map Prod.fst).Nodup →
        (m2.map Prod.fst).Nodup) ∧
      ((GoMap.range c2.params).map Prod.fst).Nodup ∧
      (GoMap.range c2.params).filter (fun kv => kv.1 = k) = [(k, v)] ∧
      (∀ v2, ∃ c3, c2.AddParam k v2 = some c3 ∧
        GoMap.get? c3.params k = some v2 ∧
        (GoMap.range c3.params).filter (fun kv => kv.1 = k) = [(k, v2)] ∧
        (Url.Values.keys (Url.ParseQuery (Url.Values.Encode
          ((GoMap.range c3.params).foldl (fun q kv => Url.Values.Add q kv.1 kv.2) []))).1).Nodup ∧
        Url.Values.lookup (Url.ParseQuery (Url.Values.Encode
          ((GoMap.range c3.params).foldl (fun q kv => Url.Values.Add q kv.1 kv.2) []))).1 k
          = [v2] ∧
        (∀ meth u, (meth = Get ∨ meth = Delete) → Url.Parse c3.url = .ok u →
          (c3.setMethodType meth).parse.2 = (none, none) ∧
          Readback.queryComponent (c3.setMethodType meth).parse.1 = Url.Values.Encode
            ((GoMap.range c3.params).foldl (fun q kv => Url.Values.Add q kv.1 kv.2) [])) ∧
        (∀ meth, (meth = Post ∨ meth = Put ∨ meth = Patch) → c3.contentType = FormType →
          (c3.setMethodType meth).parse = (c3.url, some (Url.Values.Encode
            ((GoMap.range c3.params).foldl (fun q kv => Url.Values.Add q kv.1 kv.2) [])),
            none)) ∧
        (∀ meth, (meth = Post ∨ meth = Put ∨ meth = Patch) → c3.contentType = JsonType →
          (∀ k3 v3, GoMap.get? c3.params k3 = some v3 →
            Utf8.ValidString k3 = true ∧ Utf8.ValidString v3 = true) →
          ∃ body members, (c3.setMethodType meth).parse = (c3.url, some body, none) ∧
            Readback.parseMembers body = some members ∧
            (members.map Prod.fst).Nodup ∧
            members.filter (fun kv => kv.1 = k) = [(k, v2)])) := by
  obtain ⟨m, hm⟩ := Option.ne_none_iff_exists'.mp hnil
  have hrange : ∀ (p : GoMap) (x : GoString), GoMap.get? p k = some x →
      (GoMap.range p).filter (fun kv => kv.1 = k) = [(k, x)] := by
    intro p x hx
    have hr := GoMap.range_spec p
    exact filter_key_of_nodup _ k x hr.1 ((hr.2.1 k x).mpr hx)
  refine ⟨{ c with params := some (Entries.set m k v) }, by simp [Client.AddParam, hm, GoMap.set],
    by simp, ?_, ?_, ?_, (GoMap.range_spec _).1, ?_, ?_⟩
  · simp [GoMap.get?, Entries.get?_set_self]
  · intro k2 hk2
    simp [hm, GoMap.get?, Entries.get?_set_of_ne _ _ _ _ hk2]
  · intro m1 m2 h1 h2 hnd
    rw [hm] at h1
    simp only [Option.some.injEq] at h1 h2
    subst h1 h2
    exact Entries.set_keys_nodup _ _ _ hnd
  · exact hrange _ v (by simp [GoMap.get?, Entries.get?_set_self])
  · intro v2
    have hget : GoMap.get? (some (Entries.set (Entries.set m k v) k v2)) k = some v2 := by
      simp [GoMap.get?, Entries.get?_set_self]
    have hrt := ParseQuery_Encode_params (some (Entries.set (Entries.set m k v) k v2))
    have hpos := GoMap.len_pos_of_get? _ k v2 hget
    refine ⟨{ c with params := some (Entries.set (Entries.set m k v) k v2) },
      by simp [Client.AddParam, GoMap.set], hget, hrange _ v2 hget, hrt.2.2.1, ?_, ?_, ?_, ?_⟩
    · have := hrt.2.2.2 k
      rw [hget] at this
      exact this
    · intro meth u hmeth hu
      generalize hc3 : ({ c with params := some (Entries.set (Entries.set m k v) k v2) } : Client)
        = c3 at hu
      have hq := Client.parseQuery_of_Parse (c3.setMethodType meth) u hu
      have hparse : (c3.setMethodType meth).parse
          = ((c3.setMethodType meth).parseQuery.1, none, (c3.setMethodType meth).parseQuery.2) := by
        have hmm : (c3.setMethodType meth).method = Get ∨ (c3.setMethodType meth).method = Delete :=
          hmeth
        simp only [Client.parse, hmm, if_true]
      rw [hparse]
      refine ⟨?_, hq.2.1⟩
      rw [hq.1]
    · intro meth hmeth hf
      exact parse_form_body_of_params _ hmeth hf hpos
    · intro meth hmeth hj hvalid
      obtain ⟨members, hmem, hnd, hiff⟩ := Readback.parseMembers_Marshal
        (Entries.set (Entries.set m k v) k v2) hpos hvalid
      refine ⟨_, members, parse_json_body_of_params _ hmeth hj hpos, hmem, hnd, ?_⟩
      exact filter_key_of_nodup _ k v2 hnd ((hiff k v2).mpr hget)

theorem addParam_upsert_witness :
    (NewClient (str "http://x.test/api")).params ≠ none ∧
    ((((NewClient (str "http://x.test/api")).AddParam (str "q") (str "1")).bind
        (fun c => c.AddParam (str "r") (str "x"))).bind
        (fun c => c.AddParam (str "q") (str "2"))).map (fun c => c.params)
      = some (some [(str "q", str "2"), (str "r", str "x")]) ∧
    ((((NewClient (str "http://x.test/api")).AddParam (str "q") (str "1")).bind
        (fun c => c.AddParam (str "r") (str "x"))).bind
        (fun c => c.AddParam (str "q") (str "2"))).map
        (fun c => ((c.setMethodType Get).parse.1, (c.setMethodType Post).parse.2.1))
      = some (str "http://x.test/api?q=2&r=x",
          some (str "\x7b\"q\":\"2\",\"r\":\"x\"\x7d")) ∧
    Readback.parseMembers (str "\x7b\"q\":\"2\",\"r\":\"x\"\x7d")
      = some [(str "q", str "2"), (str "r", str "x")] ∧
    (Utf8.ValidString (str "q") = true ∧ Utf8.ValidString (str "2") = true ∧
      Utf8.ValidString (str "r") = true ∧ Utf8.ValidString (str "x") = true) ∧
    ((NewClient (str "http://x.test/api")).AddParam (str "q") (str "1")).map
        (fun c2 => (GoMap.get? c2.params (str "q"),
          (GoMap.range c2.params).filter (fun kv => kv.1 = str "q")))
      = some (some (str "1"), [(str "q", str "1")]) := by
  obtain ⟨c2, h1, _, h3, _, _, _, h7, _⟩ :=
    addParam_upsert (NewClient (str "http://x.test/api")) (str "q") (str "1") (by decide)
  refine ⟨by decide, by decide, by decide, by decide, by decide, ?_⟩
  rw [h1, Option.map_some', h3, h7]

end Https
